import Mathlib

/-!
# go-rsubl: the channel (`rsub/conn.go`) and the dispatcher (`rsubl.go`)

A shallow embedding of the repository's two source files.  Go strings and
byte slices are lists of bytes; the TCP stream, the two `bufio` buffers, the
file system and the global `hashes` map are explicit state that every
operation takes and returns.  Loops run on fuel that is computed from the
state and shown to be enough wherever a result is claimed.

The definitions come first: the stream, `bufio`, `conn.go`, the library
functions `rsubl.go` calls, the file system, `io.CopyN`, `rsubl.go`, and the
sample states used to evaluate the code.  The theorems follow.
-/

namespace Rsubl

/-! ## Bytes and errors -/

/-- Go `string` and `[]byte` values. -/
abbrev Bytes := List UInt8

/-- The bytes of an ASCII literal. -/
def B (s : String) : Bytes := s.toList.map (fun ch => ch.toNat.toUInt8)

/-- The Go `error` values that occur in the two files.  `none : Option GoError`
is the nil error. -/
inductive GoError where
  /-- Value `io.EOF`. -/
  | EOF
  /-- Value `bufio.ErrBufferFull`. -/
  | ErrBufferFull
  /-- Value `io.ErrNoProgress`. -/
  | ErrNoProgress
  /-- Value `net.ErrClosed`: use of closed network connection. -/
  | ErrClosed
  /-- An error reported by the operating system (network or file system). -/
  | sys (msg : String)
  /-- Value `errors.New(msg)`. -/
  | new (msg : Bytes)
  /-- Value `protocolError(msg)` of `conn.go`. -/
  | protocolError (msg : String)
  /-- Value `cli.Exit(msg, code)`. -/
  | exit (msg : String) (code : Nat)
  /-- Value `strconv.ErrSyntax` wrapped in a `NumError` for the text `s`. -/
  | numSyntax (s : Bytes)
  /-- Value `strconv.ErrRange` wrapped in a `NumError` for the text `s`. -/
  | numRange (s : Bytes)
  deriving DecidableEq, Repr

/-- Whether the error is a `protocolError` of `conn.go`. -/
def GoError.isProtocol : GoError → Bool
  | .protocolError _ => true
  | _ => false

deriving instance DecidableEq for Except

/-! ## The underlying stream (`net.Conn`) -/

/-- The calls made on the underlying `net.Conn`, in order. -/
inductive StreamCall where
  | read
  | write
  | close
  | setReadDeadline
  | setWriteDeadline
  deriving DecidableEq, Repr

/-- How the incoming half of the stream ends once the peer's bytes are used
up: an orderly shutdown (`io.EOF`) or a failure. -/
inductive StreamEnd where
  | eof
  | fail (msg : String)
  deriving DecidableEq, Repr

/-- The error `Read` returns at the end of the stream. -/
def StreamEnd.toError : StreamEnd → GoError
  | .eof => .EOF
  | .fail m => .sys m

/-- The TCP connection.  `incoming` is the peer's data in the pieces in which
successive `Read` calls will see it; `outgoing` is what has been written to
the peer; `writeErr` makes every `Write` fail; `calls` records every call. -/
structure NetConn where
  incoming : List Bytes
  ending : StreamEnd
  outgoing : Bytes
  writeErr : Option String
  closed : Bool
  calls : List StreamCall
  deriving DecidableEq, Repr

/-- Pieces of length zero are never seen by a blocking `Read`. -/
def dropEmpty : List Bytes → List Bytes
  | [] => []
  | [] :: cs => dropEmpty cs
  | (b :: bs) :: cs => (b :: bs) :: cs

/-- Call `conn.Read(p)` with `len(p) = max`: blocks for the next piece and
returns at most `max` bytes of it, or the end of the stream; fails on a closed
connection. -/
def NetConn.Read (max : Nat) (n : NetConn) : (Bytes × Option GoError) × NetConn :=
  let n1 := { n with calls := n.calls ++ [StreamCall.read] }
  if n.closed then (([], some .ErrClosed), n1)
  else
    match dropEmpty n.incoming with
    | [] => (([], some n.ending.toError), { n1 with incoming := [] })
    | c :: cs =>
      if c.length ≤ max then ((c, none), { n1 with incoming := cs })
      else ((c.take max, none), { n1 with incoming := c.drop max :: cs })

/-- Call `conn.Write(p)`: all of `p` reaches the peer, or nothing does and an
error is returned. -/
def NetConn.Write (p : Bytes) (n : NetConn) : (Nat × Option GoError) × NetConn :=
  let n1 := { n with calls := n.calls ++ [StreamCall.write] }
  if n.closed then ((0, some .ErrClosed), n1)
  else
    match n.writeErr with
    | some m => ((0, some (.sys m)), n1)
    | none => ((p.length, none), { n1 with outgoing := n.outgoing ++ p })

/-- Call `conn.Close()`. -/
def NetConn.Close (n : NetConn) : Option GoError × NetConn :=
  (if n.closed then some .ErrClosed else none,
   { n with closed := true, calls := n.calls ++ [StreamCall.close] })

/-- Call `conn.SetReadDeadline(t)`. -/
def NetConn.SetReadDeadline (n : NetConn) : NetConn :=
  { n with calls := n.calls ++ [StreamCall.setReadDeadline] }

/-- Call `conn.SetWriteDeadline(t)`. -/
def NetConn.SetWriteDeadline (n : NetConn) : NetConn :=
  { n with calls := n.calls ++ [StreamCall.setWriteDeadline] }

/-! ## `bufio.Reader` -/

/-- A `bufio.Reader`: `size` is `len(b.buf)`, `buf` the buffered unread bytes
`b.buf[b.r:b.w]`, `err` the pending error `b.err`. -/
structure Reader where
  size : Nat
  buf : Bytes
  err : Option GoError
  deriving DecidableEq, Repr

/-- Function `bufio.NewReader`: the default buffer is 4096 bytes. -/
def NewReader : Reader := { size := 4096, buf := [], err := none }

/-- Function `bufio.NewReaderSize`: at least 16 bytes. -/
def NewReaderSize (size : Nat) : Reader := { size := max size 16, buf := [], err := none }

/-- Method `(*Reader).fill`: one read into the free part of the buffer. -/
def Reader.fill (r : Reader) (n : NetConn) : Reader × NetConn :=
  let res := n.Read (r.size - r.buf.length)
  ({ r with buf := r.buf ++ res.1.1, err := res.1.2 }, res.2)

/-- The first occurrence of `d`: the bytes up to and including it, and the
bytes after it (`bytes.IndexByte` and the two slices taken from it). -/
def cutLine (d : UInt8) : Bytes → Option (Bytes × Bytes)
  | [] => none
  | b :: bs =>
    if b = d then some ([b], bs)
    else
      match cutLine d bs with
      | some (l, rest) => some (b :: l, rest)
      | none => none

/-- The loop of `(*Reader).ReadSlice`, one iteration per unit of fuel. -/
def Reader.ReadSliceAux (delim : UInt8) :
    Nat → Reader → NetConn → (Bytes × Option GoError) × Reader × NetConn
  | 0, r, n => (([], some .ErrNoProgress), r, n)
  | fuel + 1, r, n =>
    match cutLine delim r.buf with
    | some (line, rest) => ((line, none), { r with buf := rest }, n)
    | none =>
      match r.err with
      | some e => ((r.buf, some e), { r with buf := [], err := none }, n)
      | none =>
        if r.size ≤ r.buf.length then
          ((r.buf, some .ErrBufferFull), { r with buf := [] }, n)
        else
          let s := r.fill n
          Reader.ReadSliceAux delim fuel s.1 s.2

/-- Method `(*Reader).ReadSlice`.  Every iteration that does not return adds a
byte to the buffer or sets the pending error, so `size + 2` iterations are
enough. -/
def Reader.ReadSlice (delim : UInt8) (r : Reader) (n : NetConn) :
    (Bytes × Option GoError) × Reader × NetConn :=
  Reader.ReadSliceAux delim (r.size + 2) r n

/-- Method `(*Reader).Read` for a destination of `k` bytes. -/
def Reader.Read (k : Nat) (r : Reader) (n : NetConn) :
    (Bytes × Option GoError) × Reader × NetConn :=
  if k = 0 then
    if 0 < r.buf.length then (([], none), r, n)
    else (([], r.err), { r with err := none }, n)
  else if r.buf.length = 0 then
    match r.err with
    | some e => (([], some e), { r with err := none }, n)
    | none =>
      if r.size ≤ k then
        let res := n.Read k
        (res.1, r, res.2)
      else
        let res := n.Read r.size
        if res.1.1.length = 0 then (([], res.1.2), r, res.2)
        else ((res.1.1.take k, none), { r with buf := res.1.1.drop k, err := res.1.2 }, res.2)
  else ((r.buf.take k, none), { r with buf := r.buf.drop k }, n)

/-! ## `bufio.Writer` -/

/-- A `bufio.Writer`: `size` is `len(b.buf)`, `buf` the buffered bytes
`b.buf[0:b.n]`, `err` the sticky error `b.err`. -/
structure Writer where
  size : Nat
  buf : Bytes
  err : Option GoError
  deriving DecidableEq, Repr

/-- Function `bufio.NewWriter`: the default buffer is 4096 bytes. -/
def NewWriter : Writer := { size := 4096, buf := [], err := none }

/-- Method `(*Writer).Flush`. -/
def Writer.Flush (w : Writer) (n : NetConn) : Option GoError × Writer × NetConn :=
  match w.err with
  | some e => (some e, w, n)
  | none =>
    if w.buf.length = 0 then (none, w, n)
    else
      let res := n.Write w.buf
      let err : Option GoError :=
        if res.1.1 < w.buf.length ∧ res.1.2 = none then some (.sys "short write") else res.1.2
      match err with
      | some e => (some e, { w with buf := w.buf.drop res.1.1, err := some e }, res.2)
      | none => (none, { w with buf := [] }, res.2)

/-- The loop of `(*Writer).WriteString`: while the text does not fit, fill the
buffer and flush it. -/
def Writer.WriteStringAux : Nat → Bytes → Writer → NetConn → Option GoError × Writer × NetConn
  | 0, _, w, n => (some .ErrNoProgress, w, n)
  | fuel + 1, s, w, n =>
    if w.size - w.buf.length < s.length ∧ w.err = none then
      let k := w.size - w.buf.length
      let res := Writer.Flush { w with buf := w.buf ++ s.take k } n
      Writer.WriteStringAux fuel (s.drop k) res.2.1 res.2.2
    else
      match w.err with
      | some e => (some e, w, n)
      | none => (none, { w with buf := w.buf ++ s }, n)

/-- Method `(*Writer).WriteString` (a `net.Conn` is no `io.StringWriter`, so
the text always goes through the buffer).  With a buffer of at least one byte
every iteration takes a byte of the text or fails, so `len(s) + 1` iterations
are enough. -/
def Writer.WriteString (s : Bytes) (w : Writer) (n : NetConn) :
    Option GoError × Writer × NetConn :=
  Writer.WriteStringAux (s.length + 1) s w n

/-- The loop of `(*Writer).Write`: a text larger than the free space is
written directly when the buffer is empty, and otherwise fills the buffer,
which is flushed. -/
def Writer.WriteAux : Nat → Bytes → Writer → NetConn → Option GoError × Writer × NetConn
  | 0, _, w, n => (some .ErrNoProgress, w, n)
  | fuel + 1, p, w, n =>
    if w.size - w.buf.length < p.length ∧ w.err = none then
      if w.buf.length = 0 then
        let res := n.Write p
        Writer.WriteAux fuel (p.drop res.1.1) { w with err := res.1.2 } res.2
      else
        let k := w.size - w.buf.length
        let res := Writer.Flush { w with buf := w.buf ++ p.take k } n
        Writer.WriteAux fuel (p.drop k) res.2.1 res.2.2
    else
      match w.err with
      | some e => (some e, w, n)
      | none => (none, { w with buf := w.buf ++ p }, n)

/-- Method `(*Writer).Write`. -/
def Writer.Write (p : Bytes) (w : Writer) (n : NetConn) : Option GoError × Writer × NetConn :=
  Writer.WriteAux (p.length + 1) p w n

/-! ## `rsub/conn.go` -/

/-- The struct `Conn`.  The mutex is left out: one goroutine runs everything,
so `Lock` and `Unlock` change nothing. -/
structure Conn where
  err : Option GoError
  conn : NetConn
  readTimeout : Nat
  br : Reader
  writeTimeout : Nat
  bw : Writer
  deriving DecidableEq, Repr

/-- What `NewConn` builds around a freshly dialled connection. -/
def NewConn (netConn : NetConn) : Conn :=
  { err := none, conn := netConn, readTimeout := 0, br := NewReader,
    writeTimeout := 0, bw := NewWriter }

/-- Method `(*Conn).Close`. -/
def Conn.Close (c : Conn) : Option GoError × Conn :=
  match c.err with
  | some e => (some e, c)
  | none =>
    let res := c.conn.Close
    (res.1, { c with err := some (.new (B "conn: closed")), conn := res.2 })

/-- Method `(*Conn).fatal`.  Its argument is a non-nil error at every call
site. -/
def Conn.fatal (err : GoError) (c : Conn) : GoError × Conn :=
  match c.err with
  | some _ => (err, c)
  | none => (err, { c with err := some err, conn := (c.conn.Close).2 })

/-- Method `(*Conn).Err`. -/
def Conn.Err (c : Conn) : Option GoError := c.err

/-- The deadline call that opens every send operation. -/
def Conn.armWrite (c : Conn) : Conn :=
  if c.writeTimeout ≠ 0 then { c with conn := c.conn.SetWriteDeadline } else c

/-- Method `(*Conn).SendString`. -/
def Conn.SendString (data : Bytes) (c : Conn) : Option GoError × Conn :=
  let c1 := c.armWrite
  let res := c1.bw.WriteString data c1.conn
  let c2 := { c1 with bw := res.2.1, conn := res.2.2 }
  match res.1 with
  | some e => let f := c2.fatal e; (some f.1, f.2)
  | none => (none, c2)

/-- Method `(*Conn).SendBytes`. -/
def Conn.SendBytes (data : Bytes) (c : Conn) : Option GoError × Conn :=
  let c1 := c.armWrite
  let res := c1.bw.Write data c1.conn
  let c2 := { c1 with bw := res.2.1, conn := res.2.2 }
  match res.1 with
  | some e => let f := c2.fatal e; (some f.1, f.2)
  | none => (none, c2)

/-- Method `(*Conn).SendFile`.  `io.Copy(c.bw, src)` hands the bytes that
`src` still holds to the writer, in order; `src` is given by those bytes. -/
def Conn.SendFile (src : Bytes) (c : Conn) : Option GoError × Conn :=
  let c1 := c.armWrite
  let res := c1.bw.Write src c1.conn
  let c2 := { c1 with bw := res.2.1, conn := res.2.2 }
  match res.1 with
  | some e => let f := c2.fatal e; (some f.1, f.2)
  | none => (none, c2)

/-- Method `(*Conn).Flush`. -/
def Conn.Flush (c : Conn) : Option GoError × Conn :=
  let c1 := c.armWrite
  let res := c1.bw.Flush c1.conn
  let c2 := { c1 with bw := res.2.1, conn := res.2.2 }
  match res.1 with
  | some e => let f := c2.fatal e; (some f.1, f.2)
  | none => (none, c2)

/-! ### The error latch as a sequence of calls -/

/-- A call that can set the stored error of a channel: `fatal(e)` or `Close()`. -/
inductive LatchCall where
  | fatal (e : GoError)
  | close
  deriving DecidableEq, Repr

/-- The channel after the call. -/
def LatchCall.run : LatchCall → Conn → Conn
  | .fatal e, c => (c.fatal e).2
  | .close, c => (c.Close).2

/-- The error the call stores when none is stored yet. -/
def LatchCall.value : LatchCall → GoError
  | .fatal e => e
  | .close => .new (B "conn: closed")

/-- The channel after a sequence of calls. -/
def runCalls : List LatchCall → Conn → Conn
  | [], c => c
  | k :: ks, c => runCalls ks (k.run c)

/-- How often `Close` has been invoked on the underlying stream. -/
def closeCount (c : Conn) : Nat := c.conn.calls.count StreamCall.close

/-! ### Reading -/

/-- The number of bytes the peer has sent that no read has returned yet. -/
def pending (r : Reader) (n : NetConn) : Nat :=
  r.buf.length + (n.incoming.map List.length).sum

/-- The loop `for err == bufio.ErrBufferFull` of `readLine`; `acc` is the
grown buffer `buf`. -/
def readLineGrow : Nat → Bytes → Reader → NetConn → (Bytes × Option GoError) × Reader × NetConn
  | 0, acc, r, n => ((acc, some .ErrBufferFull), r, n)
  | fuel + 1, acc, r, n =>
    let res := r.ReadSlice 10 n
    if res.1.2 = some .ErrBufferFull then
      readLineGrow fuel (acc ++ res.1.1) res.2.1 res.2.2
    else ((acc ++ res.1.1, res.1.2), res.2.1, res.2.2)

/-- Method `(*Conn).readLine`, on the reader and the stream it reads.  Every
round of the fallback loop takes a full buffer from the stream, so one round
per pending byte is enough. -/
def readLine (r : Reader) (n : NetConn) : Except GoError Bytes × Reader × NetConn :=
  let first := r.ReadSlice 10 n
  let res :=
    if first.1.2 = some .ErrBufferFull then
      readLineGrow (pending first.2.1 first.2.2 + 1) first.1.1 first.2.1 first.2.2
    else first
  match res.1.2 with
  | some e => (.error e, res.2)
  | none =>
    let p := res.1.1
    if p.length = 0 ∨ p.getLast? ≠ some 10 then
      (.error (.protocolError "bad response line terminator"), res.2)
    else (.ok p.dropLast, res.2)

/-- Method `(*Conn).readReply`.  The nil slice returned for an empty line is
the empty byte list. -/
def readReply (r : Reader) (n : NetConn) : Except GoError Bytes × Reader × NetConn :=
  let res := readLine r n
  match res.1 with
  | .error e => (.error e, res.2)
  | .ok line => if line.length = 0 then (.ok [], res.2) else (.ok line, res.2)

/-- Method `(*Conn).ReceiveWithTimeout`.  The reply is always a byte slice,
so the assertion `reply.(Error)` never holds; `.error e` is the pair
`(nil, e)` and `.ok line` the pair `(line, nil)`. -/
def Conn.ReceiveWithTimeout (_timeout : Nat) (c : Conn) : Except GoError Bytes × Conn :=
  let c1 := { c with conn := c.conn.SetReadDeadline }
  let res := readReply c1.br c1.conn
  let c2 := { c1 with br := res.2.1, conn := res.2.2 }
  match res.1 with
  | .error e => let f := c2.fatal e; (.error f.1, f.2)
  | .ok line => (.ok line, c2)

/-- Method `(*Conn).Receive`. -/
def Conn.Receive (c : Conn) : Except GoError Bytes × Conn :=
  c.ReceiveWithTimeout c.readTimeout

/-- Method `(*Conn).GetReader`: the reader, with the stream it reads. -/
def Conn.GetReader (c : Conn) : Reader × NetConn := (c.br, c.conn)

/-! ### Operations after a failure -/

/-- An operation on the channel. -/
inductive ChanOp where
  | sendString (data : Bytes)
  | sendBytes (data : Bytes)
  | sendFile (src : Bytes)
  | flush
  | receive
  deriving DecidableEq, Repr

/-- The error the operation returns (nil when it succeeds) and the channel
after it. -/
def ChanOp.run : ChanOp → Conn → Option GoError × Conn
  | .sendString d, c => c.SendString d
  | .sendBytes d, c => c.SendBytes d
  | .sendFile d, c => c.SendFile d
  | .flush, c => c.Flush
  | .receive, c =>
    match c.Receive with
    | (.ok _, c1) => (none, c1)
    | (.error e, c1) => (some e, c1)

/-- The operations that write: all but `Receive`. -/
def ChanOp.isSend : ChanOp → Bool
  | .receive => false
  | _ => true

/-- The channel after a sequence of operations. -/
def runOps : List ChanOp → Conn → Conn
  | [], c => c
  | op :: ops, c => runOps ops (op.run c).2

/-- The channel is latched: the writer keeps the error `e`, the stored error
is `x`, and there is no write timeout. -/
def Latched (e x : GoError) (c : Conn) : Prop :=
  c.bw.err = some e ∧ c.err = some x ∧ c.writeTimeout = 0

/-- The peer's bytes that no read has returned yet: the buffered ones, then
the ones still in the stream. -/
def unread (r : Reader) (n : NetConn) : Bytes := r.buf ++ n.incoming.flatten

/-- The part of the connection that reading leaves alone. -/
def NetConn.sameOut (n m : NetConn) : Prop :=
  m.closed = n.closed ∧ m.outgoing = n.outgoing ∧ m.writeErr = n.writeErr ∧ m.ending = n.ending

/-- The channel is ready to read and the peer's unread bytes are `s`: the
reader has a buffer and no pending error, and the connection is open. -/
def ReadsFrom (c : Conn) (s : Bytes) : Prop :=
  0 < c.br.size ∧ c.br.err = none ∧ c.conn.closed = false ∧ unread c.br c.conn = s

/-- The channel is ready to write: the writer has a buffer and no sticky
error, the connection is open and its writes succeed. -/
def Sends (c : Conn) : Prop :=
  0 < c.bw.size ∧ c.bw.err = none ∧ c.conn.closed = false ∧ c.conn.writeErr = none

/-- The bytes handed to the channel so far: the ones that reached the peer,
then the ones still buffered. -/
def sent (c : Conn) : Bytes := c.conn.outgoing ++ c.bw.buf

/-! ## Library functions used by `rsubl.go` -/

/-- Function `strings.HasPrefix`. -/
def HasPrefix (s pre : Bytes) : Bool := pre.isPrefixOf s

/-- The slice expression `s[k:]`, which panics when `k > len(s)`. -/
def sliceFrom (k : Nat) (s : Bytes) : Option Bytes :=
  if k ≤ s.length then some (s.drop k) else none

/-- The ASCII white space of `strings.TrimSpace`: tab, line feed, vertical
tab, form feed, carriage return, space. -/
def asciiSpace (a : UInt8) : Bool :=
  a == 9 || a == 10 || a == 11 || a == 12 || a == 13 || a == 32

/-- The two-byte UTF-8 encodings of white space: U+0085 and U+00A0. -/
def space2 (a b : UInt8) : Bool := a == 0xC2 && (b == 0x85 || b == 0xA0)

/-- The three-byte UTF-8 encodings of white space: U+1680, U+2000 to U+200A,
U+2028, U+2029, U+202F, U+205F and U+3000. -/
def space3 (a b c : UInt8) : Bool :=
  (a == 0xE1 && b == 0x9A && c == 0x80) ||
  (a == 0xE2 && b == 0x80 &&
    ((decide (0x80 ≤ c) && decide (c ≤ 0x8A)) || c == 0xA8 || c == 0xA9 || c == 0xAF)) ||
  (a == 0xE2 && b == 0x81 && c == 0x9F) ||
  (a == 0xE3 && b == 0x80 && c == 0x80)

/-- Removes the white space runes at the front; `two` and `three` recognise
the multi-byte ones in the order in which the bytes are met. -/
def trimFront (two : UInt8 → UInt8 → Bool) (three : UInt8 → UInt8 → UInt8 → Bool) :
    Bytes → Bytes
  | [] => []
  | a :: s1 =>
    if asciiSpace a then trimFront two three s1
    else
      match s1 with
      | [] => [a]
      | b :: s2 =>
        if two a b then trimFront two three s2
        else
          match s2 with
          | [] => [a, b]
          | c :: s3 => if three a b c then trimFront two three s3 else a :: b :: c :: s3

/-- Function `strings.TrimSpace`: the leading white space runes are removed,
then the trailing ones (met last byte first). -/
def TrimSpace (s : Bytes) : Bytes :=
  (trimFront (fun a b => space2 b a) (fun a b c => space3 c b a)
    (trimFront space2 space3 s).reverse).reverse

/-- The bytes that start a multi-byte white space rune. -/
def leadByte (x : UInt8) : Bool := x == 0xC2 || x == 0xE1 || x == 0xE2 || x == 0xE3

/-- The bytes that end a multi-byte white space rune. -/
def tailByte (x : UInt8) : Bool :=
  x == 0x85 || x == 0xA0 || x == 0x80 || (decide (0x80 ≤ x) && decide (x ≤ 0x8A)) ||
    x == 0xA8 || x == 0xA9 || x == 0xAF || x == 0x9F

/-- A byte that `TrimSpace` never removes: no white space, and neither the
first nor the last byte of the encoding of a white space rune. -/
def plainByte (x : UInt8) : Bool := !asciiSpace x && !leadByte x && !tailByte x

/-- The digit loop of `strconv.ParseUint(s, 10, 64)`: `.error true` is a range
error, `.error false` a syntax error. -/
def parseDigits : Bytes → Nat → Except Bool Nat
  | [], n => .ok n
  | ch :: cs, n =>
    if 48 ≤ ch ∧ ch ≤ 57 then
      if 1844674407370955162 ≤ n then .error true
      else if 18446744073709551615 < n * 10 + (ch.toNat - 48) then .error true
      else parseDigits cs (n * 10 + (ch.toNat - 48))
    else .error false

/-- Function `strconv.ParseInt(s, 10, 64)`. -/
def ParseInt (s : Bytes) : Except GoError Int :=
  match s with
  | [] => .error (.numSyntax s)
  | ch :: cs =>
    let neg := ch == 45
    let body := if ch == 43 || ch == 45 then cs else s
    if body.length = 0 then .error (.numSyntax s)
    else
      match parseDigits body 0 with
      | .error false => .error (.numSyntax s)
      | .error true => .error (.numRange s)
      | .ok un =>
        if !neg && decide (9223372036854775808 ≤ un) then .error (.numRange s)
        else if neg && decide (9223372036854775808 < un) then .error (.numRange s)
        else .ok (if neg then -(un : Int) else (un : Int))

/-- The decimal digits of `n`, most significant first. -/
def decDigits : Nat → Nat → Bytes
  | 0, _ => []
  | fuel + 1, n =>
    if n < 10 then [(48 + n).toUInt8] else decDigits fuel (n / 10) ++ [(48 + n % 10).toUInt8]

/-- The text `fmt.Sprintf("%v", n)` for a non-negative `int64`. -/
def FormatInt (n : Nat) : Bytes := decDigits (n + 1) n

/-- A lower-case hexadecimal digit. -/
def hexDigit (d : Nat) : UInt8 := if d < 10 then (48 + d).toUInt8 else (87 + d).toUInt8

/-- The text `fmt.Sprintf("%x", sum)` for a byte array: two digits per byte. -/
def hexString : Bytes → Bytes
  | [] => []
  | b :: bs => hexDigit (b.toNat / 16) :: hexDigit (b.toNat % 16) :: hexString bs

/-- Function `filepath.Base` (Unix): the last element of the path, after the
trailing slashes are removed. -/
def Base (path : Bytes) : Bytes :=
  if path.length = 0 then B "."
  else
    let stripped := path.reverse.dropWhile (fun ch => ch == 47)
    let last := (stripped.takeWhile (fun ch => ch != 47)).reverse
    if last.length = 0 then B "/" else last

/-- What the process reads from the machine it runs on: `os.Hostname()`,
`filepath.Abs` (which depends on the working directory) and `md5.Sum`. -/
structure Host where
  Hostname : Except GoError Bytes
  Abs : Bytes → Except GoError Bytes
  md5Sum : Bytes → Bytes

/-! ## The file system -/

/-- A directory entry: whether it is a directory, its permission bits
(`Mode().Perm()`), and its contents. -/
structure File where
  isDir : Bool
  perm : Nat
  data : Bytes
  deriving DecidableEq, Repr

/-- What `os.Stat` returns, as far as `rsubl.go` reads it: `IsDir()`,
`Mode().Perm()` and `Size()`. -/
structure FileInfo where
  isDir : Bool
  perm : Nat
  size : Nat
  deriving DecidableEq, Repr

/-- Failures the operating system injects: when a field is `some msg` the
call of that name fails with that message and changes nothing. -/
structure Faults where
  stat : Option String
  create : Option String
  openFile : Option String
  tempFile : Option String
  rename : Option String
  chmod : Option String
  deriving DecidableEq, Repr

/-- No injected failure. -/
def Faults.none : Faults :=
  { stat := .none, create := .none, openFile := .none, tempFile := .none, rename := .none,
    chmod := .none }

/-- The file system: the entries by path, the permission bits a created file
gets (0666 less the umask), the names `ioutil.TempFile` will pick, one per
call, and the injected failures.  For most paths `os.Stat` reports as size the
number of bytes a read of the file returns; `statSize` holds the size it
reports for the paths where it does not (a file under `/proc` reports 0). -/
structure FS where
  files : Bytes → Option File
  statSize : Bytes → Option Nat
  createPerm : Nat
  tempName : Nat → Bytes
  tempCount : Nat
  faults : Faults

/-- The entries with `path` bound to `f`. -/
def FS.put (path : Bytes) (f : Option File) (fs : FS) : FS :=
  { fs with files := fun q => if q = path then f else fs.files q }

/-- Function `os.Stat`. -/
def FS.Stat (path : Bytes) (fs : FS) : Except GoError FileInfo :=
  match fs.faults.stat with
  | some m => .error (.sys m)
  | none =>
    match fs.files path with
    | some f =>
      .ok { isDir := f.isDir, perm := f.perm, size := (fs.statSize path).getD f.data.length }
    | none => .error (.sys "no such file or directory")

/-- Function `os.Create`: creates the file, or truncates an existing one. -/
def FS.Create (path : Bytes) (fs : FS) : Option GoError × FS :=
  match fs.faults.create with
  | some m => (some (.sys m), fs)
  | none =>
    match fs.files path with
    | some f =>
      if f.isDir then (some (.sys "is a directory"), fs)
      else (none, fs.put path (some { f with data := [] }))
    | none => (none, fs.put path (some { isDir := false, perm := fs.createPerm, data := [] }))

/-- Function `os.Open`, with the bytes a reader of the opened file gets. -/
def FS.Open (path : Bytes) (fs : FS) : Except GoError Bytes :=
  match fs.faults.openFile with
  | some m => .error (.sys m)
  | none =>
    match fs.files path with
    | some f => .ok f.data
    | none => .error (.sys "no such file or directory")

/-- Function `ioutil.TempFile("", "")`: a new empty file of mode 0600 under
the next unused name. -/
def FS.TempFile (fs : FS) : Except GoError Bytes × FS :=
  match fs.faults.tempFile with
  | some m => (.error (.sys m), fs)
  | none =>
    let name := fs.tempName fs.tempCount
    let fs1 := { fs with tempCount := fs.tempCount + 1 }
    match fs.files name with
    | some _ => (.error (.sys "file exists"), fs1)
    | none => (.ok name, fs1.put name (some { isDir := false, perm := 0o600, data := [] }))

/-- What `f.Write` leaves in the open file `name`. -/
def FS.writeFile (name : Bytes) (data : Bytes) (fs : FS) : FS :=
  match fs.files name with
  | some f => fs.put name (some { f with data := data })
  | none => fs

/-- Function `os.Rename`: `newpath` is replaced by the entry of `oldpath` in
one step, or nothing changes. -/
def FS.Rename (oldpath newpath : Bytes) (fs : FS) : Option GoError × FS :=
  match fs.faults.rename with
  | some m => (some (.sys m), fs)
  | none =>
    match fs.files oldpath with
    | none => (some (.sys "no such file or directory"), fs)
    | some f =>
      match fs.files newpath with
      | some g =>
        if g.isDir then (some (.sys "file exists"), fs)
        else (none, (fs.put oldpath none).put newpath (some f))
      | none => (none, (fs.put oldpath none).put newpath (some f))

/-- Function `os.Chmod`. -/
def FS.Chmod (path : Bytes) (perm : Nat) (fs : FS) : Option GoError × FS :=
  match fs.faults.chmod with
  | some m => (some (.sys m), fs)
  | none =>
    match fs.files path with
    | some f => (none, fs.put path (some { f with perm := perm }))
    | none => (some (.sys "no such file or directory"), fs)

/-! ## `io.CopyN` -/

/-- The loop of `io.Copy` reading through an `io.LimitedReader` with `left`
bytes to go: an `io.EOF` from the reader ends it without error. -/
def copyLoop (bufSize : Nat) :
    Nat → Nat → Bytes → Reader → NetConn → (Bytes × Option GoError) × Reader × NetConn
  | 0, _, acc, r, n => ((acc, some .ErrNoProgress), r, n)
  | fuel + 1, left, acc, r, n =>
    if left = 0 then ((acc, none), r, n)
    else
      let res := r.Read (min bufSize left) n
      match res.1.2 with
      | some e => ((acc ++ res.1.1, if e = .EOF then none else some e), res.2.1, res.2.2)
      | none => copyLoop bufSize fuel (left - res.1.1.length) (acc ++ res.1.1) res.2.1 res.2.2

/-- Function `io.CopyN(dst, src, size)` for a destination whose writes
succeed: the bytes written to `dst` and the error.  The copy buffer is 32 KiB,
or `size` bytes when that is less (one byte when `size < 1`); every read
returns a byte or an error, so `size + 1` rounds are enough. -/
def CopyN (size : Int) (r : Reader) (n : NetConn) :
    (Bytes × Option GoError) × Reader × NetConn :=
  let bufSize := if size < 1 then 1 else min 32768 size.toNat
  let res := copyLoop bufSize (size.toNat + 1) size.toNat [] r n
  if (res.1.1.length : Int) = size then ((res.1.1, none), res.2)
  else if (res.1.1.length : Int) < size ∧ res.1.2 = none then ((res.1.1, some .EOF), res.2)
  else res

/-! ## `rsubl.go` -/

/-- The global `hashes`, a `map[string]string` from token to path. -/
structure Registry where
  entries : List (Bytes × Bytes)
  deriving DecidableEq, Repr

/-- The lookup `hashes[token]` with its `ok` flag. -/
def Registry.get (h : Registry) (token : Bytes) : Option Bytes :=
  (h.entries.find? (fun e => e.1 = token)).map (fun e => e.2)

/-- The statement `delete(hashes, token)`. -/
def Registry.delete (token : Bytes) (h : Registry) : Registry :=
  { entries := h.entries.filter (fun e => e.1 ≠ token) }

/-- The assignment `hashes[token] = path`. -/
def Registry.set (token path : Bytes) (h : Registry) : Registry :=
  { entries := (token, path) :: h.entries.filter (fun e => e.1 ≠ token) }

/-- The value `len(hashes)`, for a map that holds each key once. -/
def Registry.len (h : Registry) : Nat := h.entries.length

/-- How a function of `rsubl.go` ends: it returns nil, returns an error, or
panics. -/
inductive Ret where
  | nil
  | err (e : GoError)
  | panic (msg : String)
  deriving DecidableEq, Repr

/-- What a call leaves behind: its result, the channel, the registry and the
file system. -/
structure Outcome where
  ret : Ret
  c : Conn
  hashes : Registry
  fs : FS

/-- The value of `realpath, _ := filepath.Abs(path)`: the empty string when
`Abs` fails. -/
def realPathOf (host : Host) (path : Bytes) : Bytes :=
  match host.Abs path with
  | .ok a => a
  | .error _ => []

/-- The token of a path: `fmt.Sprintf("%x", md5.Sum([]byte(realpath)))`. -/
def tokenOf (host : Host) (path : Bytes) : Bytes :=
  hexString (host.md5Sum (realPathOf host path))

/-- The display name sent with `open`. -/
def displayNameOf (host : Host) (path : Bytes) : Bytes :=
  match host.Hostname with
  | .ok h => h ++ B ":" ++ Base path
  | .error _ => Base path

/-- The sends of `sendFile` (lines 81 to 91), whose results are dropped. -/
def sendOpen (host : Host) (path : Bytes) (fileSize : Nat) (content : Bytes) (c : Conn) : Conn :=
  let realpath := realPathOf host path
  let c := (c.SendString (B "open\n")).2
  let c := (c.SendString (B "display-name: " ++ displayNameOf host path ++ B "\n")).2
  let c := (c.SendString (B "real-path: " ++ realpath ++ B "\n")).2
  let c := (c.SendString (B "data-on-save: yes\n")).2
  let c := (c.SendString (B "re-activate: yes\n")).2
  let c := (c.SendString (B "selection: 0\n")).2
  let c := (c.SendString (B "token: " ++ tokenOf host path ++ B "\n")).2
  let c := (c.SendString (B "data: " ++ FormatInt fileSize ++ B "\n")).2
  let c := (c.SendFile content).2
  let c := (c.SendString (B "\n.\n")).2
  (c.Flush).2

/-- Function `sendFile`.  The deferred `f.Close()` changes nothing here.  The
size sent is `fInfo.Size()`, what `os.Stat` reported; the content sent is what
`io.Copy` reads from the opened file up to its end. -/
def sendFile (host : Host) (c : Conn) (path : Bytes) (hashes : Registry) (fs : FS) : Outcome :=
  match fs.Stat path with
  | .ok fInfo =>
    if fInfo.isDir then
      { ret := .err (.new (B "only file can be edit")), c := c, hashes := hashes, fs := fs }
    else
      match fs.Open path with
      | .error e => { ret := .err e, c := c, hashes := hashes, fs := fs }
      | .ok content =>
        { ret := .nil, c := sendOpen host path fInfo.size content c,
          hashes := hashes.set (tokenOf host path) path, fs := fs }
  | .error _ =>
    match fs.Create path with
    | (some e, fs1) => { ret := .err e, c := c, hashes := hashes, fs := fs1 }
    | (none, fs1) =>
      { ret := .nil, c := sendOpen host path 0 [] c,
        hashes := hashes.set (tokenOf host path) path, fs := fs1 }

/-- How the header loop of `save` ends: with the token and the size, or by
returning from `processRecv`. -/
inductive SaveHeader where
  | done (token : Bytes) (size : Int)
  | stop (ret : Ret)
  deriving DecidableEq, Repr

/-- The `for` loop of the `save` case (lines 124 to 145), started with the
token read so far. -/
def saveHeader : Nat → Bytes → Conn → SaveHeader × Conn
  | 0, _, c => (.stop (.err .ErrNoProgress), c)
  | fuel + 1, token, c =>
    match c.Receive with
    | (.error _, c1) => (.stop (.err (.exit "connection close and exit" 86)), c1)
    | (.ok line, c1) =>
      if HasPrefix line (B "token:") then
        match sliceFrom 6 line with
        | none => (.stop (.panic "slice bounds out of range"), c1)
        | some v => saveHeader fuel (TrimSpace v) c1
      else if HasPrefix line (B "data:") then
        match sliceFrom 6 line with
        | none => (.stop (.panic "slice bounds out of range"), c1)
        | some v =>
          match ParseInt v with
          | .error e => (.stop (.err e), c1)
          | .ok size => (.done token size, c1)
      else saveHeader fuel token c1

/-- The `save` case after the header loop (lines 147 to 182).  The two
`f.Close()` calls and the log lines change nothing here; the result of
`os.Chmod` is dropped, as in the source. -/
def saveBody (token : Bytes) (size : Int) (c : Conn) (hashes : Registry) (fs : FS) : Outcome :=
  match fs.TempFile with
  | (.error e, fs1) => { ret := .err e, c := c, hashes := hashes, fs := fs1 }
  | (.ok fName, fs1) =>
    let cp := CopyN size c.GetReader.1 c.GetReader.2
    let c1 := { c with br := cp.2.1, conn := cp.2.2 }
    let fs2 := fs1.writeFile fName cp.1.1
    match cp.1.2 with
    | some e => { ret := .err e, c := c1, hashes := hashes, fs := fs2 }
    | none =>
      match hashes.get token with
      | some file =>
        match fs2.Stat file with
        | .error e => { ret := .err e, c := c1, hashes := hashes, fs := fs2 }
        | .ok fi =>
          match fs2.Rename fName file with
          | (some e, fs3) => { ret := .err e, c := c1, hashes := hashes, fs := fs3 }
          | (none, fs3) =>
            { ret := .nil, c := c1, hashes := hashes, fs := (fs3.Chmod file fi.perm).2 }
      | none =>
        { ret := .err (.new (B "save file error token: " ++ token)), c := c1, hashes := hashes,
          fs := fs2 }

/-- Function `processRecv`.  The log lines written under `Verbose` change
nothing here.  In the `save` loop every received line takes at least its
terminator from the stream, so one round per pending byte is enough. -/
def processRecv (c : Conn) (line : Bytes) (hashes : Registry) (fs : FS) : Outcome :=
  let cmd := TrimSpace line
  if cmd = B "close" then
    match c.Receive with
    | (.error _, c1) =>
      { ret := .err (.exit "connection close and exit" 86), c := c1, hashes := hashes, fs := fs }
    | (.ok line, c1) =>
      if HasPrefix line (B "token:") then
        match sliceFrom 6 line with
        | none => { ret := .panic "slice bounds out of range", c := c1, hashes := hashes, fs := fs }
        | some v => { ret := .nil, c := c1, hashes := hashes.delete (TrimSpace v), fs := fs }
      else { ret := .nil, c := c1, hashes := hashes, fs := fs }
  else if cmd = B "save" then
    match saveHeader (pending c.br c.conn + 1) [] c with
    | (.stop ret, c1) => { ret := ret, c := c1, hashes := hashes, fs := fs }
    | (.done token size, c1) => saveBody token size c1 hashes fs
  else { ret := .nil, c := c, hashes := hashes, fs := fs }

/-- The contents `sendFile` reads at `path`: those of the file, or nothing
when there is no file yet. -/
def contentOf (fs : FS) (path : Bytes) : Bytes :=
  match fs.files path with
  | some f => f.data
  | none => []

/-- The `open` frame as the specification lists it: the eight lines in
order, with `size` as the declared length, the content, and the terminator. -/
def openFrame (name realpath token : Bytes) (size : Nat) (content : Bytes) : Bytes :=
  B "open\n" ++ (B "display-name: " ++ name ++ B "\n") ++ (B "real-path: " ++ realpath ++ B "\n")
    ++ B "data-on-save: yes\n" ++ B "re-activate: yes\n" ++ B "selection: 0\n"
    ++ (B "token: " ++ token ++ B "\n") ++ (B "data: " ++ FormatInt size ++ B "\n")
    ++ content ++ B "\n.\n"

/-! ## Sample states -/

/-- An open connection on which the peer has sent `chunks` and then shut down. -/
def exNet (chunks : List Bytes) : NetConn :=
  { incoming := chunks, ending := .eof, outgoing := [], writeErr := none, closed := false,
    calls := [] }

/-- A file system that holds `/tmp/a.txt` (mode 0644, contents `hello\nworld`). -/
def exFS : FS :=
  { files := fun p => if p = B "/tmp/a.txt" then some ⟨false, 0o644, B "hello\nworld"⟩ else none,
    statSize := fun _ => none, createPerm := 0o644, tempName := fun i => B "/tmp/rsubl" ++ FormatInt i, tempCount := 0,
    faults := Faults.none }

/-- The MD5 digest of the path `/tmp/a.txt`. -/
def exDigest : Bytes :=
  [80, 117, 214, 7, 197, 81, 70, 41, 138, 27, 120, 166, 157, 184, 73, 65]

/-- The MD5 digest of the path `/proc/version`. -/
def exProcDigest : Bytes :=
  [118, 52, 106, 88, 107, 143, 0, 3, 140, 235, 43, 151, 125, 162, 111, 242]

/-- A host named `box` whose paths are absolute already; `md5Sum` stands for
`md5.Sum` on the two paths of the sample file systems, `/tmp/a.txt` and
`/proc/version`, and returns the digest of each. -/
def exHost : Host :=
  { Hostname := .ok (B "box"), Abs := fun p => .ok p,
    md5Sum := fun s => if s = B "/proc/version" then exProcDigest else exDigest }

/-- The registry after `sendFile` on `/tmp/a.txt`. -/
def exHashes : Registry := ⟨[(B "5075d607c55146298a1b78a69db84941", B "/tmp/a.txt")]⟩

/-- A connection whose writes fail with a broken pipe. -/
def exBrokenNet : NetConn :=
  { incoming := [], ending := .eof, outgoing := [], writeErr := some "broken pipe",
    closed := false, calls := [] }

/-- A channel on the broken connection with one byte waiting in the write
buffer. -/
def exBrokenConn : Conn := ((NewConn exBrokenNet).SendString (B "x")).2

/-- A file system that holds the file `/tmp/a.txt` and the directory `/tmp`. -/
def exDirFS : FS := exFS.put (B "/tmp") (some ⟨true, 0o755, []⟩)

/-- A run of the receive loop of `main`: how it ends and what it leaves
behind, and the registry at each call of `conn.Receive` the loop made, in
order. -/
structure LoopRun where
  out : Outcome
  readAt : List Registry

/-- The receive loop of `main` (lines 259 to 274), one iteration per unit of
fuel.  The result of `processRecv` is dropped; a panic in it ends the
process.  After an `io.EOF` the reply is nil and the loop goes round
again. -/
def mainLoop : Nat → Conn → Registry → FS → LoopRun
  | 0, c, hashes, fs => ⟨{ ret := .err .ErrNoProgress, c := c, hashes := hashes, fs := fs }, []⟩
  | fuel + 1, c, hashes, fs =>
    if hashes.len < 1 then
      ⟨{ ret := .err (.exit "exit, no open files" 86), c := c, hashes := hashes, fs := fs }, []⟩
    else
      match c.Receive with
      | (.error e, c1) =>
        if e ≠ .EOF then
          ⟨{ ret := .err (.exit "connection close and exit" 86), c := c1, hashes := hashes,
             fs := fs }, [hashes]⟩
        else
          let run := mainLoop fuel c1 hashes fs
          ⟨run.out, hashes :: run.readAt⟩
      | (.ok line, c1) =>
        let o := processRecv c1 line hashes fs
        match o.ret with
        | .panic msg => ⟨{ ret := .panic msg, c := o.c, hashes := o.hashes, fs := o.fs }, [hashes]⟩
        | _ =>
          let run := mainLoop fuel o.c o.hashes o.fs
          ⟨run.out, hashes :: run.readAt⟩

/-- The receive loop as `main` runs it.  Every iteration that goes round
takes a byte from the stream, or follows an `io.EOF` that closed the stream
and is followed by the iteration that fails on the closed stream, so three
iterations more than there are pending bytes are enough. -/
def receiveLoop (c : Conn) (hashes : Registry) (fs : FS) : LoopRun :=
  mainLoop (pending c.br c.conn + 3) c hashes fs

/-- The sample file system with the file `/proc/version` added: a read of it
returns six bytes, and `os.Stat` reports the size 0, as for every file under
`/proc`. -/
def exProcFS : FS :=
  { exFS with
    files := fun p =>
      if p = B "/proc/version" then some ⟨false, 0o444, B "Linux\n"⟩ else exFS.files p,
    statSize := fun p => if p = B "/proc/version" then some 0 else none }

/-- The sample file system with a `Chmod` that fails. -/
def exChmodFS : FS :=
  { exFS with faults := { Faults.none with chmod := some "operation not permitted" } }

/-! # Theorems -/

/-! ## Reading lines -/

theorem NetConn.sameOut_refl (n : NetConn) : n.sameOut n := ⟨rfl, rfl, rfl, rfl⟩

theorem NetConn.sameOut_trans {a b c : NetConn} (h1 : a.sameOut b) (h2 : b.sameOut c) :
    a.sameOut c := by
  obtain ⟨p1, p2, p3, p4⟩ := h1
  obtain ⟨q1, q2, q3, q4⟩ := h2
  exact ⟨q1.trans p1, q2.trans p2, q3.trans p3, q4.trans p4⟩

theorem cutLine_none {d : UInt8} : ∀ {s : Bytes}, d ∉ s → cutLine d s = none
  | [], _ => rfl
  | b :: bs, h => by
    have hb : b ≠ d := fun e => h (by simp [e])
    have ht : d ∉ bs := fun e => h (by simp [e])
    simp [cutLine, hb, cutLine_none ht]

theorem cutLine_append {d : UInt8} : ∀ {l : Bytes} (rest : Bytes), d ∉ l →
    cutLine d (l ++ d :: rest) = some (l ++ [d], rest)
  | [], rest, _ => by simp [cutLine]
  | b :: bs, rest, h => by
    have hb : b ≠ d := fun e => h (by simp [e])
    have ht : d ∉ bs := fun e => h (by simp [e])
    simp [cutLine, hb, cutLine_append rest ht]

theorem dropEmpty_flatten : ∀ cs : List Bytes, (dropEmpty cs).flatten = cs.flatten
  | [] => rfl
  | [] :: cs => by simp [dropEmpty, dropEmpty_flatten cs]
  | (b :: bs) :: cs => by simp [dropEmpty]

theorem dropEmpty_head : ∀ (cs : List Bytes) (c : Bytes) (rest : List Bytes),
    dropEmpty cs = c :: rest → c ≠ []
  | [], c, rest, h => by simp [dropEmpty] at h
  | [] :: cs, c, rest, h => by
    simp only [dropEmpty] at h
    exact dropEmpty_head cs c rest h
  | (b :: bs) :: cs, c, rest, h => by
    simp only [dropEmpty, List.cons.injEq] at h
    rw [← h.1]; simp

/-- A read on an open connection that still holds bytes returns some of them,
in order, and no error. -/
theorem NetConn.Read_data (n : NetConn) (max : Nat) (hmax : 0 < max) (hopen : n.closed = false)
    (hne : n.incoming.flatten ≠ []) :
    ∃ d, (n.Read max).1 = (d, none) ∧ d ≠ [] ∧ d.length ≤ max ∧
      d ++ (n.Read max).2.incoming.flatten = n.incoming.flatten ∧ n.sameOut (n.Read max).2 := by
  unfold NetConn.Read
  simp only [hopen, Bool.false_eq_true, if_false]
  cases hde : dropEmpty n.incoming with
  | nil =>
    have := dropEmpty_flatten n.incoming
    rw [hde] at this
    exact absurd this.symm hne
  | cons c cs =>
    have hc := dropEmpty_head _ _ _ hde
    have hfl := dropEmpty_flatten n.incoming
    rw [hde, List.flatten_cons] at hfl
    by_cases hle : c.length ≤ max
    · refine ⟨c, ?_⟩
      simp [hle, hc, hfl, NetConn.sameOut, hopen]
    · refine ⟨c.take max, ?_⟩
      have : c.take max ≠ [] := by
        intro h
        rw [List.take_eq_nil_iff] at h
        rcases h with h | h
        · omega
        · exact hc h
      simp [hle, this, NetConn.sameOut, ← hfl, List.length_take, hopen]
      rw [← List.append_assoc, List.take_append_drop]

/-- A read on an open connection that holds no more bytes returns the end of
the stream. -/
theorem NetConn.Read_end (n : NetConn) (max : Nat) (hopen : n.closed = false)
    (he : n.incoming.flatten = []) :
    (n.Read max).1 = ([], some n.ending.toError) ∧ (n.Read max).2.incoming = [] ∧
      n.sameOut (n.Read max).2 := by
  unfold NetConn.Read
  simp only [hopen, Bool.false_eq_true, if_false]
  cases hde : dropEmpty n.incoming with
  | nil => simp [NetConn.sameOut, hopen]
  | cons c cs =>
    have hc := dropEmpty_head _ _ _ hde
    have hfl := dropEmpty_flatten n.incoming
    rw [hde, List.flatten_cons, he] at hfl
    simp at hfl
    exact absurd hfl.1 hc

/-- Where the first line terminator sits when it is already buffered. -/
theorem split_buffered {buf F l rest : Bytes} (h : buf ++ F = l ++ 10 :: rest)
    (hl : (10 : UInt8) ∉ l) (hb : (10 : UInt8) ∈ buf) :
    ∃ r1, buf = l ++ 10 :: r1 ∧ rest = r1 ++ F := by
  rcases List.append_eq_append_iff.mp h with ⟨a, ha, _⟩ | ⟨c, hc, hc2⟩
  · exact absurd (by rw [ha]; simp [hb]) hl
  · cases c with
    | nil => exact absurd (by rw [hc] at hb; simpa using hb) hl
    | cons x c =>
      simp only [List.cons_append, List.cons.injEq] at hc2
      exact ⟨c, by rw [hc, hc2.1], hc2.2⟩

/-- Where the first line terminator sits when it is not buffered yet. -/
theorem split_unbuffered {buf F l rest : Bytes} (h : buf ++ F = l ++ 10 :: rest)
    (hb : (10 : UInt8) ∉ buf) : ∃ a, l = buf ++ a ∧ F = a ++ 10 :: rest := by
  rcases List.append_eq_append_iff.mp h with ⟨a, ha, ha2⟩ | ⟨c, hc, hc2⟩
  · exact ⟨a, ha, ha2⟩
  · cases c with
    | nil => exact ⟨[], by simpa using hc.symm, by simpa using hc2.symm⟩
    | cons x c =>
      simp only [List.cons_append, List.cons.injEq] at hc2
      exact absurd (by rw [hc, ← hc2.1]; simp) hb

/-- One `ReadSlice` on a stream that holds a terminated line: it returns the
line, or a full buffer of it. -/
theorem ReadSliceAux_line (l rest : Bytes) (hl : (10 : UInt8) ∉ l) :
    ∀ (fuel : Nat) (r : Reader) (n : NetConn), r.err = none → n.closed = false →
      unread r n = l ++ 10 :: rest → r.size - r.buf.length + 1 ≤ fuel →
      (Reader.ReadSliceAux 10 fuel r n).2.1.err = none ∧
      (Reader.ReadSliceAux 10 fuel r n).2.1.size = r.size ∧
      n.sameOut (Reader.ReadSliceAux 10 fuel r n).2.2 ∧
      (((Reader.ReadSliceAux 10 fuel r n).1 = (l ++ [10], none) ∧
          unread (Reader.ReadSliceAux 10 fuel r n).2.1 (Reader.ReadSliceAux 10 fuel r n).2.2
            = rest) ∨
        ∃ p a, (Reader.ReadSliceAux 10 fuel r n).1 = (p, some .ErrBufferFull) ∧
          r.size ≤ p.length ∧ l = p ++ a ∧
          unread (Reader.ReadSliceAux 10 fuel r n).2.1 (Reader.ReadSliceAux 10 fuel r n).2.2
            = a ++ 10 :: rest) := by
  intro fuel
  induction fuel with
  | zero => intro r n _ _ _ hf; omega
  | succ fuel ih =>
    intro r n herr hopen hs hf
    unfold unread at hs
    by_cases hb : (10 : UInt8) ∈ r.buf
    · obtain ⟨r1, h1, h2⟩ := split_buffered hs hl hb
      have hc : cutLine 10 r.buf = some (l ++ [10], r1) := by rw [h1]; exact cutLine_append r1 hl
      have hv : Reader.ReadSliceAux 10 (fuel + 1) r n
          = ((l ++ [10], none), { r with buf := r1 }, n) := by
        simp only [Reader.ReadSliceAux, hc]
      rw [hv]
      refine ⟨herr, rfl, NetConn.sameOut_refl n, Or.inl ⟨rfl, ?_⟩⟩
      simp [unread, h2]
    · obtain ⟨a, h1, h2⟩ := split_unbuffered hs hb
      have hc : cutLine 10 r.buf = none := cutLine_none hb
      by_cases hfull : r.size ≤ r.buf.length
      · have hv : Reader.ReadSliceAux 10 (fuel + 1) r n
            = ((r.buf, some .ErrBufferFull), { r with buf := [] }, n) := by
          simp only [Reader.ReadSliceAux, hc, herr, hfull, if_true]
        rw [hv]
        refine ⟨herr, rfl, NetConn.sameOut_refl n, Or.inr ⟨r.buf, a, rfl, hfull, h1, ?_⟩⟩
        simp [unread, h2]
      · have hv : Reader.ReadSliceAux 10 (fuel + 1) r n
            = Reader.ReadSliceAux 10 fuel (r.fill n).1 (r.fill n).2 := by
          simp only [Reader.ReadSliceAux, hc, herr, hfull, if_false]
        rw [hv]
        have hne : n.incoming.flatten ≠ [] := by rw [h2]; simp
        obtain ⟨d, hd1, hd2, hd3, hd4, hd5⟩ :=
          NetConn.Read_data n (r.size - r.buf.length) (by omega) hopen hne
        have hd0 : d.length ≠ 0 := by
          intro h; exact hd2 (List.length_eq_zero.mp h)
        have := ih (r.fill n).1 (r.fill n).2 (by simp [Reader.fill, hd1])
          (by simp only [Reader.fill]; rw [hd5.1]; exact hopen)
          (by simp only [unread, Reader.fill, hd1]; rw [List.append_assoc, hd4]; exact hs)
          (by simp only [Reader.fill, hd1, List.length_append]; omega)
        obtain ⟨k1, k2, k3, k4⟩ := this
        refine ⟨k1, by rw [k2]; rfl, NetConn.sameOut_trans hd5 k3, ?_⟩
        rcases k4 with k4 | ⟨p, a2, q1, q2, q3, q4⟩
        · exact Or.inl k4
        · exact Or.inr ⟨p, a2, q1, by rw [← show (r.fill n).1.size = r.size from rfl]; exact q2, q3, q4⟩

theorem pending_eq (r : Reader) (n : NetConn) : pending r n = (unread r n).length := by
  simp [pending, unread, List.length_flatten]

theorem StreamEnd.toError_ne_full (e : StreamEnd) : e.toError ≠ GoError.ErrBufferFull := by
  cases e <;> simp [StreamEnd.toError]

/-- The fallback loop of `readLine` on a stream that holds a terminated line
ends with the whole line in the grown buffer. -/
theorem readLineGrow_line (rest : Bytes) :
    ∀ (fuel : Nat) (acc : Bytes) (r : Reader) (n : NetConn) (l : Bytes), (10 : UInt8) ∉ l →
      0 < r.size → r.err = none → n.closed = false → unread r n = l ++ 10 :: rest →
      l.length + 1 ≤ fuel →
      (readLineGrow fuel acc r n).1 = (acc ++ l ++ [10], none) ∧
      unread (readLineGrow fuel acc r n).2.1 (readLineGrow fuel acc r n).2.2 = rest ∧
      (readLineGrow fuel acc r n).2.1.err = none ∧
      (readLineGrow fuel acc r n).2.1.size = r.size ∧
      n.sameOut (readLineGrow fuel acc r n).2.2 := by
  intro fuel
  induction fuel with
  | zero => intro acc r n l _ _ _ _ _ hf; omega
  | succ fuel ih =>
    intro acc r n l hl hsz herr hopen hs hf
    obtain ⟨k1, k2, k3, k4⟩ :=
      ReadSliceAux_line l rest hl (r.size + 2) r n herr hopen hs (by omega)
    rcases k4 with ⟨q1, q2⟩ | ⟨p, a, q1, q2, q3, q4⟩
    · have hv : readLineGrow (fuel + 1) acc r n
          = ((acc ++ (r.ReadSlice 10 n).1.1, (r.ReadSlice 10 n).1.2),
              (r.ReadSlice 10 n).2.1, (r.ReadSlice 10 n).2.2) := by
        simp only [readLineGrow, Reader.ReadSlice, q1]
        simp
      rw [hv]
      simp only [Reader.ReadSlice, q1]
      exact ⟨by simp, q2, k1, k2, k3⟩
    · have hv : readLineGrow (fuel + 1) acc r n
          = readLineGrow fuel (acc ++ p) (r.ReadSlice 10 n).2.1 (r.ReadSlice 10 n).2.2 := by
        simp only [readLineGrow, Reader.ReadSlice, q1]
        simp
      rw [hv]
      have ha : (10 : UInt8) ∉ a := fun h => hl (by rw [q3]; simp [h])
      have hlen : l.length = p.length + a.length := by rw [q3]; simp
      obtain ⟨j1, j2, j3, j4, j5⟩ := ih (acc ++ p) (r.ReadSlice 10 n).2.1 (r.ReadSlice 10 n).2.2 a ha
        (by simp only [Reader.ReadSlice]; rw [k2]; exact hsz) k1
        (by simp only [Reader.ReadSlice]; rw [k3.1]; exact hopen) q4 (by omega)
      refine ⟨by rw [j1, q3]; simp, j2, j3, ?_, NetConn.sameOut_trans k3 j5⟩
      rw [j4]; exact k2

/-- Function `readLine` on a stream that holds a terminated line. -/
theorem readLine_line (r : Reader) (n : NetConn) (l rest : Bytes) (hsz : 0 < r.size)
    (herr : r.err = none) (hopen : n.closed = false) (hl : (10 : UInt8) ∉ l)
    (hs : unread r n = l ++ 10 :: rest) :
    (readLine r n).1 = .ok l ∧ unread (readLine r n).2.1 (readLine r n).2.2 = rest ∧
      (readLine r n).2.1.err = none ∧ (readLine r n).2.1.size = r.size ∧
      n.sameOut (readLine r n).2.2 := by
  obtain ⟨k1, k2, k3, k4⟩ :=
    ReadSliceAux_line l rest hl (r.size + 2) r n herr hopen hs (by omega)
  have hfin : ∀ (res : (Bytes × Option GoError) × Reader × NetConn), res.1 = (l ++ [10], none) →
      (match res.1.2 with
        | some e => ((Except.error e : Except GoError Bytes), res.2)
        | none =>
          if res.1.1.length = 0 ∨ res.1.1.getLast? ≠ some 10 then
            (.error (.protocolError "bad response line terminator"), res.2)
          else (.ok res.1.1.dropLast, res.2)) = (.ok l, res.2) := by
    intro res h
    rw [h]
    simp
  rcases k4 with ⟨q1, q2⟩ | ⟨p, a, q1, q2, q3, q4⟩
  · have hv : readLine r n = (.ok l, (r.ReadSlice 10 n).2) := by
      have hne : (r.ReadSlice 10 n).1.2 ≠ some GoError.ErrBufferFull := by
        simp only [Reader.ReadSlice, q1]; simp
      simp only [readLine, if_neg hne]
      exact hfin _ q1
    rw [hv]
    exact ⟨rfl, q2, k1, k2, k3⟩
  · have ha : (10 : UInt8) ∉ a := fun h => hl (by rw [q3]; simp [h])
    obtain ⟨j1, j2, j3, j4, j5⟩ := readLineGrow_line rest
      (pending (r.ReadSlice 10 n).2.1 (r.ReadSlice 10 n).2.2 + 1) p
      (r.ReadSlice 10 n).2.1 (r.ReadSlice 10 n).2.2 a ha
      (by simp only [Reader.ReadSlice]; rw [k2]; exact hsz) k1
      (by simp only [Reader.ReadSlice]; rw [k3.1]; exact hopen) q4
      (by rw [pending_eq]; simp only [Reader.ReadSlice]; rw [q4]; simp)
    have hp : (r.ReadSlice 10 n).1.1 = p := by simp only [Reader.ReadSlice, q1]
    have he : (r.ReadSlice 10 n).1.2 = some GoError.ErrBufferFull := by
      simp only [Reader.ReadSlice, q1]
    have hv : readLine r n = (.ok l, (readLineGrow
        (pending (r.ReadSlice 10 n).2.1 (r.ReadSlice 10 n).2.2 + 1) p
        (r.ReadSlice 10 n).2.1 (r.ReadSlice 10 n).2.2).2) := by
      simp only [readLine, if_pos he, hp]
      exact hfin _ (by rw [j1, q3])
    rw [hv]
    refine ⟨rfl, j2, j3, ?_, NetConn.sameOut_trans k3 j5⟩
    rw [j4]; exact k2

/-- One `ReadSlice` on a stream that ends without a line terminator: it
returns a full buffer, or everything that is left together with the error that
ends the stream. -/
theorem ReadSliceAux_open (s : Bytes) (hs10 : (10 : UInt8) ∉ s) :
    ∀ (fuel : Nat) (r : Reader) (n : NetConn), r.err = none → n.closed = false →
      unread r n = s → r.size - r.buf.length + 2 ≤ fuel →
      (Reader.ReadSliceAux 10 fuel r n).2.1.err = none ∧
      (Reader.ReadSliceAux 10 fuel r n).2.1.size = r.size ∧
      n.sameOut (Reader.ReadSliceAux 10 fuel r n).2.2 ∧
      ((∃ p a, (Reader.ReadSliceAux 10 fuel r n).1 = (p, some .ErrBufferFull) ∧
          r.size ≤ p.length ∧ s = p ++ a ∧
          unread (Reader.ReadSliceAux 10 fuel r n).2.1 (Reader.ReadSliceAux 10 fuel r n).2.2
            = a) ∨
        ((Reader.ReadSliceAux 10 fuel r n).1 = (s, some n.ending.toError) ∧
          unread (Reader.ReadSliceAux 10 fuel r n).2.1 (Reader.ReadSliceAux 10 fuel r n).2.2
            = [])) := by
  intro fuel
  induction fuel with
  | zero => intro r n _ _ _ hf; omega
  | succ fuel ih =>
    intro r n herr hopen hs hf
    have hb : (10 : UInt8) ∉ r.buf := fun h => hs10 (by rw [← hs]; simp [unread, h])
    have hc : cutLine 10 r.buf = none := cutLine_none hb
    by_cases hfull : r.size ≤ r.buf.length
    · have hv : Reader.ReadSliceAux 10 (fuel + 1) r n
          = ((r.buf, some .ErrBufferFull), { r with buf := [] }, n) := by
        simp only [Reader.ReadSliceAux, hc, herr, hfull, if_true]
      rw [hv]
      refine ⟨herr, rfl, NetConn.sameOut_refl n,
        Or.inl ⟨r.buf, n.incoming.flatten, rfl, hfull, hs.symm, ?_⟩⟩
      simp [unread]
    · have hv : Reader.ReadSliceAux 10 (fuel + 1) r n
          = Reader.ReadSliceAux 10 fuel (r.fill n).1 (r.fill n).2 := by
        simp only [Reader.ReadSliceAux, hc, herr, hfull, if_false]
      rw [hv]
      by_cases hne : n.incoming.flatten = []
      · obtain ⟨e1, e2, e3⟩ := NetConn.Read_end n (r.size - r.buf.length) hopen hne
        obtain ⟨f2, hf2⟩ : ∃ f2, fuel = f2 + 1 := ⟨fuel - 1, by omega⟩
        have hc2 : cutLine 10 (r.fill n).1.buf = none := by
          simp only [Reader.fill, e1, List.append_nil]; exact hc
        have hv2 : Reader.ReadSliceAux 10 fuel (r.fill n).1 (r.fill n).2
            = ((r.buf, some n.ending.toError), { r with buf := [], err := none }, (r.fill n).2) := by
          rw [hf2]
          simp only [Reader.ReadSliceAux, hc2]
          simp [Reader.fill, e1]
        rw [hv2]
        refine ⟨rfl, rfl, e3, Or.inr ⟨?_, ?_⟩⟩
        · rw [← hs]; simp [unread, hne]
        · simp [unread, Reader.fill, e2]
      · obtain ⟨d, hd1, hd2, hd3, hd4, hd5⟩ :=
          NetConn.Read_data n (r.size - r.buf.length) (by omega) hopen hne
        have hd0 : d.length ≠ 0 := by
          intro h; exact hd2 (List.length_eq_zero.mp h)
        obtain ⟨k1, k2, k3, k4⟩ := ih (r.fill n).1 (r.fill n).2 (by simp [Reader.fill, hd1])
          (by simp only [Reader.fill]; rw [hd5.1]; exact hopen)
          (by simp only [unread, Reader.fill, hd1]; rw [List.append_assoc, hd4]; exact hs)
          (by simp only [Reader.fill, hd1, List.length_append]; omega)
        refine ⟨k1, by rw [k2]; rfl, NetConn.sameOut_trans hd5 k3, ?_⟩
        have hend : (r.fill n).2.ending = n.ending := hd5.2.2.2
        rw [hend] at k4
        rcases k4 with ⟨p, a2, q1, q2, q3, q4⟩ | k4
        · exact Or.inl ⟨p, a2, q1, by rw [← show (r.fill n).1.size = r.size from rfl]; exact q2, q3, q4⟩
        · exact Or.inr k4

/-- The fallback loop of `readLine` on a stream that ends without a line
terminator ends with the error that ends the stream. -/
theorem readLineGrow_open :
    ∀ (fuel : Nat) (acc : Bytes) (r : Reader) (n : NetConn) (s : Bytes), (10 : UInt8) ∉ s →
      0 < r.size → r.err = none → n.closed = false → unread r n = s →
      s.length + 1 ≤ fuel →
      (readLineGrow fuel acc r n).1 = (acc ++ s, some n.ending.toError) ∧
      unread (readLineGrow fuel acc r n).2.1 (readLineGrow fuel acc r n).2.2 = [] ∧
      (readLineGrow fuel acc r n).2.1.err = none ∧
      (readLineGrow fuel acc r n).2.1.size = r.size ∧
      n.sameOut (readLineGrow fuel acc r n).2.2 := by
  intro fuel
  induction fuel with
  | zero => intro acc r n s _ _ _ _ _ hf; omega
  | succ fuel ih =>
    intro acc r n s hs10 hsz herr hopen hs hf
    obtain ⟨k1, k2, k3, k4⟩ :=
      ReadSliceAux_open s hs10 (r.size + 2) r n herr hopen hs (by omega)
    rcases k4 with ⟨p, a, q1, q2, q3, q4⟩ | ⟨q1, q2⟩
    · have hv : readLineGrow (fuel + 1) acc r n
          = readLineGrow fuel (acc ++ p) (r.ReadSlice 10 n).2.1 (r.ReadSlice 10 n).2.2 := by
        simp only [readLineGrow, Reader.ReadSlice, q1]
        simp
      rw [hv]
      have ha : (10 : UInt8) ∉ a := fun h => hs10 (by rw [q3]; simp [h])
      have hlen : s.length = p.length + a.length := by rw [q3]; simp
      obtain ⟨j1, j2, j3, j4, j5⟩ := ih (acc ++ p) (r.ReadSlice 10 n).2.1 (r.ReadSlice 10 n).2.2 a ha
        (by simp only [Reader.ReadSlice]; rw [k2]; exact hsz) k1
        (by simp only [Reader.ReadSlice]; rw [k3.1]; exact hopen) q4 (by omega)
      have hend : (r.ReadSlice 10 n).2.2.ending = n.ending := k3.2.2.2
      rw [hend] at j1
      refine ⟨by rw [j1, q3]; simp, j2, j3, ?_, NetConn.sameOut_trans k3 j5⟩
      rw [j4]; exact k2
    · have hne : (some n.ending.toError : Option GoError) ≠ some GoError.ErrBufferFull := by
        intro h; exact StreamEnd.toError_ne_full _ (Option.some.inj h)
      have hv : readLineGrow (fuel + 1) acc r n
          = ((acc ++ (r.ReadSlice 10 n).1.1, (r.ReadSlice 10 n).1.2),
              (r.ReadSlice 10 n).2.1, (r.ReadSlice 10 n).2.2) := by
        simp only [readLineGrow, Reader.ReadSlice, q1]
        simp only [if_neg hne]
      rw [hv]
      simp only [Reader.ReadSlice, q1]
      exact ⟨trivial, q2, k1, k2, k3⟩

/-- Function `readLine` on a stream that ends without a line terminator
returns the error that ends the stream. -/
theorem readLine_open (r : Reader) (n : NetConn) (s : Bytes) (hsz : 0 < r.size)
    (herr : r.err = none) (hopen : n.closed = false) (hs10 : (10 : UInt8) ∉ s)
    (hs : unread r n = s) :
    (readLine r n).1 = .error n.ending.toError ∧
      unread (readLine r n).2.1 (readLine r n).2.2 = [] ∧
      (readLine r n).2.1.err = none ∧ (readLine r n).2.1.size = r.size ∧
      n.sameOut (readLine r n).2.2 := by
  obtain ⟨k1, k2, k3, k4⟩ :=
    ReadSliceAux_open s hs10 (r.size + 2) r n herr hopen hs (by omega)
  have hne : (some n.ending.toError : Option GoError) ≠ some GoError.ErrBufferFull := by
    intro h; exact StreamEnd.toError_ne_full _ (Option.some.inj h)
  rcases k4 with ⟨p, a, q1, q2, q3, q4⟩ | ⟨q1, q2⟩
  · have ha : (10 : UInt8) ∉ a := fun h => hs10 (by rw [q3]; simp [h])
    obtain ⟨j1, j2, j3, j4, j5⟩ := readLineGrow_open
      (pending (r.ReadSlice 10 n).2.1 (r.ReadSlice 10 n).2.2 + 1) p
      (r.ReadSlice 10 n).2.1 (r.ReadSlice 10 n).2.2 a ha
      (by simp only [Reader.ReadSlice]; rw [k2]; exact hsz) k1
      (by simp only [Reader.ReadSlice]; rw [k3.1]; exact hopen) q4
      (by rw [pending_eq]; simp only [Reader.ReadSlice]; rw [q4])
    have hend : (r.ReadSlice 10 n).2.2.ending = n.ending := k3.2.2.2
    rw [hend] at j1
    have hp : (r.ReadSlice 10 n).1.1 = p := by simp only [Reader.ReadSlice, q1]
    have he : (r.ReadSlice 10 n).1.2 = some GoError.ErrBufferFull := by
      simp only [Reader.ReadSlice, q1]
    have hv : readLine r n = (.error n.ending.toError, (readLineGrow
        (pending (r.ReadSlice 10 n).2.1 (r.ReadSlice 10 n).2.2 + 1) p
        (r.ReadSlice 10 n).2.1 (r.ReadSlice 10 n).2.2).2) := by
      simp only [readLine, if_pos he, hp, j1]
    rw [hv]
    refine ⟨rfl, j2, j3, ?_, NetConn.sameOut_trans k3 j5⟩
    rw [j4]; exact k2
  · have hv : readLine r n = (.error n.ending.toError, (r.ReadSlice 10 n).2) := by
      have hne2 : (r.ReadSlice 10 n).1.2 ≠ some GoError.ErrBufferFull := by
        simp only [Reader.ReadSlice, q1]; exact hne
      simp only [readLine, if_neg hne2]
      simp only [Reader.ReadSlice, q1]
    rw [hv]
    exact ⟨rfl, q2, k1, k2, k3⟩

theorem readReply_ok (r : Reader) (n : NetConn) (l : Bytes) (h : (readLine r n).1 = .ok l) :
    readReply r n = (.ok l, (readLine r n).2) := by
  simp only [readReply, h]
  cases l with
  | nil => simp
  | cons a l => simp

/-- Method `Receive` on a channel whose stream holds a terminated line returns
the line and leaves the bytes after it. -/
theorem Receive_line (c : Conn) (l rest : Bytes) (hl : (10 : UInt8) ∉ l)
    (h : ReadsFrom c (l ++ 10 :: rest)) :
    (c.Receive).1 = .ok l ∧ ReadsFrom (c.Receive).2 rest ∧ (c.Receive).2.err = c.err ∧
      (c.Receive).2.bw = c.bw ∧ c.conn.sameOut (c.Receive).2.conn := by
  obtain ⟨hsz, herr, hopen, hs⟩ := h
  obtain ⟨k1, k2, k3, k4, k5⟩ :=
    readLine_line c.br c.conn.SetReadDeadline l rest hsz herr hopen hl hs
  have hv : c.Receive = (.ok l,
      { c with conn := (readLine c.br c.conn.SetReadDeadline).2.2,
               br := (readLine c.br c.conn.SetReadDeadline).2.1 }) := by
    simp only [Conn.Receive, Conn.ReceiveWithTimeout, readReply_ok _ _ _ k1]
  rw [hv]
  refine ⟨rfl, ⟨?_, k3, ?_, k2⟩, rfl, rfl, k5⟩
  · show 0 < (readLine c.br c.conn.SetReadDeadline).2.1.size
    rw [k4]; exact hsz
  · show (readLine c.br c.conn.SetReadDeadline).2.2.closed = false
    rw [k5.1]; exact hopen

theorem trimFront_space (two : UInt8 → UInt8 → Bool) (three : UInt8 → UInt8 → UInt8 → Bool)
    (s : Bytes) : trimFront two three (32 :: s) = trimFront two three s := by
  rw [trimFront.eq_def]
  simp [asciiSpace]

/-- The space after the colon of a header line is trimmed away. -/
theorem TrimSpace_space (s : Bytes) : TrimSpace (32 :: s) = TrimSpace s := by
  simp [TrimSpace, trimFront_space]

theorem B_token : B "token: " = [116, 111, 107, 101, 110, 58, 32] := by decide
theorem B_token_key : B "token:" = [116, 111, 107, 101, 110, 58] := by decide
theorem B_data : B "data: " = [100, 97, 116, 97, 58, 32] := by decide
theorem B_data_key : B "data:" = [100, 97, 116, 97, 58] := by decide

theorem sliceFrom_token (t : Bytes) : sliceFrom 6 (B "token: " ++ t) = some (32 :: t) := by
  simp [sliceFrom, B_token]

theorem HasPrefix_token (t : Bytes) : HasPrefix (B "token: " ++ t) (B "token:") = true := by
  simp [HasPrefix, B_token, B_token_key]

theorem sliceFrom_data (t : Bytes) : sliceFrom 6 (B "data: " ++ t) = some t := by
  simp [sliceFrom, B_data]

theorem HasPrefix_data (t : Bytes) : HasPrefix (B "data: " ++ t) (B "data:") = true := by
  simp [HasPrefix, B_data, B_data_key]

theorem HasPrefix_data_token (t : Bytes) : HasPrefix (B "data: " ++ t) (B "token:") = false := by
  rw [B_data, B_token_key]
  rfl

theorem not_mem_token : (10 : UInt8) ∉ B "token: " := by decide
theorem not_mem_data : (10 : UInt8) ∉ B "data: " := by decide

/-! ## The registry and `close` -/

theorem Registry.get_delete_self (h : Registry) (t : Bytes) : (h.delete t).get t = none := by
  obtain ⟨es⟩ := h
  simp only [Registry.get, Registry.delete, Option.map_eq_none']
  induction es with
  | nil => simp
  | cons e es ih =>
    by_cases he : e.1 = t
    · simp [List.filter_cons, he, ih]
    · simp [List.filter_cons, he, ih, List.find?_cons]

theorem Registry.get_delete_ne (h : Registry) (t k : Bytes) (hk : k ≠ t) :
    (h.delete t).get k = h.get k := by
  obtain ⟨es⟩ := h
  simp only [Registry.get, Registry.delete]
  induction es with
  | nil => simp
  | cons e es ih =>
    by_cases he : e.1 = t
    · have hek : ¬ e.1 = k := fun h2 => hk (h2.symm.trans he)
      rw [List.filter_cons_of_neg (by simpa using he), List.find?_cons_of_neg _ (by simpa using hek)]
      exact ih
    · rw [List.filter_cons_of_pos (by simpa using he)]
      by_cases hek : e.1 = k
      · rw [List.find?_cons_of_pos _ (by simpa using hek),
          List.find?_cons_of_pos _ (by simpa using hek)]
      · rw [List.find?_cons_of_neg _ (by simpa using hek),
          List.find?_cons_of_neg _ (by simpa using hek)]
        exact ih

theorem Registry.delete_absent (h : Registry) (t : Bytes) (ha : h.get t = none) :
    h.delete t = h := by
  obtain ⟨es⟩ := h
  simp only [Registry.get, Registry.delete, Option.map_eq_none'] at *
  congr 1
  rw [List.filter_eq_self]
  intro e he
  have := List.find?_eq_none.mp ha e he
  simpa using this

/-- The `close` case of `processRecv` once the first header line is known. -/
theorem processRecv_close_line (c : Conn) (line l : Bytes) (hashes : Registry) (fs : FS)
    (hcmd : TrimSpace line = B "close") (hr : (c.Receive).1 = .ok l) :
    processRecv c line hashes fs =
      if HasPrefix l (B "token:") then
        match sliceFrom 6 l with
        | none =>
          { ret := .panic "slice bounds out of range", c := (c.Receive).2, hashes := hashes,
            fs := fs }
        | some v =>
          { ret := .nil, c := (c.Receive).2, hashes := hashes.delete (TrimSpace v), fs := fs }
      else { ret := .nil, c := (c.Receive).2, hashes := hashes, fs := fs } := by
  unfold processRecv
  simp only [hcmd, if_true]
  generalize c.Receive = p at hr
  obtain ⟨p1, p2⟩ := p
  simp only at hr
  subst hr
  rfl

/-- C2: the `close` case looks for the token in the first header line
only.  When that line is `token: t`, `processRecv` returns nil and leaves the
registry with `t` erased: the session of `t` is gone, every other session is as
before, and when `t` was absent the registry is unchanged; the file system is
not touched and the stream is read up to the end of that line.  When the
header carries `token: t` after a first line `l` that is another field,
`processRecv` returns nil as well but the registry is as it was, so a session
of `t` is still there, and the `token` line is left in the stream. -/
theorem close_erases_token (c : Conn) (line t rest : Bytes) (hashes : Registry) (fs : FS)
    (hcmd : TrimSpace line = B "close") (ht : TrimSpace t = t) (hnl : (10 : UInt8) ∉ t) :
    (ReadsFrom c (B "token: " ++ t ++ 10 :: rest) →
      (processRecv c line hashes fs).ret = .nil ∧
        (processRecv c line hashes fs).hashes = hashes.delete t ∧
        (processRecv c line hashes fs).hashes.get t = none ∧
        (∀ k, k ≠ t → (processRecv c line hashes fs).hashes.get k = hashes.get k) ∧
        (hashes.get t = none → (processRecv c line hashes fs).hashes = hashes) ∧
        (processRecv c line hashes fs).fs = fs ∧
        ReadsFrom (processRecv c line hashes fs).c rest) ∧
      (∀ l, (10 : UInt8) ∉ l → HasPrefix l (B "token:") = false →
        ReadsFrom c (l ++ 10 :: (B "token: " ++ t ++ 10 :: rest)) →
        (processRecv c line hashes fs).ret = .nil ∧
          (processRecv c line hashes fs).hashes = hashes ∧
          (∀ p, hashes.get t = some p → (processRecv c line hashes fs).hashes.get t = some p) ∧
          (processRecv c line hashes fs).fs = fs ∧
          ReadsFrom (processRecv c line hashes fs).c (B "token: " ++ t ++ 10 :: rest)) := by
  refine ⟨fun hs => ?_, fun l hl hkey hs => ?_⟩
  · have hl : (10 : UInt8) ∉ B "token: " ++ t := by
      intro h
      rcases List.mem_append.mp h with h | h
      · exact not_mem_token h
      · exact hnl h
    obtain ⟨r1, r2, _, _, _⟩ := Receive_line c (B "token: " ++ t) rest hl hs
    have hv : processRecv c line hashes fs =
        { ret := .nil, c := (c.Receive).2, hashes := hashes.delete t, fs := fs } := by
      rw [processRecv_close_line c line _ hashes fs hcmd r1]
      simp only [HasPrefix_token, sliceFrom_token, TrimSpace_space, ht, if_true]
    rw [hv]
    exact ⟨rfl, rfl, Registry.get_delete_self _ _, fun k hk => Registry.get_delete_ne _ _ _ hk,
      fun ha => Registry.delete_absent _ _ ha, rfl, r2⟩
  · obtain ⟨r1, r2, _, _, _⟩ := Receive_line c l (B "token: " ++ t ++ 10 :: rest) hl hs
    have hv : processRecv c line hashes fs =
        { ret := .nil, c := (c.Receive).2, hashes := hashes, fs := fs } := by
      rw [processRecv_close_line c line _ hashes fs hcmd r1]
      simp only [hkey, Bool.false_eq_true, if_false]
    rw [hv]
    exact ⟨rfl, rfl, fun p hp => hp, rfl, r2⟩

/-- Witness for C2: `close` with the header `token: ab` erases the session
of `ab`; `close` with the header `real-path: /tmp/a.txt`, `token: ab` leaves
it in the registry. -/
theorem close_erases_token_witness :
    (processRecv (NewConn (exNet [B "token: ab\n", B "\n"])) (B "close")
        ⟨[(B "ab", B "/tmp/a.txt"), (B "cd", B "/tmp/b.txt")]⟩ exFS).hashes
      = ⟨[(B "cd", B "/tmp/b.txt")]⟩ ∧
    (processRecv (NewConn (exNet [B "real-path: /tmp/a.txt\ntoken: ab\n\n"])) (B "close")
        ⟨[(B "ab", B "/tmp/a.txt"), (B "cd", B "/tmp/b.txt")]⟩ exFS).ret = .nil ∧
    (processRecv (NewConn (exNet [B "real-path: /tmp/a.txt\ntoken: ab\n\n"])) (B "close")
        ⟨[(B "ab", B "/tmp/a.txt"), (B "cd", B "/tmp/b.txt")]⟩ exFS).hashes.get (B "ab")
      = some (B "/tmp/a.txt") :=
  ⟨(((close_erases_token (NewConn (exNet [B "token: ab\n", B "\n"])) (B "close") (B "ab") (B "\n")
      ⟨[(B "ab", B "/tmp/a.txt"), (B "cd", B "/tmp/b.txt")]⟩ exFS
      (by decide) (by decide) (by decide)).1 ⟨by decide, rfl, rfl, by decide⟩).2.1).trans
      (by decide),
    ((close_erases_token (NewConn (exNet [B "real-path: /tmp/a.txt\ntoken: ab\n\n"])) (B "close")
      (B "ab") (B "\n") ⟨[(B "ab", B "/tmp/a.txt"), (B "cd", B "/tmp/b.txt")]⟩ exFS
      (by decide) (by decide) (by decide)).2 (B "real-path: /tmp/a.txt") (by decide) (by decide)
      ⟨by decide, rfl, rfl, by decide⟩).1,
    ((close_erases_token (NewConn (exNet [B "real-path: /tmp/a.txt\ntoken: ab\n\n"])) (B "close")
      (B "ab") (B "\n") ⟨[(B "ab", B "/tmp/a.txt"), (B "cd", B "/tmp/b.txt")]⟩ exFS
      (by decide) (by decide) (by decide)).2 (B "real-path: /tmp/a.txt") (by decide) (by decide)
      ⟨by decide, rfl, rfl, by decide⟩).2.2.1 (B "/tmp/a.txt") (by decide)⟩


/-! ## The header loop of `save` -/

theorem saveHeader_token (fuel : Nat) (token t : Bytes) (c : Conn)
    (hr : (c.Receive).1 = .ok (B "token: " ++ t)) :
    saveHeader (fuel + 1) token c = saveHeader fuel (TrimSpace t) (c.Receive).2 := by
  rw [saveHeader]
  generalize c.Receive = p at hr
  obtain ⟨p1, p2⟩ := p
  simp only at hr
  subst hr
  simp only [HasPrefix_token, sliceFrom_token, TrimSpace_space, if_true]

theorem saveHeader_data (fuel : Nat) (token d : Bytes) (c : Conn)
    (hr : (c.Receive).1 = .ok (B "data: " ++ d)) :
    saveHeader (fuel + 1) token c =
      match ParseInt d with
      | .error e => (.stop (.err e), (c.Receive).2)
      | .ok size => (.done token size, (c.Receive).2) := by
  rw [saveHeader]
  generalize c.Receive = p at hr
  obtain ⟨p1, p2⟩ := p
  simp only at hr
  subst hr
  simp only [HasPrefix_data_token, HasPrefix_data, sliceFrom_data, if_true]
  simp

theorem B_save_ne_close : B "save" ≠ B "close" := by decide

theorem processRecv_save (c : Conn) (line : Bytes) (hashes : Registry) (fs : FS)
    (hcmd : TrimSpace line = B "save") :
    processRecv c line hashes fs =
      match saveHeader (pending c.br c.conn + 1) [] c with
      | (.stop ret, c1) => { ret := ret, c := c1, hashes := hashes, fs := fs }
      | (.done token size, c1) => saveBody token size c1 hashes fs := by
  unfold processRecv
  simp only [hcmd, B_save_ne_close, if_false, if_true]

theorem mem_header_line {k v : Bytes} (hk : (10 : UInt8) ∉ k) (hv : (10 : UInt8) ∉ v) :
    (10 : UInt8) ∉ k ++ v := by
  intro h
  rcases List.mem_append.mp h with h | h
  · exact hk h
  · exact hv h

/-- The header loop on a block that lists `token: t` and then `data: d`: the
token is `t`, the size is what `d` parses to, and the stream is read up to the
end of the `data` line. -/
theorem saveHeader_token_data (c : Conn) (t d rest : Bytes) (ht : TrimSpace t = t)
    (hnl : (10 : UInt8) ∉ t) (hd : (10 : UInt8) ∉ d)
    (hs : ReadsFrom c (B "token: " ++ t ++ 10 :: (B "data: " ++ d ++ 10 :: rest))) :
    ∃ c2, ReadsFrom c2 rest ∧ c2.err = c.err ∧ c2.bw = c.bw ∧ c.conn.sameOut c2.conn ∧
      saveHeader (pending c.br c.conn + 1) [] c =
        match ParseInt d with
        | .error e => (.stop (.err e), c2)
        | .ok size => (.done t size, c2) := by
  obtain ⟨r1, r2, r3, r4, r5⟩ := Receive_line c (B "token: " ++ t) _ (mem_header_line not_mem_token hnl) hs
  obtain ⟨q1, q2, q3, q4, q5⟩ :=
    Receive_line (c.Receive).2 (B "data: " ++ d) rest (mem_header_line not_mem_data hd) r2
  obtain ⟨f, hf⟩ : ∃ f, pending c.br c.conn + 1 = f + 2 := by
    refine ⟨pending c.br c.conn - 1, ?_⟩
    have := hs.2.2.2
    rw [pending_eq, this]
    simp [B_token]
  refine ⟨((c.Receive).2.Receive).2, q2, q3.trans r3, q4.trans r4, NetConn.sameOut_trans r5 q5, ?_⟩
  rw [hf, saveHeader_token _ _ _ _ r1, ht, saveHeader_data _ _ _ _ q1]

/-- The header loop on a block that lists `data: d` first: the token is still
empty when the loop ends, and the stream is read up to the end of the `data`
line only. -/
theorem saveHeader_data_first (c : Conn) (d rest : Bytes) (hd : (10 : UInt8) ∉ d)
    (hs : ReadsFrom c (B "data: " ++ d ++ 10 :: rest)) :
    ∃ c1, ReadsFrom c1 rest ∧ c1.err = c.err ∧ c1.bw = c.bw ∧ c.conn.sameOut c1.conn ∧
      saveHeader (pending c.br c.conn + 1) [] c =
        match ParseInt d with
        | .error e => (.stop (.err e), c1)
        | .ok size => (.done [] size, c1) := by
  obtain ⟨q1, q2, q3, q4, q5⟩ :=
    Receive_line c (B "data: " ++ d) rest (mem_header_line not_mem_data hd) hs
  exact ⟨(c.Receive).2, q2, q3, q4, q5, saveHeader_data _ _ _ _ q1⟩

/-! ## The file system during `save` -/

theorem FS.put_files_ne (fs : FS) (p q : Bytes) (f : Option File) (h : q ≠ p) :
    (fs.put p f).files q = fs.files q := by
  simp [FS.put, h]

theorem FS.put_files_self (fs : FS) (p : Bytes) (f : Option File) :
    (fs.put p f).files p = f := by
  simp [FS.put]

/-- Function `TempFile` never touches an existing entry. -/
theorem FS.TempFile_keeps (fs : FS) (q : Bytes) (f : File) (h : fs.files q = some f) :
    (fs.TempFile).2.files q = some f := by
  cases hft : fs.faults.tempFile with
  | some m => simp only [FS.TempFile, hft]; exact h
  | none =>
    cases hn : fs.files (fs.tempName fs.tempCount) with
    | some g => simp only [FS.TempFile, hft, hn]; exact h
    | none =>
      have hq : q ≠ fs.tempName fs.tempCount := by
        intro e; rw [e] at h; rw [h] at hn; exact Option.noConfusion hn
      simp only [FS.TempFile, hft, hn, FS.put, if_neg hq]
      exact h

/-- The name `TempFile` returns was unused, and is an empty file of mode 0600
afterwards. -/
theorem FS.TempFile_fresh (fs : FS) (name : Bytes) (h : (fs.TempFile).1 = .ok name) :
    fs.files name = none ∧
      (fs.TempFile).2.files name = some { isDir := false, perm := 0o600, data := [] } := by
  cases hft : fs.faults.tempFile with
  | some m => simp [FS.TempFile, hft] at h
  | none =>
    cases hn : fs.files (fs.tempName fs.tempCount) with
    | some g => simp [FS.TempFile, hft, hn] at h
    | none =>
      simp only [FS.TempFile, hft, hn, Except.ok.injEq] at h
      subst h
      refine ⟨hn, ?_⟩
      simp only [FS.TempFile, hft, hn, FS.put, if_true]

theorem FS.writeFile_files_ne (fs : FS) (p q : Bytes) (data : Bytes) (h : q ≠ p) :
    (fs.writeFile p data).files q = fs.files q := by
  unfold FS.writeFile
  split
  · exact FS.put_files_ne _ _ _ _ h
  · rfl

/-- The `save` body with a token that is not in the registry returns an error
and leaves every existing entry of the file system as it was. -/
theorem saveBody_unknown (token : Bytes) (size : Int) (c : Conn) (hashes : Registry) (fs : FS)
    (hunk : hashes.get token = none) :
    (∃ e, (saveBody token size c hashes fs).ret = .err e) ∧
      (∀ q f, fs.files q = some f → (saveBody token size c hashes fs).fs.files q = some f) ∧
      (saveBody token size c hashes fs).hashes = hashes := by
  have hk := FS.TempFile_keeps fs
  have hfr := FS.TempFile_fresh fs
  unfold saveBody
  generalize fs.TempFile = tf at hk hfr
  obtain ⟨t1, fs1⟩ := tf
  cases t1 with
  | error e => exact ⟨⟨e, rfl⟩, hk, rfl⟩
  | ok fName =>
    obtain ⟨hn, _⟩ := hfr fName rfl
    have hkeep : ∀ (data : Bytes) q f, fs.files q = some f →
        (fs1.writeFile fName data).files q = some f := by
      intro data q f hq
      have hne : q ≠ fName := by
        intro e; rw [e] at hq; rw [hq] at hn; exact Option.noConfusion hn
      rw [FS.writeFile_files_ne _ _ _ _ hne]
      exact hk q f hq
    simp only [hunk]
    split
    · next e he => exact ⟨⟨e, rfl⟩, hkeep _, rfl⟩
    · exact ⟨⟨_, rfl⟩, hkeep _, rfl⟩

/-! ## Claims about the header of `save` and `close` -/

/-- C3 (amended): a `save` whose header names a token that is not in the
registry returns an error, leaves the registry as it was, and leaves every
entry that the file system held before the command as it was. -/
theorem save_unknown_token_keeps_files (c : Conn) (line t d rest : Bytes) (hashes : Registry)
    (fs : FS) (hcmd : TrimSpace line = B "save") (ht : TrimSpace t = t)
    (hnl : (10 : UInt8) ∉ t) (hd : (10 : UInt8) ∉ d) (hunk : hashes.get t = none)
    (hs : ReadsFrom c (B "token: " ++ t ++ 10 :: (B "data: " ++ d ++ 10 :: rest))) :
    (∃ e, (processRecv c line hashes fs).ret = .err e) ∧
      (∀ q f, fs.files q = some f → (processRecv c line hashes fs).fs.files q = some f) ∧
      (processRecv c line hashes fs).hashes = hashes := by
  obtain ⟨c2, _, _, _, _, hh⟩ := saveHeader_token_data c t d rest ht hnl hd hs
  rw [processRecv_save c line hashes fs hcmd, hh]
  cases hp : ParseInt d with
  | error e => exact ⟨⟨e, rfl⟩, fun q f hq => hq, rfl⟩
  | ok size => exact saveBody_unknown t size c2 hashes fs hunk

/-- Witness for C3: the token `zz` is unknown to a registry that holds `ab`. -/
theorem save_unknown_token_keeps_files_witness :
    (processRecv (NewConn (exNet [B "token: zz\ndata: 5\nhowdy"])) (B "save")
        ⟨[(B "ab", B "/tmp/a.txt")]⟩ exFS).fs.files (B "/tmp/a.txt")
      = some ⟨false, 0o644, B "hello\nworld"⟩ :=
  (save_unknown_token_keeps_files (NewConn (exNet [B "token: zz\ndata: 5\nhowdy"])) (B "save")
    (B "zz") (B "5") (B "howdy") ⟨[(B "ab", B "/tmp/a.txt")]⟩ exFS
    (by decide) (by decide) (by decide) (by decide) (by decide)
    ⟨by decide, rfl, rfl, by decide⟩).2.1 (B "/tmp/a.txt") _ (by decide)

/-- Counterexample for C3: the `save` for the unknown token `zz` returns an
error, and the file system is not as it was: the temporary file that received
the payload has been created and is left behind. -/
theorem save_unknown_token_creates_file :
    (processRecv (NewConn (exNet [B "token: zz\ndata: 5\nhowdy"])) (B "save")
        ⟨[(B "ab", B "/tmp/a.txt")]⟩ exFS).ret
      = .err (.new (B "save file error token: zz")) ∧
    exFS.files (B "/tmp/rsubl0") = none ∧
    (processRecv (NewConn (exNet [B "token: zz\ndata: 5\nhowdy"])) (B "save")
        ⟨[(B "ab", B "/tmp/a.txt")]⟩ exFS).fs.files (B "/tmp/rsubl0")
      = some ⟨false, 0o600, B "howdy"⟩ := by
  decide

/-- C9 (amended): the `data` line ends the header.  A block that lists
`token: t` before `data: N` runs the save with token `t` and size `N` on the
bytes after the `data` line; a block that lists `data: N` first runs it with
the same size but with the empty token, and the `token: t` line is left in the
stream as the first bytes of the payload. -/
theorem save_header_order (c1 c2 : Conn) (line t d rest : Bytes) (size : Int)
    (hashes : Registry) (fs : FS) (hcmd : TrimSpace line = B "save") (ht : TrimSpace t = t)
    (hnl : (10 : UInt8) ∉ t) (hd : (10 : UInt8) ∉ d) (hsize : ParseInt d = .ok size)
    (hs1 : ReadsFrom c1 (B "token: " ++ t ++ 10 :: (B "data: " ++ d ++ 10 :: rest)))
    (hs2 : ReadsFrom c2 (B "data: " ++ d ++ 10 :: (B "token: " ++ t ++ 10 :: rest))) :
    ∃ a b, ReadsFrom a rest ∧ ReadsFrom b (B "token: " ++ t ++ 10 :: rest) ∧
      processRecv c1 line hashes fs = saveBody t size a hashes fs ∧
      processRecv c2 line hashes fs = saveBody [] size b hashes fs := by
  obtain ⟨a, ha, _, _, _, hh1⟩ := saveHeader_token_data c1 t d rest ht hnl hd hs1
  obtain ⟨b, hb, _, _, _, hh2⟩ := saveHeader_data_first c2 d _ hd hs2
  refine ⟨a, b, ha, hb, ?_, ?_⟩
  · rw [processRecv_save c1 line hashes fs hcmd, hh1, hsize]
  · rw [processRecv_save c2 line hashes fs hcmd, hh2, hsize]

/-- Witness for C9: the two orders of `token: ab` and `data: 5`. -/
theorem save_header_order_witness :
    ∃ a b, ReadsFrom a (B "howdy") ∧ ReadsFrom b (B "token: " ++ B "ab" ++ 10 :: B "howdy") ∧
      processRecv (NewConn (exNet [B "token: ab\ndata: 5\nhowdy"])) (B "save")
          ⟨[(B "ab", B "/tmp/a.txt")]⟩ exFS
        = saveBody (B "ab") 5 a ⟨[(B "ab", B "/tmp/a.txt")]⟩ exFS ∧
      processRecv (NewConn (exNet [B "data: 5\ntoken: ab\nhowdy"])) (B "save")
          ⟨[(B "ab", B "/tmp/a.txt")]⟩ exFS
        = saveBody [] 5 b ⟨[(B "ab", B "/tmp/a.txt")]⟩ exFS :=
  save_header_order (NewConn (exNet [B "token: ab\ndata: 5\nhowdy"]))
    (NewConn (exNet [B "data: 5\ntoken: ab\nhowdy"])) (B "save") (B "ab") (B "5") (B "howdy") 5
    ⟨[(B "ab", B "/tmp/a.txt")]⟩ exFS (by decide) (by decide) (by decide) (by decide) rfl
    ⟨by decide, rfl, rfl, by decide⟩ ⟨by decide, rfl, rfl, by decide⟩

/-- Counterexample for C9: with `token: ab` before `data: 5` the save succeeds
and `/tmp/a.txt` holds the payload; with `data: 5` first the same two fields
end in the error for the empty token and `/tmp/a.txt` is not replaced. -/
theorem save_header_order_matters :
    (processRecv (NewConn (exNet [B "token: ab\ndata: 5\nhowdy"])) (B "save")
        ⟨[(B "ab", B "/tmp/a.txt")]⟩ exFS).ret = .nil ∧
    (processRecv (NewConn (exNet [B "token: ab\ndata: 5\nhowdy"])) (B "save")
        ⟨[(B "ab", B "/tmp/a.txt")]⟩ exFS).fs.files (B "/tmp/a.txt")
      = some ⟨false, 0o644, B "howdy"⟩ ∧
    (processRecv (NewConn (exNet [B "data: 5\ntoken: ab\nhowdy"])) (B "save")
        ⟨[(B "ab", B "/tmp/a.txt")]⟩ exFS).ret = .err (.new (B "save file error token: ")) ∧
    (processRecv (NewConn (exNet [B "data: 5\ntoken: ab\nhowdy"])) (B "save")
        ⟨[(B "ab", B "/tmp/a.txt")]⟩ exFS).fs.files (B "/tmp/a.txt")
      = some ⟨false, 0o644, B "hello\nworld"⟩ := by
  decide

/-- C10: the `close` case reads one header line only.  When the first line
of the header block is not a `token:` line, `processRecv` returns nil and
leaves the registry as it was, whatever the later lines of the block say (a
`token: t` line among them included), and those later lines are left in the
stream. -/
theorem close_reads_first_line_only (c : Conn) (line l rest : Bytes) (hashes : Registry)
    (fs : FS) (hcmd : TrimSpace line = B "close") (hl : (10 : UInt8) ∉ l)
    (hkey : HasPrefix l (B "token:") = false) (hs : ReadsFrom c (l ++ 10 :: rest)) :
    (processRecv c line hashes fs).ret = .nil ∧
      (processRecv c line hashes fs).hashes = hashes ∧
      ReadsFrom (processRecv c line hashes fs).c rest := by
  obtain ⟨r1, r2, _, _, _⟩ := Receive_line c l rest hl hs
  have hv : processRecv c line hashes fs =
      { ret := .nil, c := (c.Receive).2, hashes := hashes, fs := fs } := by
    rw [processRecv_close_line c line _ hashes fs hcmd r1]
    simp only [hkey, Bool.false_eq_true, if_false]
  rw [hv]
  exact ⟨rfl, rfl, r2⟩

/-- Witness for C10: on the header block `display-name: x`, `token: ab`,
blank line, the session of `ab` is still in the registry after the `close`,
and the `token` line and the blank line are still in the stream. -/
theorem close_reads_first_line_only_witness :
    (processRecv (NewConn (exNet [B "display-name: x\ntoken: ab\n\n"])) (B "close")
        ⟨[(B "ab", B "/tmp/a.txt")]⟩ exFS).hashes.get (B "ab") = some (B "/tmp/a.txt") ∧
    ReadsFrom (processRecv (NewConn (exNet [B "display-name: x\ntoken: ab\n\n"])) (B "close")
        ⟨[(B "ab", B "/tmp/a.txt")]⟩ exFS).c (B "token: ab\n\n") :=
  ⟨(congrArg (fun h => Registry.get h (B "ab"))
      (close_reads_first_line_only (NewConn (exNet [B "display-name: x\ntoken: ab\n\n"]))
        (B "close") (B "display-name: x") (B "token: ab\n\n") ⟨[(B "ab", B "/tmp/a.txt")]⟩ exFS
        (by decide) (by decide) (by decide) ⟨by decide, rfl, rfl, by decide⟩).2.1).trans
      (by decide),
    (close_reads_first_line_only (NewConn (exNet [B "display-name: x\ntoken: ab\n\n"]))
        (B "close") (B "display-name: x") (B "token: ab\n\n") ⟨[(B "ab", B "/tmp/a.txt")]⟩ exFS
        (by decide) (by decide) (by decide) ⟨by decide, rfl, rfl, by decide⟩).2.2⟩

/-! ## Decimal sizes -/

theorem digit_byte : ∀ d, d < 10 →
    (48 : UInt8) ≤ (48 + d).toUInt8 ∧ (48 + d).toUInt8 ≤ 57 ∧ (48 + d).toUInt8.toNat - 48 = d ∧
      (48 + d).toUInt8 ≠ 10 ∧ ((48 + d).toUInt8 == 43) = false ∧
      ((48 + d).toUInt8 == 45) = false := by
  decide

theorem parseDigits_append : ∀ (xs ys : Bytes) (acc : Nat),
    parseDigits (xs ++ ys) acc =
      match parseDigits xs acc with
      | .ok m => parseDigits ys m
      | .error b => .error b
  | [], ys, acc => by simp [parseDigits]
  | x :: xs, ys, acc => by
    simp only [List.cons_append, parseDigits]
    split
    · split
      · rfl
      · split
        · rfl
        · exact parseDigits_append xs ys _
    · rfl

/-- The digits that `decDigits` writes are read back by `parseDigits`. -/
theorem parseDigits_decDigits : ∀ (fuel n : Nat), n < fuel → n ≤ 18446744073709551615 →
    parseDigits (decDigits fuel n) 0 = .ok n := by
  intro fuel
  induction fuel with
  | zero => intro n h; omega
  | succ fuel ih =>
    intro n hf hmax
    by_cases h10 : n < 10
    · obtain ⟨d1, d2, d3, _⟩ := digit_byte n h10
      simp only [decDigits, if_pos h10, parseDigits]
      simp [d1, d2, d3, hmax]
    · obtain ⟨d1, d2, d3, _⟩ := digit_byte (n % 10) (Nat.mod_lt _ (by omega))
      simp only [decDigits, if_neg h10]
      rw [parseDigits_append, ih (n / 10) (by omega) (by omega)]
      simp only [parseDigits]
      have hc : ¬ 1844674407370955162 ≤ n / 10 := by omega
      have hm : ¬ 18446744073709551615 < n / 10 * 10 + ((48 + n % 10).toUInt8.toNat - 48) := by
        rw [d3]; omega
      have hn : n / 10 * 10 + ((48 + n % 10).toUInt8.toNat - 48) = n := by
        rw [d3]; omega
      rw [hn] at hm
      simp only [d1, d2, and_self, if_true, if_neg hc, hn, if_neg hm]

theorem decDigits_digits : ∀ (fuel n : Nat) (x : UInt8), x ∈ decDigits fuel n →
    x ≠ 10 ∧ (x == 43) = false ∧ (x == 45) = false := by
  intro fuel
  induction fuel with
  | zero => intro n x h; simp [decDigits] at h
  | succ fuel ih =>
    intro n x h
    by_cases h10 : n < 10
    · obtain ⟨_, _, _, d4, d5, d6⟩ := digit_byte n h10
      simp only [decDigits, if_pos h10, List.mem_singleton] at h
      subst h
      exact ⟨d4, d5, d6⟩
    · obtain ⟨_, _, _, d4, d5, d6⟩ := digit_byte (n % 10) (Nat.mod_lt _ (by omega))
      simp only [decDigits, if_neg h10, List.mem_append, List.mem_singleton] at h
      rcases h with h | h
      · exact ih _ _ h
      · subst h
        exact ⟨d4, d5, d6⟩

theorem decDigits_ne_nil (fuel n : Nat) : decDigits (fuel + 1) n ≠ [] := by
  simp only [decDigits]
  split <;> simp

/-- The decimal text of a size holds no line terminator. -/
theorem FormatInt_no_newline (n : Nat) : (10 : UInt8) ∉ FormatInt n := fun h =>
  (decDigits_digits _ _ _ h).1 rfl

/-- Function `ParseInt` reads back the decimal text of every size an `int64`
can hold. -/
theorem ParseInt_FormatInt (n : Nat) (h : n < 9223372036854775808) :
    ParseInt (FormatInt n) = .ok (n : Int) := by
  have hp := parseDigits_decDigits (n + 1) n (by omega) (by omega)
  have hne := decDigits_ne_nil n n
  have hd := decDigits_digits (n + 1) n
  unfold FormatInt
  generalize decDigits (n + 1) n = s at hp hne hd
  cases s with
  | nil => exact absurd rfl hne
  | cons ch cs =>
    obtain ⟨_, h43, h45⟩ := hd ch (by simp)
    have hlt : ¬ 9223372036854775808 ≤ n := by omega
    simp [ParseInt, h43, h45, hp, hlt]


/-! ## Reading the payload -/

/-- Method `Read` of the reader on an open stream that still holds bytes
returns some of them, in order, and no error. -/
theorem Reader.Read_some (r : Reader) (n : NetConn) (k : Nat) (hk : 0 < k) (hsz : 0 < r.size)
    (herr : r.err = none) (hopen : n.closed = false) (hne : unread r n ≠ []) :
    ∃ d, (r.Read k n).1 = (d, none) ∧ d ≠ [] ∧ d.length ≤ k ∧
      d ++ unread (r.Read k n).2.1 (r.Read k n).2.2 = unread r n ∧
      (r.Read k n).2.1.err = none ∧ (r.Read k n).2.1.size = r.size ∧
      n.sameOut (r.Read k n).2.2 := by
  have hk0 : k ≠ 0 := by omega
  by_cases hb : r.buf.length = 0
  · have hbn : r.buf = [] := List.length_eq_zero.mp hb
    have hF : n.incoming.flatten ≠ [] := by
      intro h; apply hne; simp [unread, hbn, h]
    by_cases hdirect : r.size ≤ k
    · obtain ⟨d, hd1, hd2, hd3, hd4, hd5⟩ := NetConn.Read_data n k hk hopen hF
      have hv : r.Read k n = ((n.Read k).1, r, (n.Read k).2) := by
        simp only [Reader.Read, if_neg hk0, hb, herr, if_pos hdirect, if_true]
      rw [hv]
      refine ⟨d, hd1, hd2, hd3, ?_, herr, rfl, hd5⟩
      simp only [unread, hbn, List.nil_append]
      exact hd4
    · obtain ⟨d, hd1, hd2, hd3, hd4, hd5⟩ := NetConn.Read_data n r.size hsz hopen hF
      have hd0 : ¬ d.length = 0 := fun h => hd2 (List.length_eq_zero.mp h)
      have hv : r.Read k n =
          ((d.take k, none), { r with buf := d.drop k, err := none }, (n.Read r.size).2) := by
        simp only [Reader.Read, if_neg hk0, hb, herr, if_neg hdirect, if_true, hd1, if_neg hd0]
      rw [hv]
      refine ⟨d.take k, rfl, ?_, ?_, ?_, rfl, rfl, hd5⟩
      · intro h
        rcases List.take_eq_nil_iff.mp h with h | h
        · exact hk0 h
        · exact hd2 h
      · simp [List.length_take]
      · simp only [unread, hbn, List.nil_append]
        rw [← List.append_assoc, List.take_append_drop]
        exact hd4
  · have hbn : r.buf ≠ [] := fun h => hb (by rw [h]; rfl)
    have hv : r.Read k n = ((r.buf.take k, none), { r with buf := r.buf.drop k }, n) := by
      simp only [Reader.Read, if_neg hk0, if_neg hb]
    rw [hv]
    refine ⟨r.buf.take k, rfl, ?_, ?_, ?_, herr, rfl, NetConn.sameOut_refl n⟩
    · intro h
      rcases List.take_eq_nil_iff.mp h with h | h
      · exact hk0 h
      · exact hbn h
    · simp [List.length_take]
    · simp only [unread]
      rw [← List.append_assoc, List.take_append_drop]

/-- The copy loop on a stream that holds the `left` bytes it is to copy. -/
theorem copyLoop_exact (bufSize : Nat) (hb : 0 < bufSize) (rest : Bytes) :
    ∀ (fuel left : Nat) (acc : Bytes) (r : Reader) (n : NetConn) (data : Bytes),
      data.length = left → left + 1 ≤ fuel → 0 < r.size → r.err = none → n.closed = false →
      unread r n = data ++ rest →
      (copyLoop bufSize fuel left acc r n).1 = (acc ++ data, none) ∧
      unread (copyLoop bufSize fuel left acc r n).2.1 (copyLoop bufSize fuel left acc r n).2.2
        = rest ∧
      (copyLoop bufSize fuel left acc r n).2.1.err = none ∧
      (copyLoop bufSize fuel left acc r n).2.1.size = r.size ∧
      n.sameOut (copyLoop bufSize fuel left acc r n).2.2 := by
  intro fuel
  induction fuel with
  | zero => intro left acc r n data _ hf; omega
  | succ fuel ih =>
    intro left acc r n data hlen hf hsz herr hopen hs
    by_cases h0 : left = 0
    · have hd : data = [] := List.length_eq_zero.mp (hlen.trans h0)
      subst hd
      have hv : copyLoop bufSize (fuel + 1) left acc r n = ((acc, none), r, n) := by
        simp only [copyLoop, if_pos h0]
      rw [hv]
      exact ⟨by simp, by simpa using hs, herr, rfl, NetConn.sameOut_refl n⟩
    · have hne : unread r n ≠ [] := by
        rw [hs]
        intro h
        have hd : data = [] := (List.append_eq_nil.mp h).1
        rw [hd] at hlen
        exact h0 hlen.symm
      obtain ⟨d, hd1, hd2, hd3, hd4, hd5, hd6, hd7⟩ :=
        Reader.Read_some r n (min bufSize left) (by omega) hsz herr hopen hne
      have hv : copyLoop bufSize (fuel + 1) left acc r n =
          copyLoop bufSize fuel (left - d.length) (acc ++ d)
            (r.Read (min bufSize left) n).2.1 (r.Read (min bufSize left) n).2.2 := by
        simp only [copyLoop, if_neg h0, hd1]
      rw [hv]
      have hdl : d.length ≤ data.length := by omega
      have hdpos : 0 < d.length := List.length_pos.mpr hd2
      rw [hs] at hd4
      have e1 : d = data.take d.length := by
        have := congrArg (List.take d.length) hd4
        rw [List.take_left, List.take_append_of_le_length hdl] at this
        exact this
      have e2 : unread (r.Read (min bufSize left) n).2.1 (r.Read (min bufSize left) n).2.2
          = data.drop d.length ++ rest := by
        have := congrArg (List.drop d.length) hd4
        rw [List.drop_left, List.drop_append_of_le_length hdl] at this
        exact this
      obtain ⟨j1, j2, j3, j4, j5⟩ := ih (left - d.length) (acc ++ d) _ _ (data.drop d.length)
        (by rw [List.length_drop]; omega) (by omega) (by rw [hd6]; exact hsz) hd5
        (by rw [hd7.1]; exact hopen) e2
      refine ⟨?_, j2, j3, by rw [j4]; exact hd6, NetConn.sameOut_trans hd7 j5⟩
      have e3 : d ++ data.drop d.length = data := by
        have := List.take_append_drop d.length data
        rw [← e1] at this
        exact this
      rw [j1, List.append_assoc, e3]

/-- Function `CopyN` on a stream that holds the `size` bytes it is to copy:
exactly those bytes are written, no error is returned, and the bytes after
them are left in the stream. -/
theorem CopyN_exact (r : Reader) (n : NetConn) (payload rest : Bytes) (hsz : 0 < r.size)
    (herr : r.err = none) (hopen : n.closed = false) (hs : unread r n = payload ++ rest) :
    (CopyN payload.length r n).1 = (payload, none) ∧
      unread (CopyN payload.length r n).2.1 (CopyN payload.length r n).2.2 = rest ∧
      (CopyN payload.length r n).2.1.err = none ∧
      (CopyN payload.length r n).2.1.size = r.size ∧
      n.sameOut (CopyN payload.length r n).2.2 := by
  have hb : 0 < (if (payload.length : Int) < 1 then 1 else min 32768 (payload.length : Int).toNat) := by
    split
    · omega
    · simp only [Int.toNat_ofNat]; omega
  obtain ⟨j1, j2, j3, j4, j5⟩ := copyLoop_exact _ hb rest ((payload.length : Int).toNat + 1)
    (payload.length : Int).toNat [] r n payload (by simp) (by omega) hsz herr hopen hs
  have hv : CopyN payload.length r n = ((payload, none),
      (copyLoop (if (payload.length : Int) < 1 then 1 else min 32768 (payload.length : Int).toNat)
        ((payload.length : Int).toNat + 1) (payload.length : Int).toNat [] r n).2) := by
    simp only [CopyN, j1, List.nil_append, if_true]
  rw [hv]
  exact ⟨rfl, j2, j3, j4, j5⟩

/-! ## Tokens -/

theorem space2_bytes (a b : UInt8) (h : space2 a b = true) :
    leadByte a = true ∧ tailByte b = true := by
  simp only [space2, leadByte, tailByte, Bool.and_eq_true, Bool.or_eq_true] at *
  tauto

theorem space3_bytes (a b c : UInt8) (h : space3 a b c = true) :
    leadByte a = true ∧ tailByte c = true := by
  simp only [space3, leadByte, tailByte, Bool.and_eq_true, Bool.or_eq_true] at *
  tauto

theorem plainByte_parts (x : UInt8) (h : plainByte x = true) :
    asciiSpace x = false ∧ leadByte x = false ∧ tailByte x = false := by
  simp only [plainByte, Bool.and_eq_true, Bool.not_eq_true'] at h
  exact ⟨h.1.1, h.1.2, h.2⟩

theorem trimFront_keeps (two : UInt8 → UInt8 → Bool) (three : UInt8 → UInt8 → UInt8 → Bool)
    (x : UInt8) (s : Bytes) (h1 : asciiSpace x = false) (h2 : ∀ b, two x b = false)
    (h3 : ∀ b c, three x b c = false) : trimFront two three (x :: s) = x :: s := by
  rw [trimFront.eq_def]
  simp only [h1]
  cases s with
  | nil => simp
  | cons b s =>
    simp only [h2]
    cases s with
    | nil => simp
    | cons c s => simp [h3]

theorem trimFront_plain (x : UInt8) (s : Bytes) (h : plainByte x = true) :
    trimFront space2 space3 (x :: s) = x :: s := by
  obtain ⟨h1, h2, h3⟩ := plainByte_parts x h
  refine trimFront_keeps _ _ x s h1 ?_ ?_
  · intro b
    cases hb : space2 x b with
    | false => rfl
    | true => rw [(space2_bytes _ _ hb).1] at h2; exact absurd h2 (by decide)
  · intro b c
    cases hb : space3 x b c with
    | false => rfl
    | true => rw [(space3_bytes _ _ _ hb).1] at h2; exact absurd h2 (by decide)

theorem trimBack_plain (x : UInt8) (s : Bytes) (h : plainByte x = true) :
    trimFront (fun a b => space2 b a) (fun a b c => space3 c b a) (x :: s) = x :: s := by
  obtain ⟨h1, h2, h3⟩ := plainByte_parts x h
  refine trimFront_keeps _ _ x s h1 ?_ ?_
  · intro b
    cases hb : space2 b x with
    | false => rfl
    | true => rw [(space2_bytes _ _ hb).2] at h3; exact absurd h3 (by decide)
  · intro b c
    cases hb : space3 c b x with
    | false => rfl
    | true => rw [(space3_bytes _ _ _ hb).2] at h3; exact absurd h3 (by decide)

/-- Function `TrimSpace` leaves a text of plain bytes as it is. -/
theorem TrimSpace_plain (t : Bytes) (h : ∀ x ∈ t, plainByte x = true) : TrimSpace t = t := by
  have h1 : trimFront space2 space3 t = t := by
    cases t with
    | nil => rfl
    | cons x s => exact trimFront_plain x s (h x (by simp))
  unfold TrimSpace
  rw [h1]
  cases hr : t.reverse with
  | nil =>
    have : t = [] := List.reverse_eq_nil_iff.mp hr
    subst this
    rfl
  | cons y ys =>
    have hy : y ∈ t := by
      have : y ∈ t.reverse := by rw [hr]; simp
      exact List.mem_reverse.mp this
    rw [trimBack_plain y ys (h y hy), ← hr, List.reverse_reverse]

theorem plainByte_ne_newline (t : Bytes) (h : ∀ x ∈ t, plainByte x = true) :
    (10 : UInt8) ∉ t := fun hm => absurd (h 10 hm) (by decide)

theorem hexDigit_plain : ∀ d, d < 16 → plainByte (hexDigit d) = true := by decide

theorem hexString_plain : ∀ (bs : Bytes) (x : UInt8), x ∈ hexString bs → plainByte x = true
  | [], x, h => by simp [hexString] at h
  | b :: bs, x, h => by
    simp only [hexString, List.mem_cons] at h
    rcases h with h | h | h
    · rw [h]
      exact hexDigit_plain _ (Nat.div_lt_of_lt_mul (by have := b.toNat_lt; omega))
    · rw [h]; exact hexDigit_plain _ (Nat.mod_lt _ (by omega))
    · exact hexString_plain bs x h

/-- The token `sendFile` computes is a text of hexadecimal digits. -/
theorem tokenOf_plain (host : Host) (p : Bytes) : ∀ x ∈ tokenOf host p, plainByte x = true :=
  hexString_plain _


/-! ## A successful `save` -/

/-- The `save` body for a registered token whose file exists, on a stream that
holds the payload, with no injected failure: nil is returned, the file holds
the payload under its old permission bits, the temporary file is gone, every
other entry and the registry are as before. -/
theorem saveBody_known (token payload rest file : Bytes) (f : File) (c : Conn)
    (hashes : Registry) (fs : FS) (hc : ReadsFrom c (payload ++ rest))
    (hget : hashes.get token = some file) (hfile : fs.files file = some f)
    (hnd : f.isDir = false) (hfaults : fs.faults = Faults.none)
    (hfresh : fs.files (fs.tempName fs.tempCount) = none) :
    (saveBody token payload.length c hashes fs).ret = .nil ∧
      (saveBody token payload.length c hashes fs).fs.files file
        = some { isDir := false, perm := f.perm, data := payload } ∧
      (saveBody token payload.length c hashes fs).hashes = hashes ∧
      ReadsFrom (saveBody token payload.length c hashes fs).c rest ∧
      (∀ q, q ≠ file → (saveBody token payload.length c hashes fs).fs.files q = fs.files q) := by
  obtain ⟨hsz, herr, hopen, hs⟩ := hc
  obtain ⟨j1, j2, j3, j4, j5⟩ := CopyN_exact c.br c.conn payload rest hsz herr hopen hs
  have hne : file ≠ fs.tempName fs.tempCount := by
    intro e; rw [e] at hfile; rw [hfile] at hfresh; exact Option.noConfusion hfresh
  have hne2 : fs.tempName fs.tempCount ≠ file := fun e => hne e.symm
  have hf1 : fs.faults.tempFile = none := by rw [hfaults]; rfl
  have hf2 : fs.faults.stat = none := by rw [hfaults]; rfl
  have hf3 : fs.faults.rename = none := by rw [hfaults]; rfl
  have hf4 : fs.faults.chmod = none := by rw [hfaults]; rfl
  have hv : saveBody token payload.length c hashes fs =
      { ret := .nil,
        c := { c with br := (CopyN payload.length c.br c.conn).2.1,
                      conn := (CopyN payload.length c.br c.conn).2.2 },
        hashes := hashes,
        fs := (((({ fs with tempCount := fs.tempCount + 1 } : FS).put
                  (fs.tempName fs.tempCount) (some { isDir := false, perm := 0o600, data := payload })).put
                  (fs.tempName fs.tempCount) none).put file
                  (some { isDir := false, perm := 0o600, data := payload })).put file
                  (some { isDir := false, perm := f.perm, data := payload }) } := by
    simp only [saveBody, FS.TempFile, hf1, hfresh, Conn.GetReader, j1, FS.writeFile, FS.put,
      if_true, hget, FS.Stat, hf2, if_neg hne, hfile, FS.Rename, hf3, hnd, FS.Chmod, hf4,
      Bool.false_eq_true, if_false]
    congr 2
    funext q
    by_cases hq : q = file <;>
      by_cases hq2 : q = fs.tempName fs.tempCount <;> simp [hq, hq2, hne]
  rw [hv]
  refine ⟨rfl, by simp [FS.put], rfl, ⟨by simpa [j4] using hsz, j3, by simpa [j5.1] using hopen, j2⟩, ?_⟩
  intro q hq
  by_cases hq2 : q = fs.tempName fs.tempCount
  · simp only [FS.put, if_neg hq]
    simp only [hq2, if_true, hfresh]
  · simp only [FS.put, if_neg hq, if_neg hq2]

/-- C1 (amended): for a path `p` that `sendFile` registered under its token,
when the stream holds the header lines `token: t` and `data: N` followed
directly by the `N` payload bytes, `processRecv` on `save` returns nil and
leaves the file at `p` with exactly those bytes and the permission bits it
had, the registry unchanged (the session of `t` still in it), and the bytes
after the payload unread. -/
theorem save_round_trip (host : Host) (c : Conn) (line p payload rest : Bytes) (f : File)
    (hashes : Registry) (fs : FS) (hcmd : TrimSpace line = B "save")
    (hreg : hashes.get (tokenOf host p) = some p) (hfile : fs.files p = some f)
    (hnd : f.isDir = false) (hfaults : fs.faults = Faults.none)
    (hfresh : fs.files (fs.tempName fs.tempCount) = none)
    (hN : payload.length < 9223372036854775808)
    (hs : ReadsFrom c (B "token: " ++ tokenOf host p ++
      10 :: (B "data: " ++ FormatInt payload.length ++ 10 :: (payload ++ rest)))) :
    (processRecv c line hashes fs).ret = .nil ∧
      (processRecv c line hashes fs).fs.files p
        = some { isDir := false, perm := f.perm, data := payload } ∧
      (processRecv c line hashes fs).hashes = hashes ∧
      (processRecv c line hashes fs).hashes.get (tokenOf host p) = some p ∧
      ReadsFrom (processRecv c line hashes fs).c rest := by
  obtain ⟨c2, hc2, _, _, _, hh⟩ := saveHeader_token_data c (tokenOf host p)
    (FormatInt payload.length) (payload ++ rest) (TrimSpace_plain _ (tokenOf_plain host p))
    (plainByte_ne_newline _ (tokenOf_plain host p)) (FormatInt_no_newline _) hs
  rw [processRecv_save c line hashes fs hcmd, hh, ParseInt_FormatInt _ hN]
  obtain ⟨k1, k2, k3, k4, _⟩ :=
    saveBody_known (tokenOf host p) payload rest p f c2 hashes fs hc2 hreg hfile hnd hfaults hfresh
  exact ⟨k1, k2, k3, by rw [k3]; exact hreg, k4⟩

/-- Witness for C1: `/tmp/a.txt` is saved with the five bytes `howdy`. -/
theorem save_round_trip_witness :
    (processRecv (NewConn (exNet [B "token: 5075d607c55146298a1b78a69db84941\ndata: 5\nhowdy"]))
        (B "save") exHashes exFS).fs.files (B "/tmp/a.txt")
      = some { isDir := false, perm := 0o644, data := B "howdy" } :=
  (save_round_trip exHost
    (NewConn (exNet [B "token: 5075d607c55146298a1b78a69db84941\ndata: 5\nhowdy"]))
    (B "save") (B "/tmp/a.txt") (B "howdy") [] ⟨false, 0o644, B "hello\nworld"⟩ exHashes exFS
    (by decide) (by decide) (by decide) rfl rfl (by decide) (by decide)
    ⟨by decide, rfl, rfl, by decide⟩).2.1

/-- Counterexample for C1: with the blank line between the `data` line and
the payload, as the claim puts it, the save of `howdy` (declared size 5) to
`/tmp/a.txt` returns nil but the file holds the blank line's terminator and
the first four payload bytes, not the five payload bytes; the last payload
byte is left in the stream. -/
theorem save_round_trip_blank_line :
    (processRecv
        (NewConn (exNet [B "token: 5075d607c55146298a1b78a69db84941\ndata: 5\n\nhowdy"]))
        (B "save") exHashes exFS).ret = .nil ∧
    (processRecv
        (NewConn (exNet [B "token: 5075d607c55146298a1b78a69db84941\ndata: 5\n\nhowdy"]))
        (B "save") exHashes exFS).fs.files (B "/tmp/a.txt")
      = some { isDir := false, perm := 0o644, data := B "\nhowd" } ∧
    (processRecv
        (NewConn (exNet [B "token: 5075d607c55146298a1b78a69db84941\ndata: 5\n\nhowdy"]))
        (B "save") exHashes exFS).fs.files (B "/tmp/a.txt")
      ≠ some { isDir := false, perm := 0o644, data := B "howdy" } ∧
    exHashes.get (tokenOf exHost (B "/tmp/a.txt")) = some (B "/tmp/a.txt") := by
  decide

/-! ## Claims about `readLine` -/

/-- C7: whatever the capacity of the primary buffer, on a stream whose unread
bytes are a line `l`, its terminator and `rest`, `readLine` returns exactly
`l` with no error and leaves exactly `rest` unread; the result and the bytes
left are those of every other capacity, so of a buffer that never fills. -/
theorem readLine_long_line (r : Reader) (n : NetConn) (l rest : Bytes) (hsz : 0 < r.size)
    (herr : r.err = none) (hopen : n.closed = false) (hl : (10 : UInt8) ∉ l)
    (hs : unread r n = l ++ 10 :: rest) :
    (readLine r n).1 = .ok l ∧ unread (readLine r n).2.1 (readLine r n).2.2 = rest ∧
      ∀ cap, 0 < cap →
        (readLine { r with size := cap } n).1 = (readLine r n).1 ∧
        unread (readLine { r with size := cap } n).2.1 (readLine { r with size := cap } n).2.2
          = unread (readLine r n).2.1 (readLine r n).2.2 := by
  obtain ⟨k1, k2, _⟩ := readLine_line r n l rest hsz herr hopen hl hs
  refine ⟨k1, k2, ?_⟩
  intro cap hcap
  obtain ⟨j1, j2, _⟩ := readLine_line { r with size := cap } n l rest hcap herr hopen hl hs
  exact ⟨j1.trans k1.symm, j2.trans k2.symm⟩

/-- Witness for C7: a line of 40 bytes read through a buffer of 16 bytes,
arriving in three pieces. -/
theorem readLine_long_line_witness :
    (readLine (NewReaderSize 16)
        (exNet [B "0123456789abcdefghij", B "0123456789abcdefghij\nto", B "ken"])).1
      = .ok (B "0123456789abcdefghij0123456789abcdefghij") :=
  (readLine_long_line (NewReaderSize 16)
    (exNet [B "0123456789abcdefghij", B "0123456789abcdefghij\nto", B "ken"])
    (B "0123456789abcdefghij0123456789abcdefghij") (B "token")
    (by decide) rfl rfl (by decide) (by decide)).1

/-- C8: on a stream that ends (orderly shutdown) with unread bytes `s` none
of which is a line terminator, `readLine` returns `io.EOF`.  This holds for
one or more bytes and for no byte alike, so an unterminated line and a clean
end of stream give the same result, and the protocol error is not returned. -/
theorem readLine_unterminated (r : Reader) (n : NetConn) (s : Bytes) (hsz : 0 < r.size)
    (herr : r.err = none) (hopen : n.closed = false) (hend : n.ending = .eof)
    (hs10 : (10 : UInt8) ∉ s) (hs : unread r n = s) :
    (readLine r n).1 = .error .EOF := by
  have := (readLine_open r n s hsz herr hopen hs10 hs).1
  rw [hend] at this
  exact this

/-- Witness for C8: the stream ends after the three bytes `abc`. -/
theorem readLine_unterminated_witness :
    (readLine NewReader (exNet [B "abc"])).1 = .error .EOF ∧
      (readLine NewReader (exNet [])).1 = .error .EOF :=
  ⟨readLine_unterminated NewReader (exNet [B "abc"]) (B "abc") (by decide) rfl rfl rfl
      (by decide) (by decide),
    rfl⟩

/-! ## The error latch -/

theorem LatchCall.run_set (k : LatchCall) (c : Conn) (e : GoError) (h : c.err = some e) :
    k.run c = c := by
  cases k <;> simp [LatchCall.run, Conn.fatal, Conn.Close, h]

theorem runCalls_set (ks : List LatchCall) (c : Conn) (e : GoError) (h : c.err = some e) :
    runCalls ks c = c := by
  induction ks with
  | nil => rfl
  | cons k ks ih => rw [runCalls, LatchCall.run_set k c e h]; exact ih

theorem LatchCall.run_unset (k : LatchCall) (c : Conn) (h : c.err = none) :
    (k.run c).err = some k.value ∧ closeCount (k.run c) = closeCount c + 1 := by
  cases k <;>
    simp [LatchCall.run, LatchCall.value, Conn.fatal, Conn.Close, h, closeCount, NetConn.Close]

/-- C6: on a channel whose stored error is unset, the first call of `fatal`
or `Close` stores its error and invokes the stream's `Close` once; after any
further calls of `fatal` and `Close`, with whatever errors, `Err()` still
returns the first value and the stream's `Close` has still been invoked
exactly once. -/
theorem latch_set_once (c : Conn) (first : LatchCall) (later : List LatchCall)
    (h : c.err = none) :
    (first.run c).Err = some first.value ∧ closeCount (first.run c) = closeCount c + 1 ∧
      (runCalls (first :: later) c).Err = some first.value ∧
      closeCount (runCalls (first :: later) c) = closeCount c + 1 := by
  obtain ⟨h1, h2⟩ := LatchCall.run_unset first c h
  have h3 : runCalls (first :: later) c = first.run c := by
    rw [runCalls]; exact runCalls_set later _ _ h1
  rw [h3]
  exact ⟨h1, h2, h1, h2⟩

/-- Witness for C6: a failed write, then `Close`, then a second failure. -/
theorem latch_set_once_witness :
    (runCalls [.fatal (.sys "broken pipe"), .close, .fatal .EOF] (NewConn (exNet []))).Err
        = some (.sys "broken pipe") ∧
      closeCount (runCalls [.fatal (.sys "broken pipe"), .close, .fatal .EOF]
        (NewConn (exNet []))) = 1 :=
  ⟨(latch_set_once (NewConn (exNet [])) (.fatal (.sys "broken pipe")) [.close, .fatal .EOF]
      rfl).2.2.1,
    by decide⟩

theorem Writer.Flush_err (w : Writer) (n : NetConn) (e : GoError)
    (h : (w.Flush n).1 = some e) : (w.Flush n).2.1.err = some e := by
  unfold Writer.Flush at h ⊢
  cases hw : w.err with
  | some e0 => simp only [hw] at h ⊢; rw [← h]
  | none =>
    simp only [hw] at h ⊢
    by_cases hb : w.buf.length = 0
    · simp [hb] at h
    · simp only [if_neg hb] at h ⊢
      split at h
      · next e1 he1 =>
        simp only [he1]
        simpa using h
      · simp at h

theorem Writer.WriteStringAux_err (fuel : Nat) (s : Bytes) (w : Writer) (n : NetConn)
    (e : GoError) (h : w.err = some e) :
    Writer.WriteStringAux (fuel + 1) s w n = (some e, w, n) := by
  simp [Writer.WriteStringAux, h]

theorem Writer.WriteAux_err (fuel : Nat) (s : Bytes) (w : Writer) (n : NetConn)
    (e : GoError) (h : w.err = some e) :
    Writer.WriteAux (fuel + 1) s w n = (some e, w, n) := by
  simp [Writer.WriteAux, h]

/-- Counterexample for C5: after the flush has failed with a broken pipe and
closed the stream, `Receive` does not return that error: it sets the read
deadline and reads on the closed stream, and returns the error of that
read. -/
theorem receive_after_failed_flush :
    (exBrokenConn.Flush).1 = some (.sys "broken pipe") ∧
      (exBrokenConn.Flush).2.conn.closed = true ∧
      ((exBrokenConn.Flush).2.Receive).1 = .error .ErrClosed ∧
      ((exBrokenConn.Flush).2.Receive).2.conn.calls
        = (exBrokenConn.Flush).2.conn.calls ++ [.setReadDeadline, .read] := by
  decide

/-! ## Writing -/

theorem NetConn.Write_ok (n : NetConn) (p : Bytes) (hopen : n.closed = false)
    (hwe : n.writeErr = none) :
    (n.Write p).1 = (p.length, none) ∧ (n.Write p).2.outgoing = n.outgoing ++ p ∧
      (n.Write p).2.closed = false ∧ (n.Write p).2.writeErr = none := by
  simp [NetConn.Write, hopen, hwe]

theorem Writer.Flush_ok (w : Writer) (n : NetConn) (hw : w.err = none)
    (hopen : n.closed = false) (hwe : n.writeErr = none) :
    (w.Flush n).1 = none ∧ (w.Flush n).2.1 = { w with buf := [] } ∧
      (w.Flush n).2.2.outgoing = n.outgoing ++ w.buf ∧ (w.Flush n).2.2.closed = false ∧
      (w.Flush n).2.2.writeErr = none := by
  by_cases hb : w.buf.length = 0
  · have hbn : w.buf = [] := List.length_eq_zero.mp hb
    have hv : w.Flush n = (none, w, n) := by simp only [Writer.Flush, hw, hb, if_true]
    rw [hv]
    refine ⟨rfl, ?_, by simp [hbn], hopen, hwe⟩
    cases w
    simp_all
  · obtain ⟨h1, h2, h3, h4⟩ := NetConn.Write_ok n w.buf hopen hwe
    have hv : w.Flush n = (none, { w with buf := [] }, (n.Write w.buf).2) := by
      simp only [Writer.Flush, hw, if_neg hb, h1]
      simp
    rw [hv]
    exact ⟨rfl, rfl, h2, h3, h4⟩

/-- The loop of `WriteString` on a healthy channel takes the whole text. -/
theorem Writer.WriteStringAux_ok :
    ∀ (fuel : Nat) (s : Bytes) (w : Writer) (n : NetConn), 0 < w.size → w.err = none →
      n.closed = false → n.writeErr = none →
      s.length + (if w.size ≤ w.buf.length then 1 else 0) ≤ fuel → 1 ≤ fuel →
      (Writer.WriteStringAux fuel s w n).1 = none ∧
      (Writer.WriteStringAux fuel s w n).2.1.size = w.size ∧
      (Writer.WriteStringAux fuel s w n).2.1.err = none ∧
      (Writer.WriteStringAux fuel s w n).2.2.closed = false ∧
      (Writer.WriteStringAux fuel s w n).2.2.writeErr = none ∧
      (Writer.WriteStringAux fuel s w n).2.2.outgoing ++ (Writer.WriteStringAux fuel s w n).2.1.buf
        = n.outgoing ++ w.buf ++ s := by
  intro fuel
  induction fuel with
  | zero => intro s w n _ _ _ _ _ h1; omega
  | succ fuel ih =>
    intro s w n hsz hw hopen hwe hf _
    by_cases hfit : w.size - w.buf.length < s.length
    · obtain ⟨f1, f2, f3, f4, f5⟩ :=
        Writer.Flush_ok { w with buf := w.buf ++ s.take (w.size - w.buf.length) } n hw hopen hwe
      have hv : Writer.WriteStringAux (fuel + 1) s w n =
          Writer.WriteStringAux fuel (s.drop (w.size - w.buf.length))
            (Writer.Flush { w with buf := w.buf ++ s.take (w.size - w.buf.length) } n).2.1
            (Writer.Flush { w with buf := w.buf ++ s.take (w.size - w.buf.length) } n).2.2 := by
        simp only [Writer.WriteStringAux, hfit, hw, and_self, if_true]
      rw [hv]
      have hfuel : (s.drop (w.size - w.buf.length)).length + 0 ≤ fuel ∧ 1 ≤ fuel := by
        rw [List.length_drop]
        split at hf <;> omega
      have g1 : (Writer.Flush { w with buf := w.buf ++ s.take (w.size - w.buf.length) } n).2.1.size
          = w.size := by rw [f2]
      have g2 : (Writer.Flush { w with buf := w.buf ++ s.take (w.size - w.buf.length) } n).2.1.buf
          = [] := by rw [f2]
      have g3 : (Writer.Flush { w with buf := w.buf ++ s.take (w.size - w.buf.length) } n).2.1.err
          = none := by rw [f2]; exact hw
      obtain ⟨j1, j2, j3, j4, j5, j6⟩ := ih (s.drop (w.size - w.buf.length))
        (Writer.Flush { w with buf := w.buf ++ s.take (w.size - w.buf.length) } n).2.1
        (Writer.Flush { w with buf := w.buf ++ s.take (w.size - w.buf.length) } n).2.2
        (by rw [g1]; exact hsz) g3 f4 f5
        (by rw [g1, g2]; simp only [List.length_nil]; rw [if_neg (by omega)]; exact hfuel.1)
        hfuel.2
      refine ⟨j1, by rw [j2, g1], j3, j4, j5, ?_⟩
      rw [j6, f3, g2]
      simp only [List.append_nil, List.append_assoc, List.take_append_drop]
    · have hv : Writer.WriteStringAux (fuel + 1) s w n = (none, { w with buf := w.buf ++ s }, n) := by
        simp only [Writer.WriteStringAux, hfit, false_and, if_false, hw]
      rw [hv]
      exact ⟨rfl, rfl, hw, hopen, hwe, by simp⟩

/-- The loop of `Write` on a healthy channel takes the whole text. -/
theorem Writer.WriteAux_ok :
    ∀ (fuel : Nat) (s : Bytes) (w : Writer) (n : NetConn), 0 < w.size → w.err = none →
      n.closed = false → n.writeErr = none →
      s.length + (if w.size ≤ w.buf.length then 1 else 0) ≤ fuel → 1 ≤ fuel →
      (Writer.WriteAux fuel s w n).1 = none ∧
      (Writer.WriteAux fuel s w n).2.1.size = w.size ∧
      (Writer.WriteAux fuel s w n).2.1.err = none ∧
      (Writer.WriteAux fuel s w n).2.2.closed = false ∧
      (Writer.WriteAux fuel s w n).2.2.writeErr = none ∧
      (Writer.WriteAux fuel s w n).2.2.outgoing ++ (Writer.WriteAux fuel s w n).2.1.buf
        = n.outgoing ++ w.buf ++ s := by
  intro fuel
  induction fuel with
  | zero => intro s w n _ _ _ _ _ h1; omega
  | succ fuel ih =>
    intro s w n hsz hw hopen hwe hf _
    by_cases hfit : w.size - w.buf.length < s.length
    · by_cases hb : w.buf.length = 0
      · have hbn : w.buf = [] := List.length_eq_zero.mp hb
        obtain ⟨h1, h2, h3, h4⟩ := NetConn.Write_ok n s hopen hwe
        have hv : Writer.WriteAux (fuel + 1) s w n =
            Writer.WriteAux fuel [] { w with err := none } (n.Write s).2 := by
          rw [Writer.WriteAux, if_pos ⟨hfit, hw⟩, if_pos hb]
          simp only [h1, List.drop_length]
        rw [hv]
        obtain ⟨j1, j2, j3, j4, j5, j6⟩ := ih [] { w with err := none } (n.Write s).2 hsz rfl h3 h4
          (by simp only [List.length_nil, hb]; rw [if_neg (by omega)]; omega)
          (by rw [hb] at hfit hf; rw [if_neg (by omega)] at hf; omega)
        refine ⟨j1, j2, j3, j4, j5, ?_⟩
        rw [j6, h2, hbn]
        simp
      · obtain ⟨f1, f2, f3, f4, f5⟩ :=
          Writer.Flush_ok { w with buf := w.buf ++ s.take (w.size - w.buf.length) } n hw hopen hwe
        have hv : Writer.WriteAux (fuel + 1) s w n =
            Writer.WriteAux fuel (s.drop (w.size - w.buf.length))
              (Writer.Flush { w with buf := w.buf ++ s.take (w.size - w.buf.length) } n).2.1
              (Writer.Flush { w with buf := w.buf ++ s.take (w.size - w.buf.length) } n).2.2 := by
          simp only [Writer.WriteAux, hfit, hw, and_self, if_true, if_neg hb]
        rw [hv]
        have hfuel : (s.drop (w.size - w.buf.length)).length + 0 ≤ fuel ∧ 1 ≤ fuel := by
          rw [List.length_drop]
          split at hf <;> omega
        have g1 : (Writer.Flush { w with buf := w.buf ++ s.take (w.size - w.buf.length) } n).2.1.size
            = w.size := by rw [f2]
        have g2 : (Writer.Flush { w with buf := w.buf ++ s.take (w.size - w.buf.length) } n).2.1.buf
            = [] := by rw [f2]
        have g3 : (Writer.Flush { w with buf := w.buf ++ s.take (w.size - w.buf.length) } n).2.1.err
            = none := by rw [f2]; exact hw
        obtain ⟨j1, j2, j3, j4, j5, j6⟩ := ih (s.drop (w.size - w.buf.length))
          (Writer.Flush { w with buf := w.buf ++ s.take (w.size - w.buf.length) } n).2.1
          (Writer.Flush { w with buf := w.buf ++ s.take (w.size - w.buf.length) } n).2.2
          (by rw [g1]; exact hsz) g3 f4 f5
          (by rw [g1, g2]; simp only [List.length_nil]; rw [if_neg (by omega)]; exact hfuel.1)
          hfuel.2
        refine ⟨j1, by rw [j2, g1], j3, j4, j5, ?_⟩
        rw [j6, f3, g2]
        simp only [List.append_nil, List.append_assoc, List.take_append_drop]
    · have hv : Writer.WriteAux (fuel + 1) s w n = (none, { w with buf := w.buf ++ s }, n) := by
        simp only [Writer.WriteAux, hfit, false_and, if_false, hw]
      rw [hv]
      exact ⟨rfl, rfl, hw, hopen, hwe, by simp⟩

theorem Conn.armWrite_sends (c : Conn) (h : Sends c) :
    Sends c.armWrite ∧ sent c.armWrite = sent c ∧ c.armWrite.bw = c.bw ∧
      c.armWrite.conn.outgoing = c.conn.outgoing := by
  unfold Conn.armWrite
  split
  · exact ⟨h, rfl, rfl, rfl⟩
  · exact ⟨h, rfl, rfl, rfl⟩

/-- Method `SendString` on a healthy channel hands the text to the channel. -/
theorem Conn.SendString_ok (c : Conn) (s : Bytes) (h : Sends c) :
    Sends (c.SendString s).2 ∧ sent (c.SendString s).2 = sent c ++ s := by
  obtain ⟨a1, a2, a3, a4⟩ := Conn.armWrite_sends c h
  obtain ⟨hsz, hw, hopen, hwe⟩ := a1
  obtain ⟨j1, j2, j3, j4, j5, j6⟩ := Writer.WriteStringAux_ok (s.length + 1) s c.armWrite.bw
    c.armWrite.conn hsz hw hopen hwe (by split <;> omega) (by omega)
  have hv : c.SendString s = (none, { c.armWrite with
      bw := (c.armWrite.bw.WriteString s c.armWrite.conn).2.1,
      conn := (c.armWrite.bw.WriteString s c.armWrite.conn).2.2 }) := by
    simp only [Conn.SendString, Writer.WriteString, j1]
  rw [hv]
  refine ⟨⟨by simpa [Writer.WriteString, j2] using hsz, j3, j4, j5⟩, ?_⟩
  simp only [sent, Writer.WriteString]
  rw [j6, a3, a4]

/-- Method `SendFile` on a healthy channel hands the bytes to the channel. -/
theorem Conn.SendFile_ok (c : Conn) (s : Bytes) (h : Sends c) :
    Sends (c.SendFile s).2 ∧ sent (c.SendFile s).2 = sent c ++ s := by
  obtain ⟨a1, a2, a3, a4⟩ := Conn.armWrite_sends c h
  obtain ⟨hsz, hw, hopen, hwe⟩ := a1
  obtain ⟨j1, j2, j3, j4, j5, j6⟩ := Writer.WriteAux_ok (s.length + 1) s c.armWrite.bw
    c.armWrite.conn hsz hw hopen hwe (by split <;> omega) (by omega)
  have hv : c.SendFile s = (none, { c.armWrite with
      bw := (c.armWrite.bw.Write s c.armWrite.conn).2.1,
      conn := (c.armWrite.bw.Write s c.armWrite.conn).2.2 }) := by
    simp only [Conn.SendFile, Writer.Write, j1]
  rw [hv]
  refine ⟨⟨by simpa [Writer.Write, j2] using hsz, j3, j4, j5⟩, ?_⟩
  simp only [sent, Writer.Write]
  rw [j6, a3, a4]

/-- Method `Flush` on a healthy channel delivers what was handed to it. -/
theorem Conn.Flush_delivers (c : Conn) (h : Sends c) :
    Sends (c.Flush).2 ∧ (c.Flush).2.conn.outgoing = sent c ∧ (c.Flush).2.bw.buf = [] := by
  obtain ⟨a1, a2, a3, a4⟩ := Conn.armWrite_sends c h
  obtain ⟨hsz, hw, hopen, hwe⟩ := a1
  obtain ⟨f1, f2, f3, f4, f5⟩ := Writer.Flush_ok c.armWrite.bw c.armWrite.conn hw hopen hwe
  have hv : c.Flush = (none, { c.armWrite with
      bw := (c.armWrite.bw.Flush c.armWrite.conn).2.1,
      conn := (c.armWrite.bw.Flush c.armWrite.conn).2.2 }) := by
    simp only [Conn.Flush, f1]
  rw [hv]
  refine ⟨⟨by simpa [f2] using hsz, by simp [f2, hw], f4, f5⟩, ?_, by simp [f2]⟩
  simp only [sent]
  rw [f3, a3, a4]

/-! ## The `open` frame -/

/-- The sends of `sendFile` on a healthy channel: the frame reaches the peer
after everything handed to the channel before, and nothing stays buffered. -/
theorem sendOpen_ok (host : Host) (path : Bytes) (size : Nat) (content : Bytes) (c : Conn)
    (h : Sends c) :
    (sendOpen host path size content c).conn.outgoing
      = sent c ++ openFrame (displayNameOf host path) (realPathOf host path) (tokenOf host path)
          size content ∧
    (sendOpen host path size content c).bw.buf = [] := by
  have s1 := Conn.SendString_ok c (B "open\n") h
  have s2 := Conn.SendString_ok _ (B "display-name: " ++ displayNameOf host path ++ B "\n") s1.1
  have s3 := Conn.SendString_ok _ (B "real-path: " ++ realPathOf host path ++ B "\n") s2.1
  have s4 := Conn.SendString_ok _ (B "data-on-save: yes\n") s3.1
  have s5 := Conn.SendString_ok _ (B "re-activate: yes\n") s4.1
  have s6 := Conn.SendString_ok _ (B "selection: 0\n") s5.1
  have s7 := Conn.SendString_ok _ (B "token: " ++ tokenOf host path ++ B "\n") s6.1
  have s8 := Conn.SendString_ok _ (B "data: " ++ FormatInt size ++ B "\n") s7.1
  have s9 := Conn.SendFile_ok _ content s8.1
  have s10 := Conn.SendString_ok _ (B "\n.\n") s9.1
  have fl := Conn.Flush_delivers _ s10.1
  refine ⟨?_, fl.2.2⟩
  have := fl.2.1
  rw [s10.2, s9.2, s8.2, s7.2, s6.2, s5.2, s4.2, s3.2, s2.2, s1.2] at this
  rw [openFrame]
  simp only [List.append_assoc] at this ⊢
  exact this

theorem contentOf_none (fs : FS) (p : Bytes) (h : fs.files p = none) : contentOf fs p = [] := by
  simp [contentOf, h]

theorem contentOf_some (fs : FS) (p : Bytes) (f : File) (h : fs.files p = some f) :
    contentOf fs p = f.data := by
  simp [contentOf, h]

/-- Function `sendFile` on a healthy channel, when no call of the file
system fails and the path holds a regular file or no file: nil is returned and
the peer receives the frame with the size `os.Stat` reported (0 for a new
file) and the contents read from the file. -/
theorem sendFile_sent (host : Host) (c : Conn) (p : Bytes) (hashes : Registry) (fs : FS)
    (hc : Sends c) (hfaults : fs.faults = Faults.none)
    (hreg : ∀ f, fs.files p = some f → f.isDir = false) :
    (sendFile host c p hashes fs).ret = .nil ∧
      (sendFile host c p hashes fs).c.conn.outgoing
        = sent c ++ openFrame (displayNameOf host p) (realPathOf host p) (tokenOf host p)
            (match fs.Stat p with
              | .ok fi => fi.size
              | .error _ => 0) (contentOf fs p) ∧
      (sendFile host c p hashes fs).c.bw.buf = [] := by
  have hf1 : fs.faults.stat = none := by rw [hfaults]; rfl
  have hf2 : fs.faults.openFile = none := by rw [hfaults]; rfl
  have hf3 : fs.faults.create = none := by rw [hfaults]; rfl
  cases hfile : fs.files p with
  | some f =>
    have hnd := hreg f hfile
    have hst : fs.Stat p
        = .ok { isDir := f.isDir, perm := f.perm,
                size := (fs.statSize p).getD f.data.length } := by
      simp only [FS.Stat, hf1, hfile]
    have hv : sendFile host c p hashes fs =
        { ret := .nil, c := sendOpen host p ((fs.statSize p).getD f.data.length) f.data c,
          hashes := hashes.set (tokenOf host p) p, fs := fs } := by
      simp only [sendFile, hst, hnd, FS.Open, hf2, hfile, Bool.false_eq_true, if_false]
    obtain ⟨k1, k2⟩ := sendOpen_ok host p ((fs.statSize p).getD f.data.length) f.data c hc
    have hcc := congrArg Outcome.c hv
    have hret := congrArg Outcome.ret hv
    dsimp only at hcc hret
    rw [hcc, contentOf_some fs p f hfile, hst]
    exact ⟨hret, k1, k2⟩
  | none =>
    have hst : fs.Stat p = .error (.sys "no such file or directory") := by
      simp only [FS.Stat, hf1, hfile]
    have hv : sendFile host c p hashes fs =
        { ret := .nil, c := sendOpen host p 0 [] c,
          hashes := hashes.set (tokenOf host p) p,
          fs := fs.put p (some { isDir := false, perm := fs.createPerm, data := [] }) } := by
      simp only [sendFile, hst, FS.Create, hf3, hfile]
    have k := sendOpen_ok host p 0 [] c hc
    have hcc := congrArg Outcome.c hv
    have hret := congrArg Outcome.ret hv
    dsimp only at hcc hret
    rw [hcc, contentOf_none fs p hfile, hst]
    exact ⟨hret, k.1, k.2⟩

/-- C4 (amended): on a healthy channel and with no injected failure, for a
path `p` that holds a regular file with contents `b` whose size `os.Stat`
reports as the length of `b`, or no file (then `b` is empty), `sendFile`
returns nil and the peer receives, after whatever was handed to the channel
before, exactly the lines `open`, `display-name`, `real-path` with what
`filepath.Abs` returned for `p` (the empty text when it failed),
`data-on-save: yes`, `re-activate: yes`, `selection: 0`, `token` with the
hexadecimal MD5 digest of that real path, `data` with the decimal length of
`b`, then `b`, then the terminator, and nothing stays buffered; the name is
`hostname:base(p)` when the hostname is available and `base(p)` otherwise, and
the declared length reads back as the number of content bytes. -/
theorem sendFile_open_frame (host : Host) (c : Conn) (p : Bytes) (hashes : Registry) (fs : FS)
    (hc : Sends c) (hfaults : fs.faults = Faults.none)
    (hreg : ∀ f, fs.files p = some f → f.isDir = false)
    (hsize : ∀ fi, fs.Stat p = .ok fi → fi.size = (contentOf fs p).length) :
    (sendFile host c p hashes fs).ret = .nil ∧
      (sendFile host c p hashes fs).c.conn.outgoing
        = c.conn.outgoing ++ c.bw.buf ++
          (B "open\n"
            ++ (B "display-name: " ++
                (match host.Hostname with
                  | .ok h => h ++ B ":" ++ Base p
                  | .error _ => Base p) ++ B "\n")
            ++ (B "real-path: " ++ (host.Abs p).toOption.getD [] ++ B "\n")
            ++ B "data-on-save: yes\n" ++ B "re-activate: yes\n" ++ B "selection: 0\n"
            ++ (B "token: " ++ hexString (host.md5Sum ((host.Abs p).toOption.getD [])) ++ B "\n")
            ++ (B "data: " ++ FormatInt (contentOf fs p).length ++ B "\n")
            ++ contentOf fs p ++ B "\n.\n") ∧
      (sendFile host c p hashes fs).c.bw.buf = [] ∧
      ((contentOf fs p).length < 9223372036854775808 →
        ParseInt (FormatInt (contentOf fs p).length) = .ok ((contentOf fs p).length : Int)) := by
  have hreal : realPathOf host p = (host.Abs p).toOption.getD [] := by
    unfold realPathOf
    cases host.Abs p <;> rfl
  have htok : tokenOf host p = hexString (host.md5Sum ((host.Abs p).toOption.getD [])) := by
    rw [tokenOf, hreal]
  obtain ⟨k1, k2, k3⟩ := sendFile_sent host c p hashes fs hc hfaults hreg
  have hsz : (match fs.Stat p with
      | .ok fi => fi.size
      | .error _ => 0) = (contentOf fs p).length := by
    cases hst : fs.Stat p with
    | ok fi => exact hsize fi hst
    | error e =>
      have hf1 : fs.faults.stat = none := by rw [hfaults]; rfl
      cases hfile : fs.files p with
      | some f => simp [FS.Stat, hf1, hfile] at hst
      | none => simp [contentOf, hfile]
  have hname : displayNameOf host p
      = (match host.Hostname with
          | .ok h => h ++ B ":" ++ Base p
          | .error _ => Base p) := rfl
  refine ⟨k1, ?_, k3, ParseInt_FormatInt _⟩
  rw [k2, hsz, hreal, htok, hname, openFrame, sent]

/-- Witness for C4: the frame for `/tmp/a.txt` on the host `box`. -/
theorem sendFile_open_frame_witness :
    (sendFile exHost (NewConn (exNet [])) (B "/tmp/a.txt") ⟨[]⟩ exFS).c.conn.outgoing
      = B "open\ndisplay-name: box:a.txt\nreal-path: /tmp/a.txt\ndata-on-save: yes\n"
        ++ B "re-activate: yes\nselection: 0\ntoken: 5075d607c55146298a1b78a69db84941\n"
        ++ B "data: 11\nhello\nworld\n.\n" :=
  ((sendFile_open_frame exHost (NewConn (exNet [])) (B "/tmp/a.txt") ⟨[]⟩ exFS
      ⟨by decide, rfl, rfl, rfl⟩ rfl
      (fun f hf => by
        have hx : exFS.files (B "/tmp/a.txt") = some ⟨false, 0o644, B "hello\nworld"⟩ := by decide
        rw [hx] at hf
        cases hf
        rfl)
      (fun fi hfi => by
        have hx : exFS.Stat (B "/tmp/a.txt") = .ok ⟨false, 0o644, 11⟩ := by decide
        rw [hx] at hfi
        cases hfi
        decide)).2.1).trans (by decide)

set_option maxRecDepth 8000 in
/-- Counterexample for C4: `/proc/version` is a regular file of which
`os.Stat` reports the size 0 and a read returns six bytes.  On a healthy
channel `sendFile` returns nil and the peer receives the line `data: 0`
followed by the six bytes: the declared length is not the number of content
bytes sent. -/
theorem sendFile_open_frame_stat_size :
    (exProcFS.files (B "/proc/version")).map File.isDir = some false ∧
      contentOf exProcFS (B "/proc/version") = B "Linux\n" ∧
      (sendFile exHost (NewConn (exNet [])) (B "/proc/version") ⟨[]⟩ exProcFS).ret = .nil ∧
      (sendFile exHost (NewConn (exNet [])) (B "/proc/version") ⟨[]⟩ exProcFS).c.conn.outgoing
        = B "open\ndisplay-name: box:version\nreal-path: /proc/version\ndata-on-save: yes\n"
          ++ B "re-activate: yes\nselection: 0\ntoken: 76346a586b8f00038ceb2b977da26ff2\n"
          ++ B "data: 0\nLinux\n\n.\n" ∧
      (sendFile exHost (NewConn (exNet [])) (B "/proc/version") ⟨[]⟩ exProcFS).c.conn.outgoing
        ≠ B "open\ndisplay-name: box:version\nreal-path: /proc/version\ndata-on-save: yes\n"
          ++ B "re-activate: yes\nselection: 0\ntoken: 76346a586b8f00038ceb2b977da26ff2\n"
          ++ B "data: 6\nLinux\n\n.\n" := by
  decide

/-! ## The terminator check of `readLine` -/

theorem cutLine_some {d : UInt8} : ∀ (s line rest : Bytes), cutLine d s = some (line, rest) →
    ∃ l, line = l ++ [d]
  | [], line, rest, h => by simp [cutLine] at h
  | b :: bs, line, rest, h => by
    by_cases hb : b = d
    · simp only [cutLine, if_pos hb, Option.some.injEq, Prod.mk.injEq] at h
      exact ⟨[], by rw [← h.1, hb]; rfl⟩
    · simp only [cutLine, if_neg hb] at h
      cases hc : cutLine d bs with
      | none => simp [hc] at h
      | some lr =>
        obtain ⟨l1, r1⟩ := lr
        simp only [hc, Option.some.injEq, Prod.mk.injEq] at h
        obtain ⟨l, hl⟩ := cutLine_some bs l1 r1 hc
        exact ⟨b :: l, by rw [← h.1, hl]; rfl⟩

theorem NetConn.Read_err (n : NetConn) (k : Nat) (e : GoError)
    (h : (n.Read k).1.2 = some e) : e.isProtocol = false := by
  unfold NetConn.Read at h
  split at h
  · simp only [Option.some.injEq] at h; rw [← h]; rfl
  · split at h
    · simp only [Option.some.injEq] at h
      rw [← h]
      cases n.ending <;> rfl
    · split at h <;> simp at h

/-- What `ReadSlice` returns with a nil error ends with the delimiter, and the
errors it returns are no protocol errors. -/
theorem ReadSliceAux_sound : ∀ (fuel : Nat) (r : Reader) (n : NetConn),
    (∀ e, r.err = some e → e.isProtocol = false) →
    (∀ e, (Reader.ReadSliceAux 10 fuel r n).2.1.err = some e → e.isProtocol = false) ∧
    ((Reader.ReadSliceAux 10 fuel r n).1.2 = none →
      ∃ l, (Reader.ReadSliceAux 10 fuel r n).1.1 = l ++ [10]) ∧
    (∀ e, (Reader.ReadSliceAux 10 fuel r n).1.2 = some e → e.isProtocol = false) := by
  intro fuel
  induction fuel with
  | zero =>
    intro r n hr
    refine ⟨hr, fun h => by simp [Reader.ReadSliceAux] at h, fun e h => ?_⟩
    simp only [Reader.ReadSliceAux, Option.some.injEq] at h
    rw [← h]; rfl
  | succ fuel ih =>
    intro r n hr
    cases hc : cutLine 10 r.buf with
    | some lr =>
      obtain ⟨line, rest⟩ := lr
      have hv : Reader.ReadSliceAux 10 (fuel + 1) r n = ((line, none), { r with buf := rest }, n) := by
        simp only [Reader.ReadSliceAux, hc]
      rw [hv]
      exact ⟨hr, fun _ => cutLine_some _ _ _ hc, fun e h => by simp at h⟩
    | none =>
      cases he : r.err with
      | some e0 =>
        have hv : Reader.ReadSliceAux 10 (fuel + 1) r n
            = ((r.buf, some e0), { r with buf := [], err := none }, n) := by
          simp only [Reader.ReadSliceAux, hc, he]
        rw [hv]
        refine ⟨fun e h => by simp at h, fun h => by simp at h, fun e h => ?_⟩
        simp only [Option.some.injEq] at h
        rw [← h]; exact hr e0 he
      | none =>
        by_cases hfull : r.size ≤ r.buf.length
        · have hv : Reader.ReadSliceAux 10 (fuel + 1) r n
              = ((r.buf, some .ErrBufferFull), { r with buf := [] }, n) := by
            simp only [Reader.ReadSliceAux, hc, he, hfull, if_true]
          rw [hv]
          refine ⟨hr, fun h => by simp at h, fun e h => ?_⟩
          simp only [Option.some.injEq] at h
          rw [← h]; rfl
        · have hv : Reader.ReadSliceAux 10 (fuel + 1) r n
              = Reader.ReadSliceAux 10 fuel (r.fill n).1 (r.fill n).2 := by
            simp only [Reader.ReadSliceAux, hc, he, hfull, if_false]
          rw [hv]
          exact ih _ _ (fun e h => NetConn.Read_err n _ e h)

theorem readLineGrow_sound : ∀ (fuel : Nat) (acc : Bytes) (r : Reader) (n : NetConn),
    (∀ e, r.err = some e → e.isProtocol = false) →
    ((readLineGrow fuel acc r n).1.2 = none → ∃ l, (readLineGrow fuel acc r n).1.1 = l ++ [10]) ∧
    (∀ e, (readLineGrow fuel acc r n).1.2 = some e → e.isProtocol = false) := by
  intro fuel
  induction fuel with
  | zero =>
    intro acc r n _
    refine ⟨fun h => by simp [readLineGrow] at h, fun e h => ?_⟩
    simp only [readLineGrow, Option.some.injEq] at h
    rw [← h]; rfl
  | succ fuel ih =>
    intro acc r n hr
    obtain ⟨k1, k2, k3⟩ := ReadSliceAux_sound (r.size + 2) r n hr
    by_cases hfull : (r.ReadSlice 10 n).1.2 = some GoError.ErrBufferFull
    · have hv : readLineGrow (fuel + 1) acc r n
          = readLineGrow fuel (acc ++ (r.ReadSlice 10 n).1.1) (r.ReadSlice 10 n).2.1
              (r.ReadSlice 10 n).2.2 := by
        simp only [readLineGrow, if_pos hfull]
      rw [hv]
      exact ih _ _ _ k1
    · have hv : readLineGrow (fuel + 1) acc r n
          = ((acc ++ (r.ReadSlice 10 n).1.1, (r.ReadSlice 10 n).1.2),
              (r.ReadSlice 10 n).2.1, (r.ReadSlice 10 n).2.2) := by
        simp only [readLineGrow, if_neg hfull]
      rw [hv]
      refine ⟨fun h => ?_, fun e h => k3 e h⟩
      obtain ⟨l, hl⟩ := k2 h
      exact ⟨acc ++ l, by simp only [Reader.ReadSlice] at hl ⊢; rw [hl, List.append_assoc]⟩

/-- The terminator check of `readLine` never fails: whatever the stream, a
reader with no pending error never makes `readLine` return a protocol
error. -/
theorem readLine_never_protocolError (r : Reader) (n : NetConn) (herr : r.err = none)
    (msg : String) : (readLine r n).1 ≠ .error (.protocolError msg) := by
  have hr : ∀ e, r.err = some e → e.isProtocol = false := by
    intro e h; rw [herr] at h; exact Option.noConfusion h
  obtain ⟨k1, k2, k3⟩ := ReadSliceAux_sound (r.size + 2) r n hr
  have key : ∀ (res : (Bytes × Option GoError) × Reader × NetConn),
      (res.1.2 = none → ∃ l, res.1.1 = l ++ [10]) →
      (∀ e, res.1.2 = some e → e.isProtocol = false) →
      (match res.1.2 with
        | some e => ((Except.error e : Except GoError Bytes), res.2)
        | none =>
          if res.1.1.length = 0 ∨ res.1.1.getLast? ≠ some 10 then
            (.error (.protocolError "bad response line terminator"), res.2)
          else (.ok res.1.1.dropLast, res.2)).1 ≠ .error (.protocolError msg) := by
    intro res h1 h2
    cases he : res.1.2 with
    | some e =>
      intro h
      simp only [Except.error.injEq] at h
      have := h2 e he
      rw [h] at this
      simp [GoError.isProtocol] at this
    | none =>
      obtain ⟨l, hl⟩ := h1 he
      simp [hl]
  unfold readLine
  by_cases hfull : (r.ReadSlice 10 n).1.2 = some GoError.ErrBufferFull
  · simp only [if_pos hfull]
    obtain ⟨j1, j2⟩ := readLineGrow_sound
      (pending (r.ReadSlice 10 n).2.1 (r.ReadSlice 10 n).2.2 + 1) (r.ReadSlice 10 n).1.1
      (r.ReadSlice 10 n).2.1 (r.ReadSlice 10 n).2.2 k1
    exact key _ j1 j2
  · simp only [if_neg hfull]
    exact key _ k2 k3

/-! ## The latch and later operations -/

theorem Latched.send (e x : GoError) (c : Conn) (h : Latched e x c) (op : ChanOp)
    (hop : op.isSend = true) : op.run c = (some e, c) := by
  obtain ⟨hbw, hx, hwt⟩ := h
  have harm : c.armWrite = c := by simp [Conn.armWrite, hwt]
  have hfat : c.fatal e = (e, c) := by simp only [Conn.fatal, hx]
  have hfl : c.bw.Flush c.conn = (some e, c.bw, c.conn) := by simp only [Writer.Flush, hbw]
  cases op with
  | sendString d =>
    simp only [ChanOp.run, Conn.SendString, harm, Writer.WriteString,
      Writer.WriteStringAux_err _ _ _ _ _ hbw, hfat]
  | sendBytes d =>
    simp only [ChanOp.run, Conn.SendBytes, harm, Writer.Write, Writer.WriteAux_err _ _ _ _ _ hbw,
      hfat]
  | sendFile d =>
    simp only [ChanOp.run, Conn.SendFile, harm, Writer.Write, Writer.WriteAux_err _ _ _ _ _ hbw,
      hfat]
  | flush => simp only [ChanOp.run, Conn.Flush, harm, hfl, hfat]
  | receive => simp [ChanOp.isSend] at hop

theorem Latched.receive (e x : GoError) (c : Conn) (h : Latched e x c) :
    Latched e x (c.Receive).2 := by
  obtain ⟨hbw, hx, hwt⟩ := h
  simp only [Conn.Receive, Conn.ReceiveWithTimeout]
  split
  · simp only [Conn.fatal, hx]
    exact ⟨hbw, rfl, hwt⟩
  · exact ⟨hbw, hx, hwt⟩

theorem Latched.runOps (e x : GoError) : ∀ (ops : List ChanOp) (c : Conn), Latched e x c →
    Latched e x (runOps ops c)
  | [], _, h => h
  | op :: ops, c, h => by
    rw [Rsubl.runOps]
    apply Latched.runOps e x ops
    cases hop : op.isSend with
    | true => rw [Latched.send e x c h op hop]; exact h
    | false =>
      cases op with
      | receive =>
        have := Latched.receive e x c h
        simp only [ChanOp.run]
        split <;> simp_all
      | sendString d => simp [ChanOp.isSend] at hop
      | sendBytes d => simp [ChanOp.isSend] at hop
      | sendFile d => simp [ChanOp.isSend] at hop
      | flush => simp [ChanOp.isSend] at hop

theorem Latched.of_flush (c0 : Conn) (e : GoError) (hwt : c0.writeTimeout = 0)
    (hf : (c0.Flush).1 = some e) :
    ∃ x, Latched e x (c0.Flush).2 ∧ (c0.err = none → x = e) := by
  have harm : c0.armWrite = c0 := by simp [Conn.armWrite, hwt]
  cases hres : (c0.bw.Flush c0.conn).1 with
  | none => simp [Conn.Flush, harm, hres] at hf
  | some e1 =>
    have he : e1 = e := by
      simp only [Conn.Flush, harm, hres, Conn.fatal] at hf
      split at hf <;> simpa using hf
    subst he
    have hbw := Writer.Flush_err c0.bw c0.conn e1 hres
    cases hx : c0.err with
    | some x =>
      refine ⟨x, ?_, fun h => by simp at h⟩
      simp only [Conn.Flush, harm, hres, Conn.fatal, hx]
      exact ⟨hbw, rfl, hwt⟩
    | none =>
      refine ⟨e1, ?_, fun _ => rfl⟩
      simp only [Conn.Flush, harm, hres, Conn.fatal, hx]
      exact ⟨hbw, rfl, hwt⟩

/-- C5 (amended): on a channel with no write timeout (as `NewConn` builds
it) on which `Flush` has failed with error `e`, after any sequence of further
operations, every `SendString`, `SendBytes`, `SendFile` and `Flush` returns
that same `e` and leaves the channel as it is, the record of calls on the
underlying stream included; and `Err()` keeps returning the stored error,
which is `e` when none was stored before the flush. -/
theorem latched_error_on_sends (c0 : Conn) (e : GoError) (ops : List ChanOp) (op : ChanOp)
    (hwt : c0.writeTimeout = 0) (hf : (c0.Flush).1 = some e) (hop : op.isSend = true) :
    op.run (runOps ops (c0.Flush).2) = (some e, runOps ops (c0.Flush).2) ∧
      (runOps ops (c0.Flush).2).Err = (c0.Flush).2.Err ∧
      (c0.Flush).2.Err ≠ none ∧
      (c0.err = none → (runOps ops (c0.Flush).2).Err = some e) := by
  obtain ⟨x, hl, hx⟩ := Latched.of_flush c0 e hwt hf
  have hl2 := Latched.runOps e x ops _ hl
  refine ⟨Latched.send e x _ hl2 op hop, ?_, ?_, ?_⟩
  · rw [Conn.Err, Conn.Err, hl2.2.1, hl.2.1]
  · rw [Conn.Err, hl.2.1]; simp
  · intro h0
    rw [Conn.Err, hl2.2.1, hx h0]

/-- Witness for C5: the flush of one buffered byte fails with a broken pipe;
after a `Receive` and a `SendBytes`, a `SendString` fails with the broken
pipe too, without a call on the stream. -/
theorem latched_error_on_sends_witness :
    (ChanOp.sendString (B "open\n")).run
        (runOps [.receive, .sendBytes (B "x")] (exBrokenConn.Flush).2)
      = (some (.sys "broken pipe"), runOps [.receive, .sendBytes (B "x")] (exBrokenConn.Flush).2) :=
  (latched_error_on_sends exBrokenConn (.sys "broken pipe") [.receive, .sendBytes (B "x")]
    (.sendString (B "open\n")) rfl (by decide) rfl).1

/-! ## Claims about `sendFile` and the registry -/

theorem Registry.set_set (h : Registry) (t p : Bytes) : (h.set t p).set t p = h.set t p := by
  obtain ⟨es⟩ := h
  simp only [Registry.set, Registry.mk.injEq, List.cons.injEq, true_and]
  rw [List.filter_cons_of_neg (by simp), List.filter_filter]
  simp

theorem Registry.get_set_self (h : Registry) (t p : Bytes) : (h.set t p).get t = some p := by
  simp [Registry.get, Registry.set]

theorem FS.Create_fail (fs : FS) (p : Bytes) (e : GoError) (h : (fs.Create p).1 = some e) :
    (fs.Create p).2 = fs := by
  unfold FS.Create at h ⊢
  cases hf : fs.faults.create with
  | some m => simp only [hf]
  | none =>
    simp only [hf] at h ⊢
    cases hp : fs.files p with
    | none => simp [hp] at h
    | some f =>
      simp only [hp] at h ⊢
      by_cases hd : f.isDir = true
      · simp [hd]
      · simp [hd] at h

/-- Function `sendFile` either returns nil and registers the path under its
token, or returns an error and leaves channel, registry and file system as
they were. -/
theorem sendFile_cases (host : Host) (c : Conn) (p : Bytes) (hashes : Registry) (fs : FS) :
    ((sendFile host c p hashes fs).ret = .nil ∧
        (sendFile host c p hashes fs).hashes = hashes.set (tokenOf host p) p) ∨
      ((∃ e, (sendFile host c p hashes fs).ret = .err e) ∧
        (sendFile host c p hashes fs).hashes = hashes ∧ (sendFile host c p hashes fs).c = c ∧
        (sendFile host c p hashes fs).fs = fs) := by
  unfold sendFile
  cases hst : fs.Stat p with
  | ok fInfo =>
    by_cases hd : fInfo.isDir = true
    · dsimp only
      rw [if_pos hd]
      exact Or.inr ⟨⟨_, rfl⟩, rfl, rfl, rfl⟩
    · dsimp only
      rw [if_neg hd]
      cases hop : fs.Open p with
      | error e => exact Or.inr ⟨⟨_, rfl⟩, rfl, rfl, rfl⟩
      | ok content => exact Or.inl ⟨rfl, rfl⟩
  | error e0 =>
    have hcf := FS.Create_fail fs p
    generalize fs.Create p = cr at hcf
    obtain ⟨r, fs1⟩ := cr
    cases r with
    | some e => exact Or.inr ⟨⟨_, rfl⟩, rfl, rfl, hcf e rfl⟩
    | none => exact Or.inl ⟨rfl, rfl⟩

/-- C11: a line whose trimmed text is neither `close` nor `save` makes
`processRecv` return nil and leave the channel (so nothing is read or
written), the registry and the file system exactly as they were; and a line
that is `close` or `save` after trimming is handled exactly like the bare
command, as the lines ` close\r` and `\tsave \r\n` are. -/
theorem unknown_command_ignored (c : Conn) (line : Bytes) (hashes : Registry) (fs : FS) :
    (TrimSpace line ≠ B "close" → TrimSpace line ≠ B "save" →
        processRecv c line hashes fs = { ret := .nil, c := c, hashes := hashes, fs := fs }) ∧
      (TrimSpace line = B "close" →
        processRecv c line hashes fs = processRecv c (B "close") hashes fs) ∧
      (TrimSpace line = B "save" →
        processRecv c line hashes fs = processRecv c (B "save") hashes fs) ∧
      TrimSpace (B " close\r") = B "close" ∧ TrimSpace (B "\tsave \r\n") = B "save" := by
  have e1 : TrimSpace (B "close") = B "close" := by decide
  have e2 : TrimSpace (B "save") = B "save" := by decide
  refine ⟨?_, ?_, ?_, by decide, by decide⟩
  · intro h1 h2
    unfold processRecv
    simp only [h1, h2, if_false]
  · intro h
    unfold processRecv
    simp only [h, e1]
  · intro h
    unfold processRecv
    simp only [h, e2]

/-- Witness for C11: the line `open` is ignored, and ` close\r` on a stream
that holds `token: ab` removes the session of `ab` as `close` does. -/
theorem unknown_command_ignored_witness :
    processRecv (NewConn (exNet [B "token: ab\n"])) (B "open") ⟨[(B "ab", B "/tmp/a.txt")]⟩ exFS
        = { ret := .nil, c := NewConn (exNet [B "token: ab\n"]),
            hashes := ⟨[(B "ab", B "/tmp/a.txt")]⟩, fs := exFS } ∧
      (processRecv (NewConn (exNet [B "token: ab\n"])) (B " close\r")
        ⟨[(B "ab", B "/tmp/a.txt")]⟩ exFS).hashes = ⟨[]⟩ :=
  ⟨(unknown_command_ignored (NewConn (exNet [B "token: ab\n"])) (B "open")
      ⟨[(B "ab", B "/tmp/a.txt")]⟩ exFS).1 (by decide) (by decide),
    ((congrArg Outcome.hashes
      ((unknown_command_ignored (NewConn (exNet [B "token: ab\n"])) (B " close\r")
        ⟨[(B "ab", B "/tmp/a.txt")]⟩ exFS).2.1 (by decide))).trans (by decide))⟩

theorem saveBody_hashes (token : Bytes) (size : Int) (c : Conn) (hashes : Registry) (fs : FS) :
    (saveBody token size c hashes fs).hashes = hashes := by
  unfold saveBody
  generalize fs.TempFile = tf
  obtain ⟨t1, fs1⟩ := tf
  cases t1 with
  | error e => rfl
  | ok fName =>
    dsimp only
    generalize (CopyN size c.GetReader.1 c.GetReader.2) = cp
    cases hcp : cp.1.2 with
    | some e => rfl
    | none =>
      cases hg : hashes.get token with
      | none => rfl
      | some file =>
        dsimp only
        generalize (fs1.writeFile fName cp.1.1) = fs2
        cases hs : fs2.Stat file with
        | error e => rfl
        | ok fi =>
          dsimp only
          generalize fs2.Rename fName file = rn
          obtain ⟨r, fs3⟩ := rn
          cases r <;> rfl

/-- C12: whatever the stream holds and however the command ends (bad size,
short payload, unknown token, failure of stat or rename, a panic, or
success), `processRecv` on `save` leaves the registry exactly as it was, so
every session, the one of the saved token included, is still present. -/
theorem save_keeps_registry (c : Conn) (line : Bytes) (hashes : Registry) (fs : FS)
    (hcmd : TrimSpace line = B "save") :
    (processRecv c line hashes fs).hashes = hashes ∧
      ∀ t, (processRecv c line hashes fs).hashes.get t = hashes.get t := by
  have h : (processRecv c line hashes fs).hashes = hashes := by
    rw [processRecv_save c line hashes fs hcmd]
    generalize saveHeader (pending c.br c.conn + 1) [] c = sh
    obtain ⟨s1, c1⟩ := sh
    cases s1 with
    | stop ret => rfl
    | done token size => exact saveBody_hashes token size c1 hashes fs
  exact ⟨h, fun t => by rw [h]⟩

/-- Witness for C12: a save that ends with a size error, and one that ends
with a short payload, keep the session of `ab`. -/
theorem save_keeps_registry_witness :
    (processRecv (NewConn (exNet [B "token: ab\ndata: five\n"])) (B "save")
        ⟨[(B "ab", B "/tmp/a.txt")]⟩ exFS).hashes = ⟨[(B "ab", B "/tmp/a.txt")]⟩ ∧
      (processRecv (NewConn (exNet [B "token: ab\ndata: 5\nhow"])) (B "save")
        ⟨[(B "ab", B "/tmp/a.txt")]⟩ exFS).ret = .err .EOF ∧
      (processRecv (NewConn (exNet [B "token: ab\ndata: 5\nhow"])) (B "save")
        ⟨[(B "ab", B "/tmp/a.txt")]⟩ exFS).hashes = ⟨[(B "ab", B "/tmp/a.txt")]⟩ :=
  ⟨(save_keeps_registry (NewConn (exNet [B "token: ab\ndata: five\n"])) (B "save")
      ⟨[(B "ab", B "/tmp/a.txt")]⟩ exFS (by decide)).1,
    by decide,
    (save_keeps_registry (NewConn (exNet [B "token: ab\ndata: 5\nhow"])) (B "save")
      ⟨[(B "ab", B "/tmp/a.txt")]⟩ exFS (by decide)).1⟩

/-- C20: for a path that names a directory, `sendFile` returns the error
`only file can be edit` and leaves the channel (so no byte is written), the
file system (so no file is created) and the registry exactly as they
were. -/
theorem sendFile_directory (host : Host) (c : Conn) (p : Bytes) (hashes : Registry) (fs : FS)
    (f : File) (hstat : fs.faults.stat = none) (hfile : fs.files p = some f)
    (hdir : f.isDir = true) :
    sendFile host c p hashes fs
      = { ret := .err (.new (B "only file can be edit")), c := c, hashes := hashes, fs := fs } := by
  simp only [sendFile, FS.Stat, hstat, hfile, hdir, if_true]

/-- Witness for C20: `sendFile` on the directory `/tmp`. -/
theorem sendFile_directory_witness :
    sendFile exHost (NewConn (exNet [])) (B "/tmp") exHashes exDirFS
      = { ret := .err (.new (B "only file can be edit")), c := NewConn (exNet []),
          hashes := exHashes, fs := exDirFS } :=
  sendFile_directory exHost (NewConn (exNet [])) (B "/tmp") exHashes exDirFS ⟨true, 0o755, []⟩
    rfl (by decide) rfl

theorem Registry.set_keys (h : Registry) (t p : Bytes)
    (hn : (h.entries.map Prod.fst).Nodup) : ((h.set t p).entries.map Prod.fst).Nodup := by
  simp only [Registry.set, List.map_cons, List.nodup_cons]
  refine ⟨?_, ?_⟩
  · intro hm
    obtain ⟨e, he, het⟩ := List.mem_map.mp hm
    have := (List.mem_filter.mp he).2
    simp [het] at this
  · exact hn.sublist ((List.filter_sublist _).map _)

/-- C14: two `sendFile` calls on the same path `p` leave the registry as
the first call left it.  Each of the two calls that returns nil stores `p`
under the same key, the hexadecimal MD5 digest of what `filepath.Abs` returned
for `p` (of the empty text when it failed); every entry of the registry after
a call is an entry it had before or the pair of that key and `p`; and
`sendFile` keeps the registry a map whose every entry has the digest of the
absolute path of the path it stores as its key and in which no key occurs
twice, so no token is mapped to two files. -/
theorem sendFile_idempotent (host : Host) (c : Conn) (p : Bytes) (hashes : Registry) (fs : FS) :
    (sendFile host (sendFile host c p hashes fs).c p (sendFile host c p hashes fs).hashes
        (sendFile host c p hashes fs).fs).hashes = (sendFile host c p hashes fs).hashes ∧
      ((sendFile host c p hashes fs).ret = .nil →
        (sendFile host c p hashes fs).hashes
          = hashes.set (hexString (host.md5Sum ((host.Abs p).toOption.getD []))) p ∧
        (sendFile host c p hashes fs).hashes.get
          (hexString (host.md5Sum ((host.Abs p).toOption.getD []))) = some p) ∧
      ((sendFile host (sendFile host c p hashes fs).c p (sendFile host c p hashes fs).hashes
          (sendFile host c p hashes fs).fs).ret = .nil →
        (sendFile host (sendFile host c p hashes fs).c p (sendFile host c p hashes fs).hashes
          (sendFile host c p hashes fs).fs).hashes.get
            (hexString (host.md5Sum ((host.Abs p).toOption.getD []))) = some p) ∧
      (∀ e ∈ (sendFile host c p hashes fs).hashes.entries,
        e ∈ hashes.entries ∨ e = (hexString (host.md5Sum ((host.Abs p).toOption.getD [])), p)) ∧
      ((∀ e ∈ hashes.entries, e.1 = hexString (host.md5Sum ((host.Abs e.2).toOption.getD []))) →
        ∀ e ∈ (sendFile host c p hashes fs).hashes.entries,
          e.1 = hexString (host.md5Sum ((host.Abs e.2).toOption.getD []))) ∧
      ((hashes.entries.map Prod.fst).Nodup →
        ((sendFile host c p hashes fs).hashes.entries.map Prod.fst).Nodup) := by
  have hreal : realPathOf host p = (host.Abs p).toOption.getD [] := by
    unfold realPathOf
    cases host.Abs p <;> rfl
  have htok : tokenOf host p = hexString (host.md5Sum ((host.Abs p).toOption.getD [])) := by
    rw [tokenOf, hreal]
  have hmem : ∀ (h : Registry) (t q : Bytes), ∀ e ∈ (h.set t q).entries,
      e ∈ h.entries ∨ e = (t, q) := by
    intro h t q e he
    simp only [Registry.set, List.mem_cons, List.mem_filter] at he
    rcases he with he | he
    · exact Or.inr he
    · exact Or.inl he.1
  have hadd : ∀ e ∈ (sendFile host c p hashes fs).hashes.entries,
      e ∈ hashes.entries ∨ e = (hexString (host.md5Sum ((host.Abs p).toOption.getD [])), p) := by
    intro e he
    rcases sendFile_cases host c p hashes fs with ⟨_, h2⟩ | ⟨_, h2, _, _⟩
    · rw [h2, htok] at he
      exact hmem _ _ _ e he
    · rw [h2] at he
      exact Or.inl he
  refine ⟨?_, fun h => ?_, fun h => ?_, hadd, fun hinv e he => ?_, fun hn => ?_⟩
  · rcases sendFile_cases host c p hashes fs with ⟨_, h2⟩ | ⟨_, h2, h3, h4⟩
    · rcases sendFile_cases host (sendFile host c p hashes fs).c p
        (sendFile host c p hashes fs).hashes (sendFile host c p hashes fs).fs with
        ⟨_, k2⟩ | ⟨_, k2, _, _⟩
      · rw [k2, h2, Registry.set_set]
      · exact k2
    · rw [h2, h3, h4, h2]
  · rcases sendFile_cases host c p hashes fs with ⟨_, h2⟩ | ⟨⟨e, h1⟩, _⟩
    · rw [h2, htok]
      exact ⟨rfl, Registry.get_set_self _ _ _⟩
    · rw [h1] at h; exact Ret.noConfusion h
  · rcases sendFile_cases host (sendFile host c p hashes fs).c p
      (sendFile host c p hashes fs).hashes (sendFile host c p hashes fs).fs with
      ⟨_, k2⟩ | ⟨⟨e, k1⟩, _⟩
    · rw [k2, htok]
      exact Registry.get_set_self _ _ _
    · rw [k1] at h; exact Ret.noConfusion h
  · rcases hadd e he with h | h
    · exact hinv e h
    · rw [h]
  · rcases sendFile_cases host c p hashes fs with ⟨_, h2⟩ | ⟨_, h2, _, _⟩
    · rw [h2]
      exact Registry.set_keys _ _ _ hn
    · rw [h2]; exact hn

set_option maxRecDepth 8000 in
/-- Witness for C14: after one call and after two calls on `/tmp/a.txt` the
registry holds that path once, under the digest of `/tmp/a.txt`; a call on
`/proc/version` then adds that path under another key. -/
theorem sendFile_idempotent_witness :
    (sendFile exHost (sendFile exHost (NewConn (exNet [])) (B "/tmp/a.txt") ⟨[]⟩ exProcFS).c
        (B "/tmp/a.txt") (sendFile exHost (NewConn (exNet [])) (B "/tmp/a.txt") ⟨[]⟩ exProcFS).hashes
        (sendFile exHost (NewConn (exNet [])) (B "/tmp/a.txt") ⟨[]⟩ exProcFS).fs).hashes
      = ⟨[(B "5075d607c55146298a1b78a69db84941", B "/tmp/a.txt")]⟩ ∧
      (sendFile exHost (NewConn (exNet [])) (B "/tmp/a.txt") ⟨[]⟩ exProcFS).hashes.get
        (B "5075d607c55146298a1b78a69db84941") = some (B "/tmp/a.txt") ∧
      (sendFile exHost (NewConn (exNet [])) (B "/proc/version") exHashes exProcFS).hashes
        = ⟨[(B "76346a586b8f00038ceb2b977da26ff2", B "/proc/version"),
            (B "5075d607c55146298a1b78a69db84941", B "/tmp/a.txt")]⟩ :=
  ⟨((sendFile_idempotent exHost (NewConn (exNet [])) (B "/tmp/a.txt") ⟨[]⟩ exProcFS).1).trans
      (by decide),
    ((sendFile_idempotent exHost (NewConn (exNet [])) (B "/tmp/a.txt") ⟨[]⟩ exProcFS).2.1
      (by decide)).2,
    (((sendFile_idempotent exHost (NewConn (exNet [])) (B "/proc/version") exHashes exProcFS).2.1
      (by decide)).1).trans (by decide)⟩

/-- C15: `sendFile` drops the result of every send and of the flush.  With
no failure of the file system, for a path `p` that holds a regular file or no
file, it returns nil and registers `p` under its token, the digest of its
absolute path, on every channel, whatever the sends and the flush returned. -/
theorem sendFile_registers_on_any_channel (host : Host) (c : Conn) (p : Bytes)
    (hashes : Registry) (fs : FS) (hfaults : fs.faults = Faults.none)
    (hreg : ∀ f, fs.files p = some f → f.isDir = false) :
    (sendFile host c p hashes fs).ret = .nil ∧
      (sendFile host c p hashes fs).hashes
        = hashes.set (hexString (host.md5Sum ((host.Abs p).toOption.getD []))) p ∧
      (sendFile host c p hashes fs).hashes.get
        (hexString (host.md5Sum ((host.Abs p).toOption.getD []))) = some p := by
  have hreal : realPathOf host p = (host.Abs p).toOption.getD [] := by
    unfold realPathOf
    cases host.Abs p <;> rfl
  have htok : tokenOf host p = hexString (host.md5Sum ((host.Abs p).toOption.getD [])) := by
    rw [tokenOf, hreal]
  have hf1 : fs.faults.stat = none := by rw [hfaults]; rfl
  have hf2 : fs.faults.openFile = none := by rw [hfaults]; rfl
  have hf3 : fs.faults.create = none := by rw [hfaults]; rfl
  have hnil : (sendFile host c p hashes fs).ret = .nil := by
    cases hfile : fs.files p with
    | some f =>
      have hnd := hreg f hfile
      simp only [sendFile, FS.Stat, hf1, hfile, hnd, FS.Open, hf2, Bool.false_eq_true, if_false]
    | none =>
      simp only [sendFile, FS.Stat, hf1, hfile, FS.Create, hf3]
  rcases sendFile_cases host c p hashes fs with ⟨_, h2⟩ | ⟨⟨e, h1⟩, _⟩
  · rw [h2, htok]
    exact ⟨hnil, rfl, Registry.get_set_self _ _ _⟩
  · rw [h1] at hnil; exact Ret.noConfusion hnil

set_option maxRecDepth 8000 in
/-- Witness for C15: on a connection whose writes fail, `sendFile` on
`/tmp/a.txt` returns nil and registers the session although the flush has
failed: nothing has reached the peer, and the broken pipe is the stored error
of the channel, which had none before. -/
theorem sendFile_registers_after_failed_flush :
    (sendFile exHost (NewConn exBrokenNet) (B "/tmp/a.txt") ⟨[]⟩ exFS).ret = .nil ∧
      (sendFile exHost (NewConn exBrokenNet) (B "/tmp/a.txt") ⟨[]⟩ exFS).hashes = exHashes ∧
      (sendFile exHost (NewConn exBrokenNet) (B "/tmp/a.txt") ⟨[]⟩ exFS).c.conn.outgoing = [] ∧
      (sendFile exHost (NewConn exBrokenNet) (B "/tmp/a.txt") ⟨[]⟩ exFS).c.Err
        = some (.sys "broken pipe") ∧
      (NewConn exBrokenNet).Err = none :=
  ⟨(sendFile_registers_on_any_channel exHost (NewConn exBrokenNet) (B "/tmp/a.txt")
      ⟨[]⟩ exFS rfl
      (fun f hf => by
        have hx : exFS.files (B "/tmp/a.txt") = some ⟨false, 0o644, B "hello\nworld"⟩ := by decide
        rw [hx] at hf
        cases hf
        rfl)).1,
    by decide, by decide, by decide, by decide⟩

/-! ## The receive loop -/

/-- C13: in every run of the receive loop, each call of `conn.Receive` is
made with a registry that is not empty; when the registry is empty at the top
of an iteration the loop ends there with the `exit, no open files` outcome
and the channel is exactly as it was, so nothing more is read; and the loop
ends with that outcome only with an empty registry. -/
theorem loop_reads_only_when_open (fuel : Nat) (c : Conn) (hashes : Registry) (fs : FS) :
    (∀ h ∈ (mainLoop fuel c hashes fs).readAt, 1 ≤ h.len) ∧
      (hashes.len < 1 →
        (mainLoop (fuel + 1) c hashes fs).out
            = { ret := .err (.exit "exit, no open files" 86), c := c, hashes := hashes, fs := fs } ∧
          (mainLoop (fuel + 1) c hashes fs).readAt = []) ∧
      ((mainLoop fuel c hashes fs).out.ret = .err (.exit "exit, no open files" 86) →
        (mainLoop fuel c hashes fs).out.hashes.len < 1) := by
  refine ⟨?_, ?_, ?_⟩
  · induction fuel generalizing c hashes fs with
    | zero => intro h hh; simp [mainLoop] at hh
    | succ fuel ih =>
      intro h hh
      rw [mainLoop] at hh
      by_cases he : hashes.len < 1
      · rw [if_pos he] at hh; simp at hh
      · rw [if_neg he] at hh
        have hlen : 1 ≤ hashes.len := by omega
        generalize c.Receive = rc at hh
        obtain ⟨r, c1⟩ := rc
        cases r with
        | error e =>
          dsimp only at hh
          by_cases hE : e ≠ GoError.EOF
          · rw [if_pos hE] at hh
            simp only [List.mem_singleton] at hh
            rw [hh]; exact hlen
          · rw [if_neg hE] at hh
            simp only [List.mem_cons] at hh
            rcases hh with hh | hh
            · rw [hh]; exact hlen
            · exact ih _ _ _ h hh
        | ok line =>
          dsimp only at hh
          cases hr : (processRecv c1 line hashes fs).ret with
          | panic msg =>
            simp only [hr, List.mem_singleton] at hh
            rw [hh]; exact hlen
          | nil =>
            simp only [hr, List.mem_cons] at hh
            rcases hh with hh | hh
            · rw [hh]; exact hlen
            · exact ih _ _ _ h hh
          | err e =>
            simp only [hr, List.mem_cons] at hh
            rcases hh with hh | hh
            · rw [hh]; exact hlen
            · exact ih _ _ _ h hh
  · intro he
    rw [mainLoop, if_pos he]
    exact ⟨rfl, rfl⟩
  · induction fuel generalizing c hashes fs with
    | zero => intro h; simp [mainLoop] at h
    | succ fuel ih =>
      rw [mainLoop]
      by_cases he : hashes.len < 1
      · rw [if_pos he]; intro _; exact he
      · rw [if_neg he]
        generalize c.Receive = rc
        obtain ⟨r, c1⟩ := rc
        cases r with
        | error e =>
          dsimp only
          by_cases hE : e ≠ GoError.EOF
          · rw [if_pos hE]; intro h; simp at h
          · rw [if_neg hE]; exact ih _ _ _
        | ok line =>
          dsimp only
          cases hr : (processRecv c1 line hashes fs).ret with
          | panic msg => intro h; simp at h
          | nil => exact ih _ _ _
          | err e => exact ih _ _ _

/-- Witness for C13: with the session of `ab` open, the loop reads `close`
and its `token` line, and ends at the next check with `exit, no open files`;
the blank line and the `save` command after it are still in the stream, and
the one `Receive` the loop made saw the registry with `ab` in it. -/
theorem loop_reads_only_when_open_witness :
    (receiveLoop (NewConn (exNet [B "close\ntoken: ab\n\nsave\ntoken: ab\ndata: 1\nx"]))
        ⟨[(B "ab", B "/tmp/a.txt")]⟩ exFS).out.ret = .err (.exit "exit, no open files" 86) ∧
      unread
        (receiveLoop (NewConn (exNet [B "close\ntoken: ab\n\nsave\ntoken: ab\ndata: 1\nx"]))
          ⟨[(B "ab", B "/tmp/a.txt")]⟩ exFS).out.c.br
        (receiveLoop (NewConn (exNet [B "close\ntoken: ab\n\nsave\ntoken: ab\ndata: 1\nx"]))
          ⟨[(B "ab", B "/tmp/a.txt")]⟩ exFS).out.c.conn
        = B "\nsave\ntoken: ab\ndata: 1\nx" ∧
      (receiveLoop (NewConn (exNet [B "close\ntoken: ab\n\nsave\ntoken: ab\ndata: 1\nx"]))
        ⟨[(B "ab", B "/tmp/a.txt")]⟩ exFS).readAt = [⟨[(B "ab", B "/tmp/a.txt")]⟩] ∧
      (mainLoop 1 (NewConn (exNet [B "close\n"])) ⟨[]⟩ exFS).readAt = [] :=
  ⟨by decide, by decide, by decide,
    ((loop_reads_only_when_open 0 (NewConn (exNet [B "close\n"])) ⟨[]⟩ exFS).2.1 (by decide)).2⟩

/-! ## Header lines that are neither `token` nor `data` -/

theorem saveHeader_skip (fuel : Nat) (token l : Bytes) (c : Conn)
    (hr : (c.Receive).1 = .ok l) (h1 : HasPrefix l (B "token:") = false)
    (h2 : HasPrefix l (B "data:") = false) :
    saveHeader (fuel + 1) token c = saveHeader fuel token (c.Receive).2 := by
  rw [saveHeader]
  generalize c.Receive = p at hr
  obtain ⟨p1, p2⟩ := p
  simp only at hr
  subst hr
  simp only [h1, h2, Bool.false_eq_true, if_false]

theorem saveHeader_data_key (fuel : Nat) (token : Bytes) (c : Conn)
    (hr : (c.Receive).1 = .ok (B "data:")) :
    saveHeader (fuel + 1) token c
      = (.stop (.panic "slice bounds out of range"), (c.Receive).2) := by
  have h1 : HasPrefix (B "data:") (B "token:") = false := by decide
  have h2 : HasPrefix (B "data:") (B "data:") = true := by decide
  have h3 : sliceFrom 6 (B "data:") = none := by decide
  rw [saveHeader]
  generalize c.Receive = p at hr
  obtain ⟨p1, p2⟩ := p
  simp only at hr
  subst hr
  simp only [h1, h2, h3, Bool.false_eq_true, if_false, if_true]

/-- C17 (amended): a blank line does not end the header of `save`; the loop
ends only at a `data` line (or when `Receive` fails).  On a stream that holds
`token: t`, the blank line, and then `data: d`, `processRecv` reads past the
blank line, takes `d` as the size of this save and runs it on the bytes after
the `data` line. -/
theorem save_header_reads_past_blank_line (c : Conn) (line t d rest : Bytes) (size : Int)
    (hashes : Registry) (fs : FS) (hcmd : TrimSpace line = B "save") (ht : TrimSpace t = t)
    (hnl : (10 : UInt8) ∉ t) (hd : (10 : UInt8) ∉ d) (hsize : ParseInt d = .ok size)
    (hs : ReadsFrom c (B "token: " ++ t ++ 10 :: 10 :: (B "data: " ++ d ++ 10 :: rest))) :
    ∃ a, ReadsFrom a rest ∧ processRecv c line hashes fs = saveBody t size a hashes fs := by
  obtain ⟨r1, r2, _⟩ := Receive_line c (B "token: " ++ t) _ (mem_header_line not_mem_token hnl) hs
  obtain ⟨q1, q2, _⟩ := Receive_line (c.Receive).2 [] _ (by simp) r2
  obtain ⟨p1, p2, _⟩ :=
    Receive_line ((c.Receive).2.Receive).2 (B "data: " ++ d) rest
      (mem_header_line not_mem_data hd) q2
  obtain ⟨f, hf⟩ : ∃ f, pending c.br c.conn + 1 = f + 3 := by
    refine ⟨pending c.br c.conn - 2, ?_⟩
    have := hs.2.2.2
    rw [pending_eq, this]
    simp only [List.length_append, List.length_cons, List.length_nil]
    omega
  refine ⟨(((c.Receive).2.Receive).2.Receive).2, p2, ?_⟩
  rw [processRecv_save c line hashes fs hcmd, hf, saveHeader_token _ _ _ _ r1, ht,
    saveHeader_skip _ _ [] _ q1 (by decide) (by decide), saveHeader_data _ _ _ _ p1, hsize]

/-- Witness for C17: the size `3` after the blank line is taken for the
save of `ab`. -/
theorem save_header_reads_past_blank_line_witness :
    ∃ a, ReadsFrom a (B "xyz") ∧
      processRecv (NewConn (exNet [B "token: ab\n\ndata: 3\nxyz"])) (B "save")
          ⟨[(B "ab", B "/tmp/a.txt")]⟩ exFS
        = saveBody (B "ab") 3 a ⟨[(B "ab", B "/tmp/a.txt")]⟩ exFS :=
  save_header_reads_past_blank_line (NewConn (exNet [B "token: ab\n\ndata: 3\nxyz"])) (B "save")
    (B "ab") (B "3") (B "xyz") 3 ⟨[(B "ab", B "/tmp/a.txt")]⟩ exFS (by decide) (by decide)
    (by decide) (by decide) rfl ⟨by decide, rfl, rfl, by decide⟩

/-- Counterexample for C17: the header block of the first `save` ends at its
blank line without a `data` field, and a second `save` follows.  The first
`processRecv` does not stop at the blank line: it reads the command line and
the header of the second save as its own header lines and its payload, so the
whole stream is consumed and `/tmp/a.txt` holds `xyz`. -/
theorem save_header_does_not_stop_at_blank_line :
    (processRecv (NewConn (exNet [B "token: ab\n\nsave\ntoken: ab\ndata: 3\nxyz"])) (B "save")
        ⟨[(B "ab", B "/tmp/a.txt")]⟩ exFS).ret = .nil ∧
      unread
        (processRecv (NewConn (exNet [B "token: ab\n\nsave\ntoken: ab\ndata: 3\nxyz"])) (B "save")
          ⟨[(B "ab", B "/tmp/a.txt")]⟩ exFS).c.br
        (processRecv (NewConn (exNet [B "token: ab\n\nsave\ntoken: ab\ndata: 3\nxyz"])) (B "save")
          ⟨[(B "ab", B "/tmp/a.txt")]⟩ exFS).c.conn = [] ∧
      (processRecv (NewConn (exNet [B "token: ab\n\nsave\ntoken: ab\ndata: 3\nxyz"])) (B "save")
        ⟨[(B "ab", B "/tmp/a.txt")]⟩ exFS).fs.files (B "/tmp/a.txt")
        = some ⟨false, 0o644, B "xyz"⟩ := by
  decide

/-! ## The slices `line[6:]` -/

theorem sliceFrom_of_token_key (l : Bytes) (h : HasPrefix l (B "token:") = true) :
    sliceFrom 6 l = some (l.drop 6) := by
  have hp : B "token:" <+: l := List.isPrefixOf_iff_prefix.mp h
  have hlen : (B "token:").length ≤ l.length := hp.length_le
  have h6 : (B "token:").length = 6 := by decide
  simp only [sliceFrom]
  rw [if_pos (by omega)]

/-- C18: the five-byte header line `data:` makes the `save` case take the
slice `line[6:]` out of range: `processRecv` panics instead of returning an
error.  The slice taken after the prefix `token:` is always within bounds. -/
theorem save_data_key_panics (c : Conn) (line rest : Bytes) (hashes : Registry) (fs : FS)
    (hcmd : TrimSpace line = B "save") (hs : ReadsFrom c (B "data:" ++ 10 :: rest)) :
    (processRecv c line hashes fs).ret = .panic "slice bounds out of range" ∧
      ∀ l, HasPrefix l (B "token:") = true → sliceFrom 6 l = some (l.drop 6) := by
  obtain ⟨r1, _⟩ := Receive_line c (B "data:") rest (by decide) hs
  refine ⟨?_, sliceFrom_of_token_key⟩
  rw [processRecv_save c line hashes fs hcmd, saveHeader_data_key _ _ _ r1]

/-- Witness for C18: the header of the save is the one line `data:`. -/
theorem save_data_key_panics_witness :
    (processRecv (NewConn (exNet [B "data:\n"])) (B "save") ⟨[(B "ab", B "/tmp/a.txt")]⟩
      exFS).ret = .panic "slice bounds out of range" :=
  (save_data_key_panics (NewConn (exNet [B "data:\n"])) (B "save") [] ⟨[(B "ab", B "/tmp/a.txt")]⟩
    exFS (by decide) ⟨by decide, rfl, rfl, by decide⟩).1

/-! ## The `save` body after the copy -/

/-- The `save` body for a registered token whose file exists, once the copy
has returned `data` and no error, when `TempFile`, `Stat` and `Rename`
succeed: nil is returned and the file holds `data`, under its old permission
bits when `Chmod` succeeds and under those of the temporary file when it
fails. -/
theorem saveBody_copied (token data file : Bytes) (size : Int) (f : File) (c : Conn)
    (hashes : Registry) (fs : FS) (hcp : (CopyN size c.br c.conn).1 = (data, none))
    (hget : hashes.get token = some file) (hfile : fs.files file = some f)
    (hnd : f.isDir = false) (hf1 : fs.faults.tempFile = none) (hf2 : fs.faults.stat = none)
    (hf3 : fs.faults.rename = none) (hfresh : fs.files (fs.tempName fs.tempCount) = none) :
    (saveBody token size c hashes fs).ret = .nil ∧
      (saveBody token size c hashes fs).fs.files file
        = some { isDir := false,
                 perm := (match fs.faults.chmod with | none => f.perm | some _ => 0o600),
                 data := data } ∧
      (saveBody token size c hashes fs).c
        = { c with br := (CopyN size c.br c.conn).2.1, conn := (CopyN size c.br c.conn).2.2 } := by
  have hne : file ≠ fs.tempName fs.tempCount := by
    intro e; rw [e] at hfile; rw [hfile] at hfresh; exact Option.noConfusion hfresh
  cases hf4 : fs.faults.chmod with
  | none =>
    have hv : saveBody token size c hashes fs =
        { ret := .nil,
          c := { c with br := (CopyN size c.br c.conn).2.1, conn := (CopyN size c.br c.conn).2.2 },
          hashes := hashes,
          fs := (((({ fs with tempCount := fs.tempCount + 1 } : FS).put
                    (fs.tempName fs.tempCount) (some { isDir := false, perm := 0o600, data := data })).put
                    (fs.tempName fs.tempCount) none).put file
                    (some { isDir := false, perm := 0o600, data := data })).put file
                    (some { isDir := false, perm := f.perm, data := data }) } := by
      simp only [saveBody, FS.TempFile, hf1, hfresh, Conn.GetReader, hcp, FS.writeFile, FS.put,
        if_true, hget, FS.Stat, hf2, if_neg hne, hfile, FS.Rename, hf3, hnd, FS.Chmod, hf4,
        Bool.false_eq_true, if_false]
      congr 2
      funext q
      by_cases hq : q = file <;>
        by_cases hq2 : q = fs.tempName fs.tempCount <;> simp [hq, hq2, hne]
    rw [hv]
    exact ⟨rfl, by simp [FS.put], rfl⟩
  | some m =>
    have hv : saveBody token size c hashes fs =
        { ret := .nil,
          c := { c with br := (CopyN size c.br c.conn).2.1, conn := (CopyN size c.br c.conn).2.2 },
          hashes := hashes,
          fs := ((({ fs with tempCount := fs.tempCount + 1 } : FS).put
                    (fs.tempName fs.tempCount) (some { isDir := false, perm := 0o600, data := data })).put
                    (fs.tempName fs.tempCount) none).put file
                    (some { isDir := false, perm := 0o600, data := data }) } := by
      simp only [saveBody, FS.TempFile, hf1, hfresh, Conn.GetReader, hcp, FS.writeFile, FS.put,
        if_true, hget, FS.Stat, hf2, if_neg hne, hfile, FS.Rename, hf3, hnd, FS.Chmod, hf4,
        Bool.false_eq_true, if_false]
      congr 2
      funext q
      by_cases hq : q = file <;>
        by_cases hq2 : q = fs.tempName fs.tempCount <;> simp [hq, hq2, hne]
    rw [hv]
    exact ⟨rfl, by simp [FS.put], rfl⟩

/-- The `save` body when `Stat` or `Rename` is made to fail: the error is
returned and the file is as it was. -/
theorem saveBody_stat_rename_fault (token data file : Bytes) (size : Int) (f : File) (c : Conn)
    (hashes : Registry) (fs : FS) (m : String)
    (hcp : (CopyN size c.br c.conn).1 = (data, none))
    (hget : hashes.get token = some file) (hfile : fs.files file = some f)
    (hf1 : fs.faults.tempFile = none)
    (hfault : fs.faults.stat = some m ∨ (fs.faults.stat = none ∧ fs.faults.rename = some m))
    (hfresh : fs.files (fs.tempName fs.tempCount) = none) :
    (saveBody token size c hashes fs).ret = .err (.sys m) ∧
      (saveBody token size c hashes fs).fs.files file = some f := by
  have hne : file ≠ fs.tempName fs.tempCount := by
    intro e; rw [e] at hfile; rw [hfile] at hfresh; exact Option.noConfusion hfresh
  rcases hfault with hf2 | ⟨hf2, hf3⟩
  · have hv : saveBody token size c hashes fs =
        { ret := .err (.sys m),
          c := { c with br := (CopyN size c.br c.conn).2.1, conn := (CopyN size c.br c.conn).2.2 },
          hashes := hashes,
          fs := ({ fs with tempCount := fs.tempCount + 1 } : FS).put
                    (fs.tempName fs.tempCount) (some { isDir := false, perm := 0o600, data := data }) } := by
      simp only [saveBody, FS.TempFile, hf1, hfresh, Conn.GetReader, hcp, FS.writeFile, FS.put,
        if_true, hget, FS.Stat, hf2]
      congr 2
      funext q
      by_cases hq2 : q = fs.tempName fs.tempCount <;> simp [hq2]
    rw [hv]
    exact ⟨rfl, by simp [FS.put, hne, hfile]⟩
  · have hv : saveBody token size c hashes fs =
        { ret := .err (.sys m),
          c := { c with br := (CopyN size c.br c.conn).2.1, conn := (CopyN size c.br c.conn).2.2 },
          hashes := hashes,
          fs := ({ fs with tempCount := fs.tempCount + 1 } : FS).put
                    (fs.tempName fs.tempCount) (some { isDir := false, perm := 0o600, data := data }) } := by
      simp only [saveBody, FS.TempFile, hf1, hfresh, Conn.GetReader, hcp, FS.writeFile, FS.put,
        if_true, hget, FS.Stat, hf2, if_neg hne, hfile, FS.Rename, hf3]
      congr 2
      funext q
      by_cases hq2 : q = fs.tempName fs.tempCount <;> simp [hq2]
    rw [hv]
    exact ⟨rfl, by simp [FS.put, hne, hfile]⟩

/-- Function `CopyN` with a negative size reads nothing and returns no
error. -/
theorem CopyN_negative (size : Int) (r : Reader) (n : NetConn) (h : size < 0) :
    CopyN size r n = (([], none), r, n) := by
  have ht : size.toNat = 0 := Int.toNat_eq_zero.mpr (le_of_lt h)
  have h1 : ¬ ((0 : Int) = size) := by omega
  have h2 : ¬ ((0 : Int) < size) := by omega
  simp [CopyN, ht, copyLoop, h1, h2]

/-- Function `ParseInt` reads a minus sign and the decimal text of `k` as
`-k`, down to the least `int64`. -/
theorem ParseInt_negative (k : Nat) (h : k ≤ 9223372036854775808) :
    ParseInt (45 :: FormatInt k) = .ok (-(k : Int)) := by
  have hp := parseDigits_decDigits (k + 1) k (by omega) (by omega)
  have hne := decDigits_ne_nil k k
  have hlt : ¬ 9223372036854775808 < k := by omega
  simp only [ParseInt]
  simp [FormatInt, hp, hlt, hne]

/-! ## Claims about the `save` body -/

theorem B_data_minus : B "data: -" = B "data: " ++ [45] := by decide

/-- C19 (amended): a `save` on a known token whose header declares
`data: -k` with `0 < k ≤ 2^63` returns nil: the size is parsed without error, no byte after the
`data` line is consumed, and the target file is replaced by an empty file
(under its old permission bits); the registry is as it was. -/
theorem save_negative_size (c : Conn) (line t p rest : Bytes) (k : Nat) (f : File)
    (hashes : Registry) (fs : FS) (hcmd : TrimSpace line = B "save") (ht : TrimSpace t = t)
    (hnl : (10 : UInt8) ∉ t) (hk : 0 < k) (hk2 : k ≤ 9223372036854775808)
    (hreg : hashes.get t = some p) (hfile : fs.files p = some f) (hnd : f.isDir = false)
    (hfaults : fs.faults = Faults.none) (hfresh : fs.files (fs.tempName fs.tempCount) = none)
    (hs : ReadsFrom c (B "token: " ++ t ++ 10 :: (B "data: -" ++ FormatInt k ++ 10 :: rest))) :
    (processRecv c line hashes fs).ret = .nil ∧
      (processRecv c line hashes fs).fs.files p
        = some { isDir := false, perm := f.perm, data := [] } ∧
      ReadsFrom (processRecv c line hashes fs).c rest ∧
      (processRecv c line hashes fs).hashes = hashes := by
  have hd : (10 : UInt8) ∉ (45 : UInt8) :: FormatInt k := by
    intro h
    rcases List.mem_cons.mp h with h | h
    · exact absurd h (by decide)
    · exact FormatInt_no_newline k h
  have e : B "token: " ++ t ++ 10 :: (B "data: -" ++ FormatInt k ++ 10 :: rest)
      = B "token: " ++ t ++ 10 :: (B "data: " ++ (45 :: FormatInt k) ++ 10 :: rest) := by
    rw [B_data_minus]; simp
  rw [e] at hs
  obtain ⟨c2, hc2, _, _, _, hh⟩ := saveHeader_token_data c t (45 :: FormatInt k) rest ht hnl hd hs
  have hneg : (-(k : Int)) < 0 := by omega
  have hcp := CopyN_negative (-(k : Int)) c2.br c2.conn hneg
  have hf1 : fs.faults.tempFile = none := by rw [hfaults]; rfl
  have hf2 : fs.faults.stat = none := by rw [hfaults]; rfl
  have hf3 : fs.faults.rename = none := by rw [hfaults]; rfl
  have hf4 : fs.faults.chmod = none := by rw [hfaults]; rfl
  obtain ⟨k1, k2, k3⟩ := saveBody_copied t [] p (-(k : Int)) f c2 hashes fs (by rw [hcp]) hreg
    hfile hnd hf1 hf2 hf3 hfresh
  rw [hf4] at k2
  rw [hcp] at k3
  rw [processRecv_save c line hashes fs hcmd, hh, ParseInt_negative k hk2]
  refine ⟨k1, k2, ?_, saveBody_hashes _ _ _ _ _⟩
  rw [k3]
  exact hc2

/-- Witness for C19: the declared size `-3` empties `/tmp/a.txt` and leaves
the three bytes after the header in the stream. -/
theorem save_negative_size_witness :
    (processRecv (NewConn (exNet [B "token: ab\ndata: -3\nxyz"])) (B "save")
        ⟨[(B "ab", B "/tmp/a.txt")]⟩ exFS).ret = .nil ∧
      (processRecv (NewConn (exNet [B "token: ab\ndata: -3\nxyz"])) (B "save")
        ⟨[(B "ab", B "/tmp/a.txt")]⟩ exFS).fs.files (B "/tmp/a.txt")
        = some { isDir := false, perm := 0o644, data := [] } ∧
      ReadsFrom (processRecv (NewConn (exNet [B "token: ab\ndata: -3\nxyz"])) (B "save")
        ⟨[(B "ab", B "/tmp/a.txt")]⟩ exFS).c (B "xyz") :=
  (fun h => ⟨h.1, h.2.1, h.2.2.1⟩)
    (save_negative_size (NewConn (exNet [B "token: ab\ndata: -3\nxyz"])) (B "save") (B "ab")
      (B "/tmp/a.txt") (B "xyz") 3 ⟨false, 0o644, B "hello\nworld"⟩ ⟨[(B "ab", B "/tmp/a.txt")]⟩
      exFS (by decide) (by decide) (by decide) (by decide) (by decide) (by decide) (by decide) rfl
      rfl (by decide) ⟨by decide, rfl, rfl, by decide⟩)

set_option maxRecDepth 8000 in
/-- Counterexample for C19: the declared size `-9223372036854775809`, one
below the least 64-bit integer, is a size error: `processRecv` returns the
range error of `ParseInt`, and the target file is as it was. -/
theorem save_negative_size_out_of_range :
    (processRecv (NewConn (exNet [B "token: ab\ndata: -9223372036854775809\nxyz"])) (B "save")
        ⟨[(B "ab", B "/tmp/a.txt")]⟩ exFS).ret
      = .err (.numRange (B "-9223372036854775809")) ∧
      (processRecv (NewConn (exNet [B "token: ab\ndata: -9223372036854775809\nxyz"])) (B "save")
        ⟨[(B "ab", B "/tmp/a.txt")]⟩ exFS).fs.files (B "/tmp/a.txt")
        = some { isDir := false, perm := 0o644, data := B "hello\nworld" } ∧
      B "-9223372036854775809" = 45 :: FormatInt 9223372036854775809 := by
  decide

/-- C16: a `save` on a known token, with the payload in the stream.  When
`Stat` fails, and when `Rename` fails, `processRecv` returns that error and
the original file is as it was.  When `Chmod` fails, `processRecv` returns
nil: the failure is not reported, and the file holds the payload under the
permission bits of the temporary file, 0600. -/
theorem save_fs_failures (c : Conn) (line t p payload rest : Bytes) (f : File) (m : String)
    (hashes : Registry) (fs : FS) (hcmd : TrimSpace line = B "save") (ht : TrimSpace t = t)
    (hnl : (10 : UInt8) ∉ t) (hreg : hashes.get t = some p) (hfile : fs.files p = some f)
    (hnd : f.isDir = false) (hN : payload.length < 9223372036854775808)
    (hf1 : fs.faults.tempFile = none) (hfresh : fs.files (fs.tempName fs.tempCount) = none)
    (hs : ReadsFrom c (B "token: " ++ t ++
      10 :: (B "data: " ++ FormatInt payload.length ++ 10 :: (payload ++ rest)))) :
    (fs.faults.stat = some m →
        (processRecv c line hashes fs).ret = .err (.sys m) ∧
        (processRecv c line hashes fs).fs.files p = some f) ∧
      (fs.faults.stat = none → fs.faults.rename = some m →
        (processRecv c line hashes fs).ret = .err (.sys m) ∧
        (processRecv c line hashes fs).fs.files p = some f) ∧
      (fs.faults.stat = none → fs.faults.rename = none → fs.faults.chmod = some m →
        (processRecv c line hashes fs).ret = .nil ∧
        (processRecv c line hashes fs).fs.files p
          = some { isDir := false, perm := 0o600, data := payload }) := by
  obtain ⟨c2, hc2, _, _, _, hh⟩ := saveHeader_token_data c t (FormatInt payload.length)
    (payload ++ rest) ht hnl (FormatInt_no_newline _) hs
  obtain ⟨hsz, herr, hopen, hs2⟩ := hc2
  obtain ⟨j1, _⟩ := CopyN_exact c2.br c2.conn payload rest hsz herr hopen hs2
  have hv : processRecv c line hashes fs = saveBody t payload.length c2 hashes fs := by
    rw [processRecv_save c line hashes fs hcmd, hh, ParseInt_FormatInt _ hN]
  rw [hv]
  refine ⟨fun h2 => ?_, fun h2 h3 => ?_, fun h2 h3 h4 => ?_⟩
  · exact saveBody_stat_rename_fault t payload p _ f c2 hashes fs m j1 hreg hfile hf1
      (Or.inl h2) hfresh
  · exact saveBody_stat_rename_fault t payload p _ f c2 hashes fs m j1 hreg hfile hf1
      (Or.inr ⟨h2, h3⟩) hfresh
  · obtain ⟨k1, k2, _⟩ := saveBody_copied t payload p _ f c2 hashes fs j1 hreg hfile hnd hf1 h2 h3
      hfresh
    rw [h4] at k2
    exact ⟨k1, k2⟩

/-- Witness for C16: `Chmod` fails during the save of `howdy` to
`/tmp/a.txt` (mode 0644): nil is returned and the file is left with mode
0600. -/
theorem save_fs_failures_witness :
    (processRecv (NewConn (exNet [B "token: ab\ndata: 5\nhowdy"])) (B "save")
        ⟨[(B "ab", B "/tmp/a.txt")]⟩ exChmodFS).ret = .nil ∧
      (processRecv (NewConn (exNet [B "token: ab\ndata: 5\nhowdy"])) (B "save")
        ⟨[(B "ab", B "/tmp/a.txt")]⟩ exChmodFS).fs.files (B "/tmp/a.txt")
        = some { isDir := false, perm := 0o600, data := B "howdy" } :=
  (save_fs_failures (NewConn (exNet [B "token: ab\ndata: 5\nhowdy"])) (B "save") (B "ab")
    (B "/tmp/a.txt") (B "howdy") [] ⟨false, 0o644, B "hello\nworld"⟩ "operation not permitted"
    ⟨[(B "ab", B "/tmp/a.txt")]⟩ exChmodFS (by decide) (by decide) (by decide) (by decide)
    (by decide) rfl (by decide) rfl (by decide) ⟨by decide, rfl, rfl, by decide⟩).2.2 rfl rfl rfl

end Rsubl
